import Mathlib

/-!
xv6-labs-2023: buffer cache, per-CPU page allocator, mmap subsystem and xargs

A shallow embedding of `kernel/bio.c`, `kernel/kalloc.c`, the mmap part of
`kernel/file.c`, `sys_pgaccess` of `kernel/sysproc.c` and `user/xargs.c`, with the
properties of the specification proved (or refuted) over it.

Conventions of the embedding
* C pointers into the static arrays of `bcache` are values of `Ptr`; the fields of
  `struct buf` are stored field-wise, `s.next p` being `p->next`.
* Unsigned machine integers are natural numbers, reduced `% 2^w` where the code
  can wrap.
* A kernel function returns an `Outcome`: a normal return, a `panic`, a trap on a
  null dereference (`fault`) or no return at all (`hang`).
* Spin locks are taken and dropped inside one call and guard no observable
  state of a call that runs alone; they are not part of the sequential state,
  except `mmaptable.lock` in `mmapdup` (a boolean) and the sections of `bget`,
  which are the atomic steps of `bget_step`.
-/

namespace Xv6

/-! ## Outcomes of kernel calls -/

/-- The diagnostic tags of the `panic` calls of the embedded functions. -/
inductive Halt where
  | bget_no_buffers
  | bwrite
  | brelse
  | kfree
  | munmap_walk
  | munmap_writei
  | mmapclose
  | fileclose
  | mmap_fault_handler_readi
  | filedup
  | release
  deriving DecidableEq, Repr

/-- The text each tag stands for, as written in the source. -/
def Halt.msg : Halt → String
  | .bget_no_buffers => "bget: no buffers"
  | .bwrite => "bwrite"
  | .brelse => "brelse"
  | .kfree => "kfree"
  | .munmap_walk => "munmap: walk"
  | .munmap_writei => "munmap: writei"
  | .mmapclose => "mmapclose"
  | .fileclose => "fileclose"
  | .mmap_fault_handler_readi => "mmap_fault_handler: readi failed"
  | .filedup => "filedup"
  | .release => "release"

/-- How a call of a kernel function ends. -/
inductive Outcome (α : Type) where
  /-- the call returns -/
  | ret (a : α)
  /-- the kernel halts in `panic` -/
  | panic (m : Halt)
  /-- the kernel traps on a load or store through a null pointer -/
  | fault
  /-- the call never returns: it sleeps on a lock nobody will release, or loops for ever -/
  | hang
  deriving Repr

/-- Sequencing of calls: the first failure ends the run. -/
def Outcome.bind {α β : Type} (x : Outcome α) (f : α → Outcome β) : Outcome β :=
  match x with
  | .ret a => f a
  | .panic m => .panic m
  | .fault => .fault
  | .hang => .hang

instance : Monad Outcome where
  pure := Outcome.ret
  bind := Outcome.bind

/-- The call returned. -/
def Outcome.isRet {α : Type} : Outcome α → Bool
  | .ret _ => true
  | _ => false

/-- The call never returned (it is blocked for ever). -/
def Outcome.isHang {α : Type} : Outcome α → Bool
  | .hang => true
  | _ => false

/-- The call halted the kernel with the panic `m`. -/
def Outcome.isPanic {α : Type} (m : Halt) : Outcome α → Bool
  | .panic m' => decide (m' = m)
  | _ => false

/-! ## Buffer cache (`kernel/bio.c`) -/

/-- A `struct buf *`: null, the address of `bcache.buf[i]` or of the bucket
sentinel `bcache.head[i]`. -/
inductive Ptr where
  | null
  | buf (i : Nat)
  | head (i : Nat)
  deriving DecidableEq, Repr

/-- The buffer cache and the disk behind it. The fields of `struct buf` (of every
element of `bcache.buf` and `bcache.head`) are kept field-wise, indexed by the
address of the struct. `lock` is the sleep lock of the buffer: `none` when free,
`some pid` when held by process `pid`. `disk d b` is the content of block `b` of
device `d`. -/
structure BState where
  valid : Ptr → Nat
  dev : Ptr → Nat
  blockno : Ptr → Nat
  lock : Ptr → Option Nat
  refcnt : Ptr → Nat
  prev : Ptr → Ptr
  next : Ptr → Ptr
  data : Ptr → List Nat
  freelist : Ptr
  disk : Nat → Nat → List Nat

/-- Static storage before `binit`: every field zero, every pointer null. -/
def BState.zero (disk : Nat → Nat → List Nat) : BState where
  valid := fun _ => 0
  dev := fun _ => 0
  blockno := fun _ => 0
  lock := fun _ => none
  refcnt := fun _ => 0
  prev := fun _ => .null
  next := fun _ => .null
  data := fun _ => []
  freelist := .null
  disk := disk

/-- `n + 1` in an unsigned 32-bit field. -/
def inc32 (n : Nat) : Nat := (n + 1) % 2 ^ 32

/-- `n - 1` in an unsigned 32-bit field: `0 - 1` wraps to `2^32 - 1`. -/
def dec32 (n : Nat) : Nat := (n + (2 ^ 32 - 1)) % 2 ^ 32

/-- Load `p->next`; a null `p` traps. -/
def ld_next (s : BState) (p : Ptr) : Outcome Ptr :=
  if p = .null then .fault else .ret (s.next p)

/-- Load `p->prev`; a null `p` traps. -/
def ld_prev (s : BState) (p : Ptr) : Outcome Ptr :=
  if p = .null then .fault else .ret (s.prev p)

/-- Store `p->next = v`; a null `p` traps. -/
def st_next (s : BState) (p v : Ptr) : Outcome BState :=
  if p = .null then .fault else .ret { s with next := Function.update s.next p v }

/-- Store `p->prev = v`; a null `p` traps. -/
def st_prev (s : BState) (p v : Ptr) : Outcome BState :=
  if p = .null then .fault else .ret { s with prev := Function.update s.prev p v }

/-- The first loop of `binit`, for bucket `i`: the sentinel points to itself. -/
def binit_bucket (s : BState) (i : Nat) : BState :=
  { s with prev := Function.update s.prev (.head i) (.head i),
           next := Function.update s.next (.head i) (.head i) }

/-- The second loop of `binit`, for buffer `b`: push it on the free list and
initialise its sleep lock. -/
def binit_buf (s : BState) (b : Nat) : BState :=
  { s with next := Function.update s.next (.buf b) s.freelist,
           lock := Function.update s.lock (.buf b) none,
           freelist := .buf b }

/-- `binit`: empty rings for the `NBUCKET` buckets, all `NBUF` buffers on the free list. -/
def binit (NBUF NBUCKET : Nat) (disk : Nat → Nat → List Nat) : BState :=
  let s := (List.range NBUCKET).foldl binit_bucket (BState.zero disk)
  (List.range NBUF).foldl binit_buf { s with freelist := .null }

/-- Modelled from the spec: the sleep lock's `acquiresleep` (kernel/sleeplock.c is not
among the sources): "exclusive lock whose acquisition may park the task". A call
that runs alone never gets a lock that is held: it sleeps for ever. -/
def acquiresleep (s : BState) (b : Ptr) (pid : Nat) : Outcome BState :=
  if b = .null then .fault
  else match s.lock b with
    | none => .ret { s with lock := Function.update s.lock b (some pid) }
    | some _ => .hang

/-- Modelled from the spec: `holdingsleep`, the lock is held and held by the caller. -/
def holdingsleep (s : BState) (b : Ptr) (pid : Nat) : Bool :=
  decide (s.lock b = some pid)

/-- Modelled from the spec: `releasesleep`, the lock becomes free. -/
def releasesleep (s : BState) (b : Ptr) : BState :=
  { s with lock := Function.update s.lock b none }

/-- Result of the scan of a bucket in `bget`. -/
inductive Scan where
  | found (b : Ptr)
  | notFound
  | trap
  | forever
  deriving DecidableEq, Repr

/-- The loop `for (b = head.next; b != &head; b = b->next)` of `bget`, `p` being the
current `b`. The loop has no bound of its own: `fuel` counts the iterations the
model follows, and a loop that has not ended by then is reported as `forever`. -/
def bget_scan (s : BState) (bucket dev blockno : Nat) : Nat → Ptr → Scan
  | 0, _ => .forever
  | fuel + 1, p =>
    if p = .head bucket then .notFound
    else if p = .null then .trap
    else if s.dev p = dev ∧ s.blockno p = blockno then .found p
    else bget_scan s bucket dev blockno fuel (s.next p)

/-- The hit path of `bget` from the match on: move `b` to the front of its bucket,
count the reference, take the sleep lock. -/
def bget_hit (s : BState) (pid bucket : Nat) (b : Ptr) : Outcome (Ptr × BState) := do
  -- b->next->prev = b->prev;
  let s ← st_prev s (s.next b) (s.prev b)
  -- b->prev->next = b->next;
  let s ← st_next s (s.prev b) (s.next b)
  -- b->next = bcache.head[bucket].next;
  let s ← st_next s b (s.next (.head bucket))
  -- b->prev = &bcache.head[bucket];
  let s ← st_prev s b (.head bucket)
  -- bcache.head[bucket].next->prev = b;
  let s ← st_prev s (s.next (.head bucket)) b
  -- bcache.head[bucket].next = b;
  let s ← st_next s (.head bucket) b
  -- b->refcnt++;
  let s := { s with refcnt := Function.update s.refcnt b (inc32 (s.refcnt b)) }
  let s ← acquiresleep s b pid
  return (b, s)

/-- The miss path of `bget`: take the head of the free list, link it at the front of
the bucket, set its fields, take its sleep lock. -/
def bget_miss (s : BState) (pid bucket dev blockno : Nat) : Outcome (Ptr × BState) := do
  if s.freelist = .null then Outcome.panic Halt.bget_no_buffers
  else
    let b := s.freelist
    -- bcache.freelist = b->next;
    let s := { s with freelist := s.next b }
    -- b->next = bcache.head[bucket].next;
    let s ← st_next s b (s.next (.head bucket))
    -- b->prev = &bcache.head[bucket];
    let s ← st_prev s b (.head bucket)
    -- bcache.head[bucket].next->prev = b;
    let s ← st_prev s (s.next (.head bucket)) b
    -- bcache.head[bucket].next = b;
    let s ← st_next s (.head bucket) b
    let s := { s with refcnt := Function.update s.refcnt b 1,
                      dev := Function.update s.dev b dev,
                      blockno := Function.update s.blockno b blockno,
                      valid := Function.update s.valid b 0 }
    let s ← acquiresleep s b pid
    return (b, s)

/-- `bget(dev, blockno)` called by process `pid`. A path of distinct structs has at
most `NBUF + NBUCKET` of them, so a scan that has not come back to the sentinel
after `NBUF + NBUCKET + 1` steps never does. -/
def bget (NBUF NBUCKET : Nat) (s : BState) (pid dev blockno : Nat) : Outcome (Ptr × BState) :=
  let bucket := blockno % NBUCKET
  match bget_scan s bucket dev blockno (NBUF + NBUCKET + 1) (s.next (.head bucket)) with
  | .found b => bget_hit s pid bucket b
  | .notFound => bget_miss s pid bucket dev blockno
  | .trap => .fault
  | .forever => .hang

/-- Modelled from the spec: the disk transport `virtio_disk_rw(b, write)`, "synchronous,
infallible": a read loads the block `(b->dev, b->blockno)` into `b->data`, a write
stores `b->data` there. -/
def virtio_disk_rw (s : BState) (b : Ptr) (write : Bool) : BState :=
  if write then
    { s with disk := fun d n => if d = s.dev b ∧ n = s.blockno b then s.data b else s.disk d n }
  else
    { s with data := Function.update s.data b (s.disk (s.dev b) (s.blockno b)) }

/-- `bread(dev, blockno)` called by process `pid`. -/
def bread (NBUF NBUCKET : Nat) (s : BState) (pid dev blockno : Nat) : Outcome (Ptr × BState) := do
  let (b, s) ← bget NBUF NBUCKET s pid dev blockno
  if s.valid b = 0 then
    let s := virtio_disk_rw s b false
    return (b, { s with valid := Function.update s.valid b 1 })
  else
    return (b, s)

/-- `bwrite(b)` called by process `pid`. -/
def bwrite (s : BState) (pid : Nat) (b : Ptr) : Outcome BState :=
  if b = .null then .fault
  else if !holdingsleep s b pid then .panic .bwrite
  else .ret (virtio_disk_rw s b true)

/-- `brelse(b)` called by process `pid`. `refcnt` is an unsigned 32-bit field, so
`--b->refcnt` wraps; the `int` copy of a wrapped value is `-1`, which is not `0`. -/
def brelse (s : BState) (pid : Nat) (b : Ptr) : Outcome BState := do
  if b = .null then Outcome.fault
  else if !holdingsleep s b pid then Outcome.panic Halt.brelse
  else
    let s := releasesleep s b
    let refcnt := dec32 (s.refcnt b)
    let s := { s with refcnt := Function.update s.refcnt b refcnt }
    if refcnt = 0 then
      -- b->next->prev = b->prev;
      let s ← st_prev s (s.next b) (s.prev b)
      -- b->prev->next = b->next;
      let s ← st_next s (s.prev b) (s.next b)
      -- b->next = bcache.freelist; bcache.freelist = b;
      let s ← st_next s b s.freelist
      return { s with freelist := b }
    else
      return s

/-- `bpin(b)`. -/
def bpin (s : BState) (b : Ptr) : Outcome BState :=
  if b = .null then .fault
  else .ret { s with refcnt := Function.update s.refcnt b (inc32 (s.refcnt b)) }

/-- `bunpin(b)`. -/
def bunpin (s : BState) (b : Ptr) : Outcome BState :=
  if b = .null then .fault
  else .ret { s with refcnt := Function.update s.refcnt b (dec32 (s.refcnt b)) }

/-- The holder of the sleep lock overwrites `b->data` with `x`. -/
def write_data (s : BState) (b : Ptr) (x : List Nat) : BState :=
  { s with data := Function.update s.data b x }

/-! ### Reading the lists off the pointers -/

/-- Follow `next` from `p` until `stop`, collecting the buffers passed; `none` when the
chain leaves the buffers before reaching `stop` or is longer than `fuel`. -/
def follow (s : BState) (stop : Ptr) : Nat → Ptr → Option (List Nat)
  | 0, _ => none
  | fuel + 1, p =>
    if p = stop then some []
    else match p with
      | .buf b => (follow s stop fuel (s.next (.buf b))).map (fun l => b :: l)
      | _ => none

/-- The buffers linked in bucket `i`, front first: the ring from `head[i].next` back to
`&head[i]`. -/
def bucketList (NBUF : Nat) (s : BState) (i : Nat) : Option (List Nat) :=
  follow s (.head i) (NBUF + 1) (s.next (.head i))

/-- The buffers on the free list, head first. -/
def freeList (NBUF : Nat) (s : BState) : Option (List Nat) :=
  follow s .null (NBUF + 1) s.freelist

/-- Buffer `b` is linked in some hash bucket. -/
def linked (NBUF NBUCKET : Nat) (s : BState) (b : Nat) : Prop :=
  ∃ i, i < NBUCKET ∧ ∃ l, bucketList NBUF s i = some l ∧ b ∈ l

/-- One complete call on the buffer cache, made by a process `pid`. -/
inductive BCall where
  | bread (pid dev blockno : Nat)
  | bwrite (pid b : Nat)
  | brelse (pid b : Nat)
  | bpin (b : Nat)
  | bunpin (b : Nat)
  | write_data (pid b : Nat) (x : List Nat)
  deriving Repr

/-- The state after a complete call, when the call returns. A buffer argument is one of
the `NBUF` buffers; `write_data` is an overwrite of the data by the lock holder. -/
def BCall.run (NBUF NBUCKET : Nat) (s : BState) : BCall → Option BState
  | .bread pid dev blockno =>
    match Xv6.bread NBUF NBUCKET s pid dev blockno with
    | .ret (_, s') => some s'
    | _ => none
  | .bwrite pid b =>
    match Xv6.bwrite s pid (.buf b) with
    | .ret s' => if b < NBUF then some s' else none
    | _ => none
  | .brelse pid b =>
    match Xv6.brelse s pid (.buf b) with
    | .ret s' => if b < NBUF then some s' else none
    | _ => none
  | .bpin b =>
    match Xv6.bpin s (.buf b) with
    | .ret s' => if b < NBUF then some s' else none
    | _ => none
  | .bunpin b =>
    match Xv6.bunpin s (.buf b) with
    | .ret s' => if b < NBUF then some s' else none
    | _ => none
  | .write_data pid b x =>
    if b < NBUF ∧ holdingsleep s (.buf b) pid then some (Xv6.write_data s (.buf b) x) else none

/-- The states reachable from `binit` by a sequence of complete calls. -/
inductive Reachable (NBUF NBUCKET : Nat) (disk : Nat → Nat → List Nat) : BState → Prop where
  | init : Reachable NBUF NBUCKET disk (binit NBUF NBUCKET disk)
  | step (s s' : BState) (c : BCall) :
      Reachable NBUF NBUCKET disk s → c.run NBUF NBUCKET s = some s' →
      Reachable NBUF NBUCKET disk s'

/-- Run a sequence of complete calls; `none` when one of them does not return. -/
def runCalls (NBUF NBUCKET : Nat) : BState → List BCall → Option BState
  | s, [] => some s
  | s, c :: cs =>
    match c.run NBUF NBUCKET s with
    | some s' => runCalls NBUF NBUCKET s' cs
    | none => none

/-- The state after `binit` and the calls `cs` (the state after `binit` when one of them
does not return). -/
def stateAfter (NBUF NBUCKET : Nat) (disk : Nat → Nat → List Nat) (cs : List BCall) : BState :=
  (runCalls NBUF NBUCKET (binit NBUF NBUCKET disk) cs).getD (binit NBUF NBUCKET disk)

/-- Process `pid` reads block `(dev, blockno)`, overwrites the data of the buffer with `x`,
writes the buffer to disk, releases it and reads the block again. -/
def write_then_reread (NBUF NBUCKET : Nat) (s : BState) (pid dev blockno : Nat) (x : List Nat) :
    Outcome (Ptr × BState) := do
  let (b, s) ← bread NBUF NBUCKET s pid dev blockno
  let s := write_data s b x
  let s ← bwrite s pid b
  let s ← brelse s pid b
  bread NBUF NBUCKET s pid dev blockno

/-- A run of `bread` calls, each `(pid, dev, blockno)`, with no `brelse` in between. -/
def breads (NBUF NBUCKET : Nat) : BState → List (Nat × Nat × Nat) → Outcome BState
  | s, [] => .ret s
  | s, (pid, dev, blockno) :: rest =>
    match bread NBUF NBUCKET s pid dev blockno with
    | .ret (_, s') => breads NBUF NBUCKET s' rest
    | .panic m => .panic m
    | .fault => .fault
    | .hang => .hang

/-- A small cache for concrete runs: three buffers, two buckets, an empty disk; blocks 7
and 9 are read by process 1, block 7 is released and read again, block 11 is read by
process 2. -/
def demo_state : BState :=
  stateAfter 3 2 (fun _ _ => [])
    [.bread 1 1 7, .bread 1 1 9, .brelse 1 2, .bread 1 1 7, .bread 2 1 11]

/-- The cache of thirty buffers and thirteen buckets in which process 1 holds block
`(1, 7)`. -/
def held_state : BState :=
  stateAfter 30 13 (fun _ _ => []) [.bread 1 1 7]

/-- The small cache after block `(1, 9)` was read and released by process 1: all three
buffers are free again. -/
def released_state : BState :=
  stateAfter 3 2 (fun _ _ => []) [.bread 1 1 9, .brelse 1 2]

/-! ### The lists represented by the pointers -/

/-- `DSeg s a l z`: from `a`, `next` visits the buffers `l` in order and then `z`, and
`prev` leads back the same way. -/
def DSeg (s : BState) : Ptr → List Nat → Ptr → Prop
  | a, [], z => s.next a = z ∧ s.prev z = a
  | a, b :: t, z => s.next a = .buf b ∧ s.prev (.buf b) = a ∧ DSeg s (.buf b) t z

/-- `FSeg s p l`: from `p`, `next` visits the buffers `l` in order and ends in null. -/
def FSeg (s : BState) : Ptr → List Nat → Prop
  | p, [] => p = .null
  | p, b :: t => p = .buf b ∧ FSeg s (s.next (.buf b)) t

/-- The predecessor of a buffer inside a segment. -/
def predOf (a : Ptr) (l1 : List Nat) : Ptr :=
  match l1.getLast? with
  | some x => .buf x
  | none => a

/-- The successor of a buffer inside a segment. -/
def succOf (l2 : List Nat) (z : Ptr) : Ptr :=
  match l2 with
  | y :: _ => .buf y
  | [] => z

/-- The two stores that take `b` out of its ring. -/
def unlinkS (s : BState) (b : Ptr) : BState :=
  { s with prev := Function.update s.prev (s.next b) (s.prev b),
           next := Function.update s.next (s.prev b) (s.next b) }

/-- The four stores that put `b` right behind the sentinel `h`. -/
def linkS (s : BState) (h b : Ptr) : BState :=
  { s with next := Function.update (Function.update s.next b (s.next h)) h b,
           prev := Function.update (Function.update s.prev b h) (s.next h) b }

/-- The pointers of a cache state represent the bucket lists `bk` and the free list
`fl`: every bucket is a ring through its sentinel, the free list a null-terminated
chain, and no buffer is in two of the lists or twice in one. -/
structure Shape (NBUCKET : Nat) (s : BState) (bk : Nat → List Nat) (fl : List Nat) : Prop where
  ring : ∀ i, i < NBUCKET → DSeg s (.head i) (bk i) (.head i)
  free : FSeg s s.freelist fl
  nd_bk : ∀ i, i < NBUCKET → (bk i).Nodup
  nd_fl : fl.Nodup
  disj_bk : ∀ i j b, i < NBUCKET → j < NBUCKET → b ∈ bk i → b ∈ bk j → i = j
  disj_fl : ∀ i b, i < NBUCKET → b ∈ bk i → b ∉ fl

/-- The structural invariant of the cache: its shape, every one of the `NBUF` buffers in
exactly one list, every bucket holding only keys that hash to it and no key twice,
and only buffers linked in a bucket sleep-locked. -/
structure Rep (NBUF NBUCKET : Nat) (s : BState) (bk : Nat → List Nat) (fl : List Nat)
    extends Shape NBUCKET s bk fl : Prop where
  cover : ∀ b, b < NBUF ↔ (b ∈ fl ∨ ∃ i, i < NBUCKET ∧ b ∈ bk i)
  hash : ∀ i b, i < NBUCKET → b ∈ bk i → s.blockno (.buf b) % NBUCKET = i
  keys : ∀ i b c, i < NBUCKET → b ∈ bk i → c ∈ bk i →
    s.dev (.buf b) = s.dev (.buf c) → s.blockno (.buf b) = s.blockno (.buf c) → b = c
  locked : ∀ p pid, s.lock p = some pid → ∃ i b, i < NBUCKET ∧ b ∈ bk i ∧ p = .buf b

/-- The first buffer of a list that carries the key `(dev, blockno)`. -/
def findKey (s : BState) (dev blockno : Nat) (l : List Nat) : Option Nat :=
  l.find? (fun b => decide (s.dev (.buf b) = dev ∧ s.blockno (.buf b) = blockno))

/-- The state in which `bget` returns on a hit of the unlocked buffer `b` in bucket `i`. -/
def hitS (s : BState) (pid i : Nat) (b : Ptr) : BState :=
  let s1 := linkS (unlinkS s b) (.head i) b
  { s1 with refcnt := Function.update s1.refcnt b (inc32 (s1.refcnt b)),
            lock := Function.update s1.lock b (some pid) }

/-- The state in which `bget` returns on a miss, `b` being the head of the free list. -/
def missS (s : BState) (pid i dev blockno : Nat) (b : Ptr) : BState :=
  let s1 := linkS { s with freelist := s.next b } (.head i) b
  { s1 with refcnt := Function.update s1.refcnt b 1,
            dev := Function.update s1.dev b dev,
            blockno := Function.update s1.blockno b blockno,
            valid := Function.update s1.valid b 0,
            lock := Function.update s1.lock b (some pid) }

/-- The state in which `brelse` returns when the count of `b` reaches zero. -/
def relS (s : BState) (b : Ptr) : BState :=
  let s1 := unlinkS { s with lock := Function.update s.lock b none,
                             refcnt := Function.update s.refcnt b 0 } b
  { s1 with next := Function.update s1.next b s1.freelist, freelist := b }

/-- Every buffer linked in a bucket has its block loaded (`valid = 1`). -/
def Loaded (NBUCKET : Nat) (s : BState) (bk : Nat → List Nat) : Prop :=
  ∀ i b, i < NBUCKET → b ∈ bk i → s.valid (.buf b) = 1

/-- Every reference count fits its unsigned 32-bit field. -/
def Counts (s : BState) : Prop := ∀ p, s.refcnt p < 2 ^ 32

/-- The invariant of the cache between complete calls. -/
def Inv (NBUF NBUCKET : Nat) (s : BState) : Prop :=
  ∃ bk fl, Rep NBUF NBUCKET s bk fl ∧ Loaded NBUCKET s bk ∧ Counts s

/-- The state in which `bread` returns on a miss: the block is loaded into the buffer
taken from the free list. -/
def loadS (s : BState) (b : Ptr) : BState :=
  { s with data := Function.update s.data b (s.disk (s.dev b) (s.blockno b)),
           valid := Function.update s.valid b 1 }

/-- Some buffer linked in a bucket carries the key `(dev, blockno)`. -/
def cached (NBUCKET : Nat) (s : BState) (bk : Nat → List Nat) (dev blockno : Nat) : Prop :=
  ∃ j c, j < NBUCKET ∧ c ∈ bk j ∧ s.dev (.buf c) = dev ∧ s.blockno (.buf c) = blockno

/-! ### Pins that leave a reference behind -/

/-- The discipline on `bpin` and `bunpin`: `bunpin(b)` is called while another reference
to `b` is outstanding (`refcnt ≥ 2`, as when the caller still holds the buffer), and
`bpin(b)` while the count has room (`refcnt < 2^32 - 2`). -/
def BCall.pinned (s : BState) : BCall → Bool
  | .bpin b => decide (s.refcnt (.buf b) + 2 < 2 ^ 32)
  | .bunpin b => decide (2 ≤ s.refcnt (.buf b))
  | _ => true

/-- The states reachable from `binit` by a sequence of complete calls that respect the
discipline on pins. -/
inductive PinReach (NBUF NBUCKET : Nat) (disk : Nat → Nat → List Nat) : BState → Prop where
  | init : PinReach NBUF NBUCKET disk (binit NBUF NBUCKET disk)
  | step (s s' : BState) (c : BCall) :
      PinReach NBUF NBUCKET disk s → c.pinned s = true → c.run NBUF NBUCKET s = some s' →
      PinReach NBUF NBUCKET disk s'

/-- Run a sequence of complete calls; `none` when one of them does not return or breaks
the discipline on pins. -/
def runPinned (NBUF NBUCKET : Nat) : BState → List BCall → Option BState
  | s, [] => some s
  | s, c :: cs =>
    if c.pinned s then
      match c.run NBUF NBUCKET s with
      | some s' => runPinned NBUF NBUCKET s' cs
      | none => none
    else none

/-- Every buffer linked in a bucket has a reference, and the count of an unlocked buffer
has room for the reference of a `bread`. -/
def Pinned (NBUCKET : Nat) (s : BState) (bk : Nat → List Nat) : Prop :=
  (∀ i b, i < NBUCKET → b ∈ bk i → 1 ≤ s.refcnt (.buf b)) ∧
  (∀ p, s.lock p = none → s.refcnt p + 2 ≤ 2 ^ 32)

/-- The invariant of the cache between complete calls that respect the discipline on
pins. -/
def PinInv (NBUF NBUCKET : Nat) (s : BState) : Prop :=
  ∃ bk fl, Rep NBUF NBUCKET s bk fl ∧ Loaded NBUCKET s bk ∧ Counts s ∧ Pinned NBUCKET s bk

/-- Process 1 reads block `(1, 7)`, pins the buffer, releases it, and unpins it. -/
def unpinned_state : BState :=
  stateAfter 3 2 (fun _ _ => []) [.bread 1 1 7, .bpin 2, .brelse 1 2, .bunpin 2]

/-- Process 1 reads block `(1, 7)`, pins the buffer and releases it: the pin keeps the
buffer in its bucket. -/
def pinned_state : BState :=
  (runPinned 3 2 (binit 3 2 (fun _ _ => [])) [.bread 1 1 7, .bpin 2, .brelse 1 2]).getD
    (binit 3 2 (fun _ _ => []))

/-! ### `bget` in atomic steps, for interleaved calls -/

/-- The value a call returned, `none` when it did not return. -/
def Outcome.toOption {α : Type} : Outcome α → Option α
  | .ret a => some a
  | _ => none

/-- Where a call of `bget` stands between two of its atomic steps; `b` is its local
variable. -/
inductive Pc where
  /-- before `acquire(&bcache.lock[bucket])` -/
  | scan
  /-- hit: the bucket lock is released, before the section of `ref_lock` -/
  | count (b : Ptr)
  /-- hit: before `acquiresleep` -/
  | sleep (b : Ptr)
  /-- miss: the bucket lock is released, before the section of `freelist_lock` -/
  | pop
  /-- miss: `b` is taken from the free list, before the second section of the bucket lock -/
  | link (b : Ptr)
  /-- miss: `b` is linked, before its fields are set and its sleep lock is taken -/
  | fields (b : Ptr)
  /-- the call has returned `b` -/
  | done (b : Ptr)
  deriving DecidableEq, Repr

/-- One atomic step of `bget(dev, blockno)` called by process `pid`: a section protected by
a spin lock, or the statements after the last `release` (which touch only the buffer
the call has just taken). A call that waits for a sleep lock is reported as `hang`. -/
def bget_step (NBUF NBUCKET : Nat) (s : BState) (pid dev blockno : Nat) :
    Pc → Outcome (Pc × BState)
  | .scan =>
    let bucket := blockno % NBUCKET
    match bget_scan s bucket dev blockno (NBUF + NBUCKET + 1) (s.next (.head bucket)) with
    | .found b => do
      let s ← st_prev s (s.next b) (s.prev b)
      let s ← st_next s (s.prev b) (s.next b)
      let s ← st_next s b (s.next (.head bucket))
      let s ← st_prev s b (.head bucket)
      let s ← st_prev s (s.next (.head bucket)) b
      let s ← st_next s (.head bucket) b
      return (.count b, s)
    | .notFound => .ret (.pop, s)
    | .trap => .fault
    | .forever => .hang
  | .count b =>
    .ret (.sleep b, { s with refcnt := Function.update s.refcnt b (inc32 (s.refcnt b)) })
  | .sleep b => do
    let s ← acquiresleep s b pid
    return (.done b, s)
  | .pop =>
    if s.freelist = .null then .panic .bget_no_buffers
    else .ret (.link s.freelist, { s with freelist := s.next s.freelist })
  | .link b => do
    let bucket := blockno % NBUCKET
    let s ← st_next s b (s.next (.head bucket))
    let s ← st_prev s b (.head bucket)
    let s ← st_prev s (s.next (.head bucket)) b
    let s ← st_next s (.head bucket) b
    return (.fields b, s)
  | .fields b => do
    let s := { s with refcnt := Function.update s.refcnt b 1,
                      dev := Function.update s.dev b dev,
                      blockno := Function.update s.blockno b blockno,
                      valid := Function.update s.valid b 0 }
    let s ← acquiresleep s b pid
    return (.done b, s)
  | .done b => .ret (.done b, s)

/-- A call of `bget` run alone, step after step, for at most `fuel` steps. -/
def bget_alone (NBUF NBUCKET : Nat) (pid dev blockno : Nat) :
    Nat → Pc → BState → Outcome (Ptr × BState)
  | 0, _, _ => .hang
  | _ + 1, .done b, s => .ret (b, s)
  | fuel + 1, pc, s =>
    (bget_step NBUF NBUCKET s pid dev blockno pc).bind fun r =>
      bget_alone NBUF NBUCKET pid dev blockno fuel r.1 r.2

/-- Two calls of `bget` for the same `(dev, blockno)`, by the processes `pidA` and `pidB` on
two CPUs, interleaved as the schedule says: `true` lets the first call take its next
step, `false` the second. -/
def interleave (NBUF NBUCKET : Nat) (pidA pidB dev blockno : Nat) :
    BState → Pc → Pc → List Bool → Outcome (Pc × Pc × BState)
  | s, a, b, [] => .ret (a, b, s)
  | s, a, b, true :: rest =>
    (bget_step NBUF NBUCKET s pidA dev blockno a).bind fun r =>
      interleave NBUF NBUCKET pidA pidB dev blockno r.2 r.1 b rest
  | s, a, b, false :: rest =>
    (bget_step NBUF NBUCKET s pidB dev blockno b).bind fun r =>
      interleave NBUF NBUCKET pidA pidB dev blockno r.2 a r.1 rest

/-- Two calls `bget(1, 7)`, by process 1 and by process 2, on the cache of three buffers
and two buckets right after `binit`, taking their atomic steps in turn. -/
def race_run : Outcome (Pc × Pc × BState) :=
  interleave 3 2 1 2 1 7 (binit 3 2 (fun _ _ => [])) .scan .scan
    [true, false, true, false, true, false, true, false]

/-! ## Per-CPU page allocator (`kernel/kalloc.c`) -/

/-- Bytes per page. -/
def PGSIZE : Nat := 4096

/-- `PGROUNDUP(sz)` for a 64-bit `sz`: `(sz + PGSIZE - 1) & ~(PGSIZE - 1)`. -/
def PGROUNDUP (sz : Nat) : Nat := ((sz + PGSIZE - 1) % 2 ^ 64) / PGSIZE * PGSIZE

/-- `PGROUNDDOWN(a)`: `a & ~(PGSIZE - 1)`. -/
def PGROUNDDOWN (a : Nat) : Nat := a / PGSIZE * PGSIZE

/-- The 64-bit little-endian word stored in memory `m` at address `a`: what a load
through a `struct run *` (or any pointer to a pointer) reads on RISC-V. -/
def load64 (m : Nat → Nat) (a : Nat) : Nat :=
  m a % 256 + 256 * (m (a + 1) % 256) + 256 ^ 2 * (m (a + 2) % 256) +
  256 ^ 3 * (m (a + 3) % 256) + 256 ^ 4 * (m (a + 4) % 256) + 256 ^ 5 * (m (a + 5) % 256) +
  256 ^ 6 * (m (a + 6) % 256) + 256 ^ 7 * (m (a + 7) % 256)

/-- Memory after the 64-bit word `v` is stored at address `a`. -/
def store64 (m : Nat → Nat) (a v : Nat) : Nat → Nat :=
  fun x => if a ≤ x ∧ x < a + 8 then v / 256 ^ (x - a) % 256 else m x

/-- Memory after `memset(a, c, n)`. -/
def memset (m : Nat → Nat) (a c n : Nat) : Nat → Nat :=
  fun x => if a ≤ x ∧ x < a + n then c % 256 else m x

/-- The allocator: `freelist i` is `kmem[i].freelist` (0 is the null pointer), `mem` is
physical memory, one byte per address; the `next` field of a free page is the word at
the start of the page. The spin locks are not part of the sequential state. -/
structure Kmem where
  freelist : Nat → Nat
  mem : Nat → Nat

/-- `kfree(pa)` executed on CPU `cpu`; `end_` is the linker symbol `end`. -/
def kfree (end_ PHYSTOP : Nat) (s : Kmem) (cpu pa : Nat) : Outcome Kmem :=
  if pa % PGSIZE ≠ 0 ∨ pa < end_ ∨ pa ≥ PHYSTOP then .panic .kfree
  else
    -- memset(pa, 1, PGSIZE);
    let mem := memset s.mem pa 1 PGSIZE
    -- r->next = kmem[cpu].freelist;
    let mem := store64 mem pa (s.freelist cpu)
    -- kmem[cpu].freelist = r;
    .ret { freelist := Function.update s.freelist cpu pa, mem := mem }

/-- The loop `for (int i = 0; i < NCPU; i++)` of `kalloc` from index `i` on, `n` being the
number of iterations left: the page taken from the first non-empty list of another CPU,
or 0. -/
def kalloc_steal (s : Kmem) (cpu : Nat) : Nat → Nat → Nat × Kmem
  | 0, _ => (0, s)
  | n + 1, i =>
    if i = cpu then kalloc_steal s cpu n (i + 1)
    else
      let r := s.freelist i
      if r ≠ 0 then
        (r, { s with freelist := Function.update s.freelist i (load64 s.mem r) })
      else kalloc_steal s cpu n (i + 1)

/-- `kalloc()` executed on CPU `cpu`: the pointer returned and the new state. -/
def kalloc (NCPU : Nat) (s : Kmem) (cpu : Nat) : Nat × Kmem :=
  let r := s.freelist cpu
  let (r, s) :=
    if r ≠ 0 then
      (r, { s with freelist := Function.update s.freelist cpu (load64 s.mem r) })
    else kalloc_steal s cpu NCPU 0
  if r ≠ 0 then
    -- memset((char*)r, 5, PGSIZE);
    (r, { s with mem := memset s.mem r 5 PGSIZE })
  else (r, s)

/-- The loop of `freerange` from `p` on, on CPU `cpu`. The loop ends when
`p + PGSIZE > pa_end`; `fuel` bounds the iterations the model follows. -/
def freerange_loop (end_ PHYSTOP cpu pa_end : Nat) : Nat → Kmem → Nat → Outcome Kmem
  | 0, _, _ => .hang
  | fuel + 1, s, p =>
    if p + PGSIZE ≤ pa_end then
      (kfree end_ PHYSTOP s cpu p).bind fun s' =>
        freerange_loop end_ PHYSTOP cpu pa_end fuel s' (p + PGSIZE)
    else .ret s

/-- `freerange(pa_start, pa_end)` on CPU `cpu`: at most `pa_end / PGSIZE` pages fit below
`pa_end`, so `pa_end / PGSIZE + 1` iterations suffice. -/
def freerange (end_ PHYSTOP : Nat) (s : Kmem) (cpu pa_start pa_end : Nat) : Outcome Kmem :=
  freerange_loop end_ PHYSTOP cpu pa_end (pa_end / PGSIZE + 1) s (PGROUNDUP pa_start)

/-- `kinit()` run on CPU `cpu` with memory content `mem0`: the free lists are null (static
storage), then every page of `[end, PHYSTOP)` is freed. The initialisation of the lock
names is not modelled. -/
def kinit (end_ PHYSTOP : Nat) (mem0 : Nat → Nat) (cpu : Nat) : Outcome Kmem :=
  freerange end_ PHYSTOP { freelist := fun _ => 0, mem := mem0 } cpu end_ PHYSTOP

/-- A call on the allocator: `kalloc()` or `kfree(pa)` on a CPU, or a store of the byte `v`
at offset `off` of an allocated page by its owner. -/
inductive KCall where
  | kalloc (cpu : Nat)
  | kfree (cpu pa : Nat)
  | write (pa off v : Nat)
  deriving Repr

/-- The pages in use after a call, `u` being those in use before: `kalloc` adds the page
it returns, `kfree` removes its argument. -/
def KCall.used (NCPU : Nat) (s : Kmem) (u : List Nat) : KCall → List Nat
  | .kalloc cpu => if (Xv6.kalloc NCPU s cpu).1 = 0 then u else (Xv6.kalloc NCPU s cpu).1 :: u
  | .kfree _ pa => u.erase pa
  | .write _ _ _ => u

/-- The state after a call that returns, on one of the `NCPU` CPUs; `none` when `kfree`
panics. -/
def KCall.run (NCPU end_ PHYSTOP : Nat) (s : Kmem) : KCall → Option Kmem
  | .kalloc cpu => if cpu < NCPU then some (Xv6.kalloc NCPU s cpu).2 else none
  | .kfree cpu pa =>
    match Xv6.kfree end_ PHYSTOP s cpu pa with
    | .ret s' => if cpu < NCPU then some s' else none
    | _ => none
  | .write pa off v => some { s with mem := Function.update s.mem (pa + off) v }

/-- The call respects the allocator's contract: `kfree` is applied to a page in use, and
only a page in use is written, inside its `PGSIZE` bytes. -/
def KCall.proper (u : List Nat) : KCall → Prop
  | .kalloc _ => True
  | .kfree _ pa => pa ∈ u
  | .write pa off _ => pa ∈ u ∧ off < PGSIZE

/-- States reachable from `kinit` (run on CPU `cpu0` with memory `mem0`) by `kalloc` calls and
non-halting `kfree` calls on any CPUs, with no condition on the pages freed. -/
inductive KReachAny (NCPU end_ PHYSTOP : Nat) (mem0 : Nat → Nat) (cpu0 : Nat) : Kmem → Prop where
  | init (s : Kmem) : cpu0 < NCPU → kinit end_ PHYSTOP mem0 cpu0 = .ret s →
      KReachAny NCPU end_ PHYSTOP mem0 cpu0 s
  | kalloc (s : Kmem) (cpu : Nat) : KReachAny NCPU end_ PHYSTOP mem0 cpu0 s → cpu < NCPU →
      KReachAny NCPU end_ PHYSTOP mem0 cpu0 (Xv6.kalloc NCPU s cpu).2
  | kfree (s s' : Kmem) (cpu pa : Nat) : KReachAny NCPU end_ PHYSTOP mem0 cpu0 s →
      cpu < NCPU → Xv6.kfree end_ PHYSTOP s cpu pa = .ret s' →
      KReachAny NCPU end_ PHYSTOP mem0 cpu0 s'

/-- States reachable from `kinit` by calls that respect the contract, with the pages in
use: those returned by `kalloc` and not freed since. -/
inductive KReach (NCPU end_ PHYSTOP : Nat) (mem0 : Nat → Nat) (cpu0 : Nat) :
    Kmem → List Nat → Prop where
  | init (s : Kmem) : cpu0 < NCPU → kinit end_ PHYSTOP mem0 cpu0 = .ret s →
      KReach NCPU end_ PHYSTOP mem0 cpu0 s []
  | step (s s' : Kmem) (u : List Nat) (c : KCall) : KReach NCPU end_ PHYSTOP mem0 cpu0 s u →
      c.proper u → c.run NCPU end_ PHYSTOP s = some s' →
      KReach NCPU end_ PHYSTOP mem0 cpu0 s' (c.used NCPU s u)

/-- `KChain m h l`: the free list with head pointer `h` in memory `m` holds the pages `l`,
in order, and ends in null. -/
def KChain (m : Nat → Nat) : Nat → List Nat → Prop
  | h, [] => h = 0
  | h, p :: t => h = p ∧ p ≠ 0 ∧ KChain m (load64 m p) t

/-- Follow a free list from `h`, at most `fuel` pages. -/
def kwalk (m : Nat → Nat) : Nat → Nat → Option (List Nat)
  | 0, _ => none
  | fuel + 1, h => if h = 0 then some [] else (kwalk m fuel (load64 m h)).map (fun l => h :: l)

/-- A page of the allocator: page-aligned, at or above `end`, wholly below `PHYSTOP`. -/
def validPage (end_ PHYSTOP p : Nat) : Prop :=
  p % PGSIZE = 0 ∧ end_ ≤ p ∧ p + PGSIZE ≤ PHYSTOP

/-- The free lists of the `NCPU` CPUs are the lists `L`: each is a null-terminated chain
of page-aligned 64-bit addresses, and no page is on two lists or twice on one. -/
structure KLists (NCPU : Nat) (s : Kmem) (L : Nat → List Nat) : Prop where
  chain : ∀ i, i < NCPU → KChain s.mem (s.freelist i) (L i)
  aligned : ∀ i p, i < NCPU → p ∈ L i → p % PGSIZE = 0
  word : ∀ i p, i < NCPU → p ∈ L i → p < 2 ^ 64
  nodup : ∀ i, i < NCPU → (L i).Nodup
  disjoint : ∀ i j p, i < NCPU → j < NCPU → p ∈ L i → p ∈ L j → i = j

/-- The pages of all `NCPU` free lists, list after list. -/
def allFree (NCPU : Nat) (L : Nat → List Nat) : List Nat :=
  (List.range NCPU).flatMap L

/-- The invariant of the allocator under calls that respect its contract: the free lists
are well formed and hold only pages of `[end, PHYSTOP)`, the pages in use `u` are such
pages too, each once, and none of them is on a free list. -/
def KInv (NCPU end_ PHYSTOP : Nat) (s : Kmem) (u : List Nat) : Prop :=
  ∃ L, KLists NCPU s L ∧
    (∀ i p, i < NCPU → p ∈ L i → validPage end_ PHYSTOP p) ∧
    (∀ p, p ∈ u → validPage end_ PHYSTOP p) ∧
    (∀ i p, i < NCPU → p ∈ L i → p ∉ u) ∧ u.Nodup

/-- The state after `kfree(pa)` on CPU `cpu` when it does not panic. -/
def pushS (s : Kmem) (cpu pa : Nat) : Kmem :=
  { freelist := Function.update s.freelist cpu pa,
    mem := store64 (memset s.mem pa 1 PGSIZE) pa (s.freelist cpu) }

/-- The state after `kalloc` took the head of the free list of CPU `k`. -/
def popS (s : Kmem) (k : Nat) : Kmem :=
  { freelist := Function.update s.freelist k (load64 s.mem (s.freelist k)),
    mem := memset s.mem (s.freelist k) 5 PGSIZE }

/-- The state in which `kinit` returns (the zeroed allocator if it does not return). -/
def kstart (end_ PHYSTOP : Nat) (mem0 : Nat → Nat) (cpu0 : Nat) : Kmem :=
  match kinit end_ PHYSTOP mem0 cpu0 with
  | .ret s => s
  | _ => { freelist := fun _ => 0, mem := mem0 }

/-- Run the calls `cs` from state `s` with the pages `u` in use, skipping a call that
breaks the contract or does not return: the final state and the pages in use. -/
def kafter (NCPU end_ PHYSTOP : Nat) : Kmem × List Nat → List KCall → Kmem × List Nat
  | su, [] => su
  | (s, u), c :: cs =>
    match c, c.run NCPU end_ PHYSTOP s with
    | .kalloc cpu, some s' =>
      kafter NCPU end_ PHYSTOP (s', (KCall.kalloc cpu).used NCPU s u) cs
    | .kfree cpu pa, some s' =>
      if pa ∈ u then kafter NCPU end_ PHYSTOP (s', (KCall.kfree cpu pa).used NCPU s u) cs
      else kafter NCPU end_ PHYSTOP (s, u) cs
    | .write pa off v, some s' =>
      if pa ∈ u ∧ off < PGSIZE then
        kafter NCPU end_ PHYSTOP (s', (KCall.write pa off v).used NCPU s u) cs
      else kafter NCPU end_ PHYSTOP (s, u) cs
    | _, none => kafter NCPU end_ PHYSTOP (s, u) cs

/-- Run `kalloc` and `kfree` calls from state `s` with no regard to the contract, skipping a
`kfree` that panics. -/
def kafter_any (NCPU end_ PHYSTOP : Nat) : Kmem → List KCall → Kmem
  | s, [] => s
  | s, .kalloc cpu :: cs =>
    if cpu < NCPU then kafter_any NCPU end_ PHYSTOP (Xv6.kalloc NCPU s cpu).2 cs
    else kafter_any NCPU end_ PHYSTOP s cs
  | s, .kfree cpu pa :: cs =>
    match Xv6.kfree end_ PHYSTOP s cpu pa with
    | .ret s' =>
      if cpu < NCPU then kafter_any NCPU end_ PHYSTOP s' cs
      else kafter_any NCPU end_ PHYSTOP s cs
    | _ => kafter_any NCPU end_ PHYSTOP s cs
  | s, .write _ _ _ :: cs => kafter_any NCPU end_ PHYSTOP s cs

/-- The free lists are the lists `L` and hold only pages of `[end, PHYSTOP)` below `p`. -/
def KBelow (NCPU end_ PHYSTOP : Nat) (s : Kmem) (L : Nat → List Nat) (p : Nat) : Prop :=
  KLists NCPU s L ∧ ∀ i q, i < NCPU → q ∈ L i → validPage end_ PHYSTOP q ∧ q < p

/-- Two pages `0x1000` and `0x2000` between `end` and `PHYSTOP`, one CPU: the state in which
`kinit` returns. -/
def two_pages : Kmem := kstart 4096 12288 (fun _ => 0) 0

/-- After `kinit` on `two_pages`, page `0x2000` is freed a second time and `kalloc` is
called twice. -/
def double_free_state : Kmem :=
  kafter_any 1 4096 12288 two_pages [.kfree 0 8192, .kalloc 0, .kalloc 0]

/-- Three pages, two CPUs, `kinit` run on CPU 0; then CPU 1 allocates (stealing page
`0x3000`), CPU 0 allocates page `0x2000`, the owner writes a byte into page `0x3000` and
CPU 1 frees it. -/
def three_pages : Kmem × List Nat :=
  kafter 2 4096 16384 (kstart 4096 16384 (fun _ => 0) 0, [])
    [.kalloc 1, .kalloc 0, .write 12288 0 255, .kfree 1 12288]

/-! ## Memory-mapped files (`kernel/file.c`) -/

/-- The constants and macros of the headers that are not among the sources (`riscv.h`,
`param.h`, `fcntl.h`), taken as parameters. -/
structure Arch where
  MAXVA : Nat
  PTE_V : Nat
  PTE_D : Nat
  PTE_A : Nat
  PTE_M : Nat
  MAP_SHARED : Nat
  NOFILE : Nat
  PTE2PA : Nat → Nat
  PA2PTE : Nat → Nat
  PTE_FLAGS : Nat → Nat

/-- The values of xv6 on RISC-V Sv39, with the first software bit of the PTE as the
"mapped" sentinel. -/
def rv39 : Arch where
  MAXVA := 2 ^ 38
  PTE_V := 1
  PTE_D := 128
  PTE_A := 64
  PTE_M := 256
  MAP_SHARED := 1
  NOFILE := 16
  PTE2PA := fun pte => pte / 2 ^ 10 * 2 ^ 12
  PA2PTE := fun pa => pa / 2 ^ 12 * 2 ^ 10
  PTE_FLAGS := fun pte => pte % 2 ^ 10

/-- The `type` tag of a `struct file`. -/
inductive FdType where
  | FD_NONE
  | FD_PIPE
  | FD_INODE
  | FD_DEVICE
  deriving DecidableEq, Repr

/-- Modelled from the spec: `struct file` (file.h is not among the sources), "variant over
{ pipe, inode, device } with attributes { readable, writable, ref, type, and
variant-specific pipe/inode/major fields }"; pointers to pipes and inodes are numbers. -/
structure File where
  type : FdType
  ref : Int
  readable : Bool
  writable : Bool
  pipe : Nat
  ip : Nat
  off : Nat
  major : Int
  deriving DecidableEq, Repr

/-- Modelled from the spec: `struct mmap` (file.h is not among the sources), "an owning file
handle, the base virtual address addr, length in bytes len, page-protection flags prot,
mapping flags flag, and the file offset the mapping begins at". `file` is the index of
the file in `ftable.file`, `none` for a null pointer; `addr` and `len` are 64-bit. -/
structure Mmap where
  file : Option Nat
  addr : Nat
  len : Nat
  prot : Nat
  flag : Nat
  offset : Nat
  deriving DecidableEq, Repr

/-- A call into the inode, log and pipe layers, which are outside `file.c`. -/
inductive Event where
  | begin_op
  | end_op
  | ilock (ip : Nat)
  | iunlock (ip : Nat)
  | writei (ip user_src src off n : Nat)
  | readi (ip user_dst dst off n : Nat)
  | iput (ip : Nat)
  | pipeclose (pipe : Nat) (writable : Bool)
  deriving DecidableEq, Repr

/-- The inode layer as seen from `file.c`: what `writei(ip, 1, src, off, n)` and
`readi(ip, 0, dst, off, n)` return, and the bytes of the file behind an inode. -/
structure Env where
  writei : Nat → Nat → Nat → Nat → Int
  readi : Nat → Nat → Nat → Int
  idata : Nat → Nat → Nat

/-- The state the mmap functions work on: the page allocator, the file table, the table of
mappings, and of the calling process its mapping slots `p->mmap[i]` (the index of the
mapping in `mmaptable.mmap`, `none` for null) and its page table (`pt n` is the PTE of
virtual page `n`, `none` where `walk` finds no PTE). `log` lists the calls made into the
other layers, oldest first. -/
structure MState where
  kmem : Kmem
  ftable : Nat → File
  mmaptable : Nat → Mmap
  slots : Nat → Option Nat
  pt : Nat → Option Nat
  log : List Event

/-- The value of a C `int`, given as its 32-bit pattern. -/
def sval (v : Nat) : Int := if v < 2 ^ 31 then (v : Int) else (v : Int) - 2 ^ 32

/-- Conversion of an `int`, given as its 32-bit pattern, to `uint64`: sign extension. -/
def sext (v : Nat) : Nat := if v < 2 ^ 31 then v else v + (2 ^ 64 - 2 ^ 32)

/-- Modelled from the spec: `walk(pagetable, va, 0)`, "return the PTE for va": the number of
the virtual page when the page has a PTE, `none` for a null result. -/
def walk (s : MState) (va : Nat) : Option Nat :=
  match s.pt (va / PGSIZE) with
  | some _ => some (va / PGSIZE)
  | none => none

/-- `fileclose(f)` for the file at index `f` of `ftable.file`. -/
def fileclose (s : MState) (f : Nat) : Outcome MState :=
  let ff := s.ftable f
  if ff.ref < 1 then .panic .fileclose
  else if ff.ref - 1 > 0 then
    .ret { s with ftable := Function.update s.ftable f { ff with ref := ff.ref - 1 } }
  else
    let s := { s with ftable := Function.update s.ftable f { ff with ref := 0, type := .FD_NONE } }
    match ff.type with
    | .FD_PIPE => .ret { s with log := s.log ++ [.pipeclose ff.pipe ff.writable] }
    | .FD_INODE => .ret { s with log := s.log ++ [.begin_op, .iput ff.ip, .end_op] }
    | .FD_DEVICE => .ret { s with log := s.log ++ [.begin_op, .iput ff.ip, .end_op] }
    | .FD_NONE => .ret s

/-- `mmapclose(m)` for the mapping at index `m` of `mmaptable.mmap`. -/
def mmapclose (s : MState) (m : Nat) : Outcome MState :=
  match (s.mmaptable m).file with
  | none => .panic .mmapclose
  | some f =>
    (fileclose s f).bind fun s =>
      .ret { s with mmaptable := Function.update s.mmaptable m { s.mmaptable m with file := none } }

/-- `int off = va - addr;` in the page loop of `munmap`: the 32-bit pattern of `off`, for
the pattern `va` of the `int` loop variable (converted to `uint64` for the
subtraction) and the 64-bit `addr`. -/
def munmap_off (va addr : Nat) : Nat := (sext va + (2 ^ 64 - addr)) % 2 ^ 32

/-- `int len = (mlen - off) < PGSIZE ? (mlen - off) : PGSIZE;` in the page loop of `munmap`,
on 32-bit patterns. -/
def munmap_len (mlen off : Nat) : Nat :=
  let d := (mlen + (2 ^ 32 - off)) % 2 ^ 32
  if sval d < PGSIZE then d else PGSIZE

/-- The body of the page loop of `munmap` for a `MAP_SHARED` mapping; `va` is the 32-bit
pattern of the `int` loop variable, `mlen` that of `int mlen`, `ip` is `m->file->ip`. -/
def munmap_shared_page (A : Arch) (E : Env) (end_ PHYSTOP cpu ip mlen addr : Nat) (s : MState)
    (va : Nat) : Outcome MState :=
  let off := munmap_off va addr
  let len := munmap_len mlen off
  match walk s (sext va) with
  | none => .panic .munmap_walk
  | some n =>
    let pte := (s.pt n).getD 0
    if pte &&& A.PTE_V ≠ 0 then
      (if pte &&& A.PTE_D ≠ 0 then
        if E.writei ip (sext va) off len ≠ sval len then Outcome.panic Halt.munmap_writei
        else Outcome.ret { s with log := s.log ++ [.writei ip 1 (sext va) off len] }
      else Outcome.ret s).bind fun s =>
      (kfree end_ PHYSTOP s.kmem cpu (A.PTE2PA pte)).bind fun k =>
        .ret { s with kmem := k, pt := Function.update s.pt n (some 0) }
    else .ret s

/-- The body of the page loop of `munmap` for a mapping that is not `MAP_SHARED`. -/
def munmap_private_page (A : Arch) (end_ PHYSTOP cpu : Nat) (s : MState) (va : Nat) :
    Outcome MState :=
  match walk s (sext va) with
  | none => .panic .munmap_walk
  | some n =>
    let pte := (s.pt n).getD 0
    if pte &&& A.PTE_V ≠ 0 then
      (kfree end_ PHYSTOP s.kmem cpu (A.PTE2PA pte)).bind fun k =>
        .ret { s with kmem := k, pt := Function.update s.pt n (some 0) }
    else .ret s

/-- The loop `for (int va = addr; va < addr + len; va += PGSIZE)` of `munmap` from `va` on,
`bound` being the 64-bit value of `addr + len` and `body` the loop body. `va` is
converted to `uint64` for the comparison; `va += PGSIZE` wraps at 32 bits (signed
overflow is undefined in C; the RISC-V `addiw` instruction wraps). `fuel` bounds the
iterations the model follows. -/
def munmap_loop (body : MState → Nat → Outcome MState) (bound : Nat) :
    Nat → MState → Nat → Outcome MState
  | 0, _, _ => .hang
  | fuel + 1, s, va =>
    if sext va < bound then
      (body s va).bind fun s' => munmap_loop body bound fuel s' ((va + PGSIZE) % 2 ^ 32)
    else .ret s

/-- The part of `munmap` that follows the match of slot `i` with the mapping at index `m`,
whose fields were `M` before the call and have been updated in `s`. A 32-bit `va`
takes every page-aligned value within `2^20` steps, so `2^20 + 1` iterations suffice
for the page loop. -/
def munmap_matched (A : Arch) (E : Env) (end_ PHYSTOP cpu : Nat) (s : MState) (addr len i m : Nat)
    (M : Mmap) : Outcome (Int × MState) :=
  -- int mlen = m->len;
  let mlen := M.len % 2 ^ 32
  let bound := (addr + len) % 2 ^ 64
  (if M.flag &&& A.MAP_SHARED ≠ 0 then
    match M.file with
    | none => Outcome.fault
    | some f =>
      let ip := (s.ftable f).ip
      let s := { s with log := s.log ++ [.begin_op, .ilock ip] }
      (munmap_loop (munmap_shared_page A E end_ PHYSTOP cpu ip mlen addr) bound (2 ^ 20 + 1) s
        (addr % 2 ^ 32)).bind fun s =>
        Outcome.ret { s with log := s.log ++ [.iunlock ip, .end_op] }
  else
    munmap_loop (munmap_private_page A end_ PHYSTOP cpu) bound (2 ^ 20 + 1) s
      (addr % 2 ^ 32)).bind fun s =>
  if (s.mmaptable m).len = 0 then
    -- myproc()->mmap[i] = 0; mmapclose(m);
    (mmapclose { s with slots := Function.update s.slots i none } m).bind fun s => .ret (0, s)
  else .ret (0, s)

/-- The loop over the mapping slots of `munmap` from slot `i` on, `n` slots left. -/
def munmap_slots (A : Arch) (E : Env) (end_ PHYSTOP cpu : Nat) (s : MState) (addr len : Nat) :
    Nat → Nat → Outcome (Int × MState)
  | 0, _ => .ret (-1, s)
  | n + 1, i =>
    match s.slots i with
    | none => munmap_slots A E end_ PHYSTOP cpu s addr len n (i + 1)
    | some m =>
      let M := s.mmaptable m
      if M.addr = addr then
        -- m->addr = addr + len; m->len -= len;
        let M' := { M with addr := (addr + len) % 2 ^ 64, len := (M.len + (2 ^ 64 - len)) % 2 ^ 64 }
        munmap_matched A E end_ PHYSTOP cpu
          { s with mmaptable := Function.update s.mmaptable m M' } addr len i m M
      else if (M.addr + M.len) % 2 ^ 64 = (addr + len) % 2 ^ 64 then
        -- m->len -= len;
        let M' := { M with len := (M.len + (2 ^ 64 - len)) % 2 ^ 64 }
        munmap_matched A E end_ PHYSTOP cpu
          { s with mmaptable := Function.update s.mmaptable m M' } addr len i m M
      else munmap_slots A E end_ PHYSTOP cpu s addr len n (i + 1)

/-- `munmap(addr, len)` called by the process of the state, on CPU `cpu`; the arguments
are `uint64`. -/
def munmap (A : Arch) (E : Env) (end_ PHYSTOP cpu : Nat) (s : MState) (addr len : Nat) :
    Outcome (Int × MState) :=
  let addr := addr % 2 ^ 64
  let len := len % 2 ^ 64
  if addr % PGSIZE ≠ 0 then .ret (-1, s)
  else if len % PGSIZE ≠ 0 then .ret (-1, s)
  else munmap_slots A E end_ PHYSTOP cpu s addr len A.NOFILE 0

/-- Modelled from the spec: kernel memory after `readi(ip, 0, dst, off, n)` returned `r`
("`inode_read(ip, user_flag, dst, off, n) → int`", "read `min(PGSIZE, mapping.len - off)`
bytes from the file at offset `off`"): the `r` bytes of the file from offset `off` on,
stored from `dst` on. -/
def readi_copy (E : Env) (mem0 : Nat → Nat) (dst ip off : Nat) (r : Int) : Nat → Nat :=
  fun x => if dst ≤ x ∧ (x : Int) < (dst : Int) + r then E.idata ip (off + (x - dst)) else mem0 x

/-- The loop `while (read_len < PGSIZE) { mem[read_len] = 0; read_len++; }` of
`mmap_fault_handler` on the bytes `m` of kernel memory; `fuel` bounds the iterations the
model follows. -/
def zero_tail (mem : Nat) : Nat → (Nat → Nat) → Int → Outcome (Nat → Nat)
  | 0, _, _ => .hang
  | fuel + 1, m, read_len =>
    if read_len < PGSIZE then
      zero_tail mem fuel (Function.update m ((((mem : Int) + read_len) % 2 ^ 64).toNat) 0)
        (read_len + 1)
    else .ret m

/-- `int off = va - m->addr;` in `mmap_fault_handler`: the 32-bit pattern of `off`. -/
def fault_off (va addr : Nat) : Nat := (va + (2 ^ 64 - addr)) % 2 ^ 32

/-- `int len = (m->len - off) < PGSIZE ? (m->len - off) : PGSIZE;` in `mmap_fault_handler`:
`off` is converted to `uint64` for the subtraction from the 64-bit `m->len`, the
comparison is unsigned, and the result is truncated to the 32-bit pattern of `len`. -/
def fault_len (mlen off : Nat) : Nat :=
  let d := (mlen + (2 ^ 64 - sext off)) % 2 ^ 64
  if d < PGSIZE then d % 2 ^ 32 else PGSIZE

/-- The body of the slot loop of `mmap_fault_handler` for the mapping at index `m`, which
covers the page at `va`: read the page from the file into `mem`, zero the rest of the
page, install the PTE. `pte` is the value of the PTE before. -/
def mmap_fault_load (A : Arch) (E : Env) (s : MState) (va pte mem m : Nat) :
    Outcome (Int × MState) :=
  let M := s.mmaptable m
  let off := fault_off va M.addr
  let len := fault_len M.len off
  match M.file with
  | none => .fault
  | some f =>
    let ip := (s.ftable f).ip
    let r := E.readi ip off len
    if r = -1 ∨ r > sval len then .panic .mmap_fault_handler_readi
    else
      -- an `int` is at least -2^31, so 2^31 + PGSIZE + 1 iterations suffice
      (zero_tail mem (2 ^ 31 + PGSIZE + 1) (readi_copy E s.kmem.mem mem ip off r) r).bind
        fun bytes =>
      -- flags = PTE_FLAGS(*pte); flags ^= PTE_V; *pte = PA2PTE(mem) | flags;
      let flags := (A.PTE_FLAGS pte % 2 ^ 32) ^^^ A.PTE_V
      .ret (0, { s with
        kmem := { s.kmem with mem := bytes },
        pt := Function.update s.pt (va / PGSIZE) (some (A.PA2PTE mem ||| flags)),
        log := s.log ++ [.ilock ip, .readi ip 0 mem off len, .iunlock ip] })

/-- The loop over the mapping slots of `mmap_fault_handler` from slot `i` on, `n` slots
left, for the page at `va` with PTE value `pte` and the allocated page `mem`; the
`kfree` after the loop runs on CPU `cpu`. -/
def mmap_fault_slots (A : Arch) (E : Env) (end_ PHYSTOP cpu : Nat) (s : MState)
    (va pte mem : Nat) : Nat → Nat → Outcome (Int × MState)
  | 0, _ =>
    (kfree end_ PHYSTOP s.kmem cpu mem).bind fun k => .ret (-1, { s with kmem := k })
  | n + 1, i =>
    match s.slots i with
    | none => mmap_fault_slots A E end_ PHYSTOP cpu s va pte mem n (i + 1)
    | some m =>
      if (s.mmaptable m).addr ≤ va ∧ va < ((s.mmaptable m).addr + (s.mmaptable m).len) % 2 ^ 64
      then mmap_fault_load A E s va pte mem m
      else mmap_fault_slots A E end_ PHYSTOP cpu s va pte mem n (i + 1)

/-- `mmap_fault_handler(p, va)` for the process of the state; `kalloc` runs on CPU `cpu1`,
the `kfree` of the failure path on CPU `cpu2`. -/
def mmap_fault_handler (A : Arch) (E : Env) (NCPU end_ PHYSTOP cpu1 cpu2 : Nat) (s : MState)
    (va : Nat) : Outcome (Int × MState) :=
  let va := PGROUNDDOWN (va % 2 ^ 64)
  if va ≥ A.MAXVA then .ret (-1, s)
  else
    match walk s va with
    | none => .ret (-1, s)
    | some n =>
      let pte := (s.pt n).getD 0
      if pte &&& A.PTE_V ≠ 0 ∨ ¬ (pte &&& A.PTE_M ≠ 0) then .ret (-1, s)
      else
        let (mem, k) := kalloc NCPU s.kmem cpu1
        if mem = 0 then .ret (-1, s)
        else mmap_fault_slots A E end_ PHYSTOP cpu2 { s with kmem := k } va pte mem A.NOFILE 0

/-- Slot `i` of the process holds a mapping of which `munmap(addr, len)` cuts a prefix or
a suffix: `addr` is its start, or `addr + len` is its end (64-bit sums, as compared in
the code). -/
def cuts_edge (s : MState) (addr len i : Nat) : Prop :=
  ∃ m, s.slots i = some m ∧
    ((s.mmaptable m).addr = addr ∨
      ((s.mmaptable m).addr + (s.mmaptable m).len) % 2 ^ 64 = (addr + len) % 2 ^ 64)

/-- Slot `i` of the process holds a mapping that covers the page at `page` (64-bit sum, as
compared in the code). -/
def covers (s : MState) (page i : Nat) : Prop :=
  ∃ m, s.slots i = some m ∧ (s.mmaptable m).addr ≤ page ∧
    page < ((s.mmaptable m).addr + (s.mmaptable m).len) % 2 ^ 64

/-- The call halts the kernel: with a panic whose tag satisfies `ok`, or (when `flt`) with a
trap on a null pointer. -/
def haltsIn {α : Type} (ok : Halt → Prop) (flt : Prop) (r : Outcome α) : Prop :=
  (∃ m, ok m ∧ r = .panic m) ∨ (flt ∧ r = .fault)

/-- Every present page of the process is a page the allocator accepts back, and every
mapping in a slot of the process has a file with a positive reference count. -/
def MapsValid (A : Arch) (end_ PHYSTOP : Nat) (s : MState) : Prop :=
  (∀ n pte, s.pt n = some pte → pte &&& A.PTE_V ≠ 0 →
    A.PTE2PA pte % PGSIZE = 0 ∧ end_ ≤ A.PTE2PA pte ∧ A.PTE2PA pte < PHYSTOP) ∧
  (∀ i m, s.slots i = some m → ∃ f, (s.mmaptable m).file = some f ∧ 1 ≤ (s.ftable f).ref)

/-- The fields of a mapping `M` after `munmap(addr, len)` matched it: a prefix cut moves
`addr` and shortens `len`, a suffix cut shortens `len` (64-bit arithmetic). -/
def munmap_cut (M : Mmap) (addr len : Nat) : Mmap :=
  if M.addr = addr then
    { M with addr := (addr + len) % 2 ^ 64, len := (M.len + (2 ^ 64 - len)) % 2 ^ 64 }
  else { M with len := (M.len + (2 ^ 64 - len)) % 2 ^ 64 }

/-! ### A concrete process with one shared mapping -/

/-- An inode layer in which every write-back succeeds, and every file is 100 bytes long and
holds at offset `k` the byte `k + 1`: `readi` returns the number of bytes that lie
before the end of the file. -/
def demo_env : Env where
  writei := fun _ _ _ n => sval n
  readi := fun _ off n => if off < 100 then ((min n (100 - off) : Nat) : Int) else 0
  idata := fun _ k => if k < 100 then k + 1 else 0

/-- Four pages `0x1000` … `0x4000` and one CPU: the allocator after `kinit` and two `kalloc`
calls, which give out the pages `0x4000` and `0x3000`. -/
def demo_kmem : Kmem × List Nat :=
  kafter 1 4096 20480 (kstart 4096 20480 (fun _ => 0) 0, []) [.kalloc 0, .kalloc 0]

/-- The flags of a present, dirty, user-accessible page of a mapping in `rv39`:
`PTE_V | PTE_R | PTE_W | PTE_U | PTE_D | PTE_M`. -/
def demo_flags : Nat := 1 + 2 + 4 + 16 + 128 + 256

/-- A process with one `MAP_SHARED` mapping of two pages at `0x10000` in slot 0, backed by
the inode 7 through file 0; both pages are present and dirty, in the physical pages
`0x3000` and `0x4000`; the page at `0x12000` has no PTE. -/
def demo_mstate : MState where
  kmem := demo_kmem.1
  ftable := fun f =>
    if f = 0 then { type := .FD_INODE, ref := 1, readable := true, writable := true,
                    pipe := 0, ip := 7, off := 0, major := 0 }
    else { type := .FD_NONE, ref := 0, readable := false, writable := false,
           pipe := 0, ip := 0, off := 0, major := 0 }
  mmaptable := fun m =>
    if m = 0 then { file := some 0, addr := 0x10000, len := 0x2000, prot := 3, flag := 1,
                    offset := 0 }
    else { file := none, addr := 0, len := 0, prot := 0, flag := 0, offset := 0 }
  slots := fun i => if i = 0 then some 0 else none
  pt := fun n =>
    if n = 0x10 then some (rv39.PA2PTE 0x3000 + demo_flags)
    else if n = 0x11 then some (rv39.PA2PTE 0x4000 + demo_flags)
    else none
  log := []

/-- The value a call returned, `none` when it did not return. -/
def retval {α : Type} : Outcome (Int × α) → Option Int
  | .ret (r, _) => some r
  | _ => none

/-- The state a call returned in, `d` when it did not return. -/
def retstate {α : Type} (d : α) : Outcome (Int × α) → α
  | .ret (_, s) => s
  | _ => d

/-- The process of `demo_mstate` before it touched its mapping: the PTEs of both pages are
marked as mapped and are not valid; so is the PTE of the page at `0x20000`, which no
mapping covers. -/
def demo_lazy : MState :=
  { demo_mstate with
    pt := fun n => if n = 0x10 ∨ n = 0x11 ∨ n = 0x20 then some (2 + 4 + 16 + 256) else none }

/-- A process as `demo_lazy` whose mapping is one page long: a 100-byte file mapped at
length `PGSIZE`, not yet touched. -/
def demo_small : MState :=
  { demo_lazy with
    mmaptable := fun m =>
      if m = 0 then { file := some 0, addr := 0x10000, len := 0x1000, prot := 3, flag := 1,
                      offset := 0 }
      else { file := none, addr := 0, len := 0, prot := 0, flag := 0, offset := 0 } }

/-- The process of `demo_mstate` with an empty PTE for the page at `0x12000`, the page
after its mapping. -/
def demo_wide : MState :=
  { demo_mstate with
    pt := fun n =>
      if n = 0x10 then some (rv39.PA2PTE 0x3000 + demo_flags)
      else if n = 0x11 then some (rv39.PA2PTE 0x4000 + demo_flags)
      else if n = 0x12 then some 0
      else none }

/-- A process as `demo_mstate` whose mapping is the one page at `0x80000000`, present and
dirty in the physical page `0x3000`. -/
def demo_high : MState :=
  { demo_mstate with
    mmaptable := fun m =>
      if m = 0 then { file := some 0, addr := 0x80000000, len := 0x1000, prot := 3, flag := 1,
                      offset := 0 }
      else { file := none, addr := 0, len := 0, prot := 0, flag := 0, offset := 0 }
    pt := fun n => if n = 0x80000 then some (rv39.PA2PTE 0x3000 + demo_flags) else none }

/-! ## `sys_pgaccess` (`kernel/sysproc.c`) -/

/-- The effect of `copyout(pagetable, dstva, src, len)` on user memory `umem` when all of the
destination is mapped (`vm.c` is not among the sources): the `len` bytes `src 0`, …,
`src (len - 1)` stored from `dstva` on. -/
def copyout (umem : Nat → Nat) (dstva : Nat) (src : Nat → Nat) (len : Nat) : Nat → Nat :=
  fun x => if dstva ≤ x ∧ x < dstva + len then src (x - dstva) else umem x

/-- The loop `for (int i = 0; i < n; i++)` of `sys_pgaccess` from `i` on; `i` and `n` are
32-bit patterns of `int`, `bm` is the array `bitmasks` (bytes), `fuel` bounds the
iterations the model follows. -/
def pgaccess_loop (A : Arch) (begin_addr n : Nat) :
    Nat → Nat → MState → (Nat → Nat) → Outcome (MState × (Nat → Nat))
  | 0, _, _, _ => .hang
  | fuel + 1, i, s, bm =>
    if sval i < sval n then
      -- entry = walk(pagetable, begin_addr + i * PGSIZE, 0);
      match walk s ((begin_addr + sext ((i * PGSIZE) % 2 ^ 32)) % 2 ^ 64) with
      | some e =>
        let pte := (s.pt e).getD 0
        if pte &&& A.PTE_A ≠ 0 then
          -- bitmasks[i / 8] |= 1 << (i % 8); *entry ^= PTE_A;
          pgaccess_loop A begin_addr n fuel ((i + 1) % 2 ^ 32)
            { s with pt := Function.update s.pt e (some (pte ^^^ A.PTE_A)) }
            (Function.update bm (i / 8) ((bm (i / 8) ||| (1 <<< (i % 8))) % 256))
        else pgaccess_loop A begin_addr n fuel ((i + 1) % 2 ^ 32) s bm
      | none => pgaccess_loop A begin_addr n fuel ((i + 1) % 2 ^ 32) s bm
    else .ret (s, bm)

/-- `sys_pgaccess()` with the arguments `begin_addr`, `n` (the 32-bit pattern of the `int`)
and `store_addr` that `argaddr` and `argint` fetch, on the page table of the calling
process and the user memory `umem`. The loop runs at most 64 times, so 65 iterations
suffice. `junk` stands for the kernel memory after the 8 bytes of `bitmasks`, which
`copyout` reads when `n / 8` exceeds 8 (a negative `n`). -/
def sys_pgaccess (A : Arch) (junk : Nat → Nat) (s : MState) (umem : Nat → Nat)
    (begin_addr n store_addr : Nat) : Outcome (Int × (MState × (Nat → Nat))) :=
  if sval n > 64 then .ret (-1, (s, umem))
  else
    -- memset(bitmasks, 0, 8);
    (pgaccess_loop A begin_addr n 65 0 s (fun _ => 0)).bind fun r =>
      -- copyout(pagetable, store_addr, bitmasks, n / 8);
      let len := (((sval n).tdiv 8) % 2 ^ 64).toNat
      .ret (0, (r.1, copyout umem store_addr (fun j => if j < 8 then r.2 j else junk j) len))

/-- The process of `demo_mstate` after it read from its first page and not from its second:
the PTE of `0x10000` has `PTE_A` set, the PTE of `0x11000` has not. -/
def demo_accessed : MState :=
  { demo_mstate with
    pt := fun n =>
      if n = 0x10 then some (rv39.PA2PTE 0x3000 + (1 + 2 + 4 + 16 + 64 + 256))
      else if n = 0x11 then some (rv39.PA2PTE 0x4000 + (1 + 2 + 4 + 16 + 256))
      else none }

/-! ## `mmapdup` (`kernel/file.c`), with `mmaptable.lock` as a boolean -/

/-- Modelled from the spec: `acquire` of a spin lock ("spin locks (short critical sections)"),
the lock being a boolean that tells whether it is held: a free lock is taken, a held
lock is waited for. -/
def acquire (lock : Bool) : Outcome Bool := if lock then .hang else .ret true

/-- Modelled from the spec: `release` of a spin lock; "releasing an unheld lock" is fatal. -/
def release (lock : Bool) : Outcome Bool := if lock then .ret false else .panic .release

/-- `filedup(f)` for the file at index `f` of `ftable.file`. -/
def filedup (s : MState) (f : Nat) : Outcome MState :=
  let ff := s.ftable f
  if ff.ref < 1 then .panic .filedup
  else .ret { s with ftable := Function.update s.ftable f { ff with ref := ff.ref + 1 } }

/-- The loop of `mmapdup` over the entries of `mmaptable.mmap` from entry `m` on, `n` entries
left, with `mmaptable.lock` held. `uvmmmap va len prot` is the address that
`uvmmmap(pagetable, va, len, prot)` returns (`vm.c` is not among the sources; the page
table it works on is that of another process). The result is the entry returned (`none`
for null), the state, and whether `mmaptable.lock` is held. -/
def mmapdup_scan (uvmmmap : Nat → Nat → Nat → Nat) (s : MState) (m2 : Nat) :
    Nat → Nat → Outcome (Option Nat × MState × Bool)
  | 0, _ =>
    -- release(&mmaptable.lock); return 0;
    (release true).bind fun l => .ret (none, s, l)
  | n + 1, m =>
    if (s.mmaptable m).file = none then
      -- memmove(m, m2, sizeof(struct mmap));
      let M := s.mmaptable m2
      -- m->addr = uvmmmap(pagetable, m->addr, m->len, m->prot << 1)
      let a := uvmmmap M.addr M.len ((M.prot * 2) % 2 ^ 32)
      -- ... != m2->addr (the entry `m2` itself when `m` is `m2`)
      if a ≠ (if m = m2 then a else M.addr) then
        -- m->file = 0; return 0;
        .ret (none,
          { s with mmaptable := Function.update s.mmaptable m { M with addr := a, file := none } },
          true)
      else
        let s1 := { s with mmaptable := Function.update s.mmaptable m { M with addr := a } }
        (release true).bind fun l =>
          match M.file with
          | none => .fault
          | some f => (filedup s1 f).bind fun s2 => .ret (some m, s2, l)
    else mmapdup_scan uvmmmap s m2 n (m + 1)

/-- `mmapdup(m2, pagetable)` for the mapping at index `m2` of `mmaptable.mmap`, called with
`mmaptable.lock` in state `lock`; `NFILE` is the size of the table. -/
def mmapdup (uvmmmap : Nat → Nat → Nat → Nat) (NFILE : Nat) (s : MState) (lock : Bool)
    (m2 : Nat) : Outcome (Option Nat × MState × Bool) :=
  (acquire lock).bind fun _ => mmapdup_scan uvmmmap s m2 NFILE 0

/-! ## `xargs` (`user/xargs.c`) -/

/-- A value of type `char *` in `xargs`: null, the string `argv[j]`, or the address
`buf + off` in the line buffer of `main`. -/
inductive CharPtr where
  | null
  | argv (j : Nat)
  | buf (off : Nat)
  deriving DecidableEq, Repr

/-- What a process of `xargs` does last: it calls `exec(cmd, args)` with the strings that
`cmd` and the entries of `args` before the first null point to, or it calls `exit`, or
it loads or stores outside an array (`undefined`), or it loops for ever. -/
inductive XEnd where
  | exec (cmd : List Nat) (args : List (List Nat))
  | exit (status : Nat)
  | undefined
  | hang
  deriving DecidableEq, Repr

/-- The globals `pargc`, `args`, `cmd` of `xargs.c` and the array `buf` of `main` (bytes). -/
structure XState where
  pargc : Nat
  args : Nat → CharPtr
  cmd : CharPtr
  buf : Nat → Nat

/-- The loop `for (; bufp != end && *bufp != ' '; bufp++);` of `run`: the value of `bufp`
after it; `fuel` bounds the iterations the model follows. -/
def run_scan (buf : Nat → Nat) (end_ : Nat) : Nat → Nat → Option Nat
  | 0, _ => none
  | fuel + 1, bufp =>
    if bufp ≠ end_ ∧ buf bufp ≠ 32 then run_scan buf end_ fuel (bufp + 1) else some bufp

/-- The loop `for (i = pargc - 1; i < MAXARG; i++)` of `run` from `i` on: the values of `i`
and `bufp` and the state when it ends. The buffer has 256 bytes, so 257 iterations
suffice for the scan of a word. -/
def run_loop (MAXARG end_ : Nat) : Nat → XState → Nat → Nat → Option (Nat × Nat × XState)
  | 0, _, _, _ => none
  | fuel + 1, s, i, bufp =>
    if i < MAXARG then
      -- args[i] = bufp;
      let s := { s with args := Function.update s.args i (.buf bufp) }
      match run_scan s.buf end_ 257 bufp with
      | none => none
      | some bufp =>
        if bufp = end_ then some (i, bufp, s)
        else
          -- *bufp = 0; bufp++;
          run_loop MAXARG end_ fuel { s with buf := Function.update s.buf bufp 0 } (i + 1)
            (bufp + 1)
    else some (i, bufp, s)

/-- The string at `buf + off`: the bytes before the first 0, `none` when there is no 0
among the next `fuel` bytes. -/
def cstr (buf : Nat → Nat) : Nat → Nat → Option (List Nat)
  | 0, _ => none
  | fuel + 1, off =>
    if buf off = 0 then some [] else (cstr buf fuel (off + 1)).map (fun l => buf off :: l)

/-- The string a `char *` points to. -/
def deref (argv : List (List Nat)) (s : XState) : CharPtr → Option (List Nat)
  | .null => none
  | .argv j => argv.get? j
  | .buf off => cstr s.buf 257 off

/-- The strings of `args[i]`, `args[i + 1]`, … up to the first null entry, as `exec` reads
them; `none` when one of the next `n` entries is not a string or none is null. -/
def argStrings (argv : List (List Nat)) (s : XState) : Nat → Nat → Option (List (List Nat))
  | 0, _ => none
  | n + 1, i =>
    match s.args i with
    | .null => some []
    | p =>
      match deref argv s p, argStrings argv s n (i + 1) with
      | some a, some l => some (a :: l)
      | _, _ => none

/-- `run(buf, end)` in a process with the globals and the buffer of `s`; `end_` is the
offset of `end` in `buf`. `args` has `MAXARG + 1` entries. -/
def run (MAXARG : Nat) (argv : List (List Nat)) (s : XState) (end_ : Nat) : XEnd :=
  match run_loop MAXARG end_ (MAXARG + 1) s (s.pargc - 1) 0 with
  | none => .hang
  | some (i, bufp, s) =>
    if bufp ≠ end_ then
      -- fprintf(2, "xargs: too many args\n"); exit(1);
      .exit 1
    else
      -- *end = 0;
      let s := { s with buf := Function.update s.buf end_ 0 }
      -- args[i + 1] = 0;
      if i + 1 > MAXARG then .undefined
      else
        let s := { s with args := Function.update s.args (i + 1) .null }
        -- exec(cmd, args);
        match deref argv s s.cmd, argStrings argv s (MAXARG + 1) 0 with
        | some c, some l => .exec c l
        | _, _ => .undefined

/-- The loop `while (read(0, p, 1))` of `main` on the bytes of standard input that are left,
`p` being the offset of `p` in `buf`: what each child forked so far and from now on does
last, and what the parent does last. `fork` succeeds and `exec` does not return. -/
def main_loop (MAXARG : Nat) (argv : List (List Nat)) :
    XState → Nat → List Nat → List XEnd → List XEnd × XEnd
  | _, _, [], kids =>
    -- while (wait(0) != -1); exit(0);
    (kids, .exit 0)
  | s, p, c :: rest, kids =>
    if p ≥ 256 then (kids, .undefined)
    else
      -- read(0, p, 1)
      let s := { s with buf := Function.update s.buf p c }
      if c = 10 then
        -- child: run(buf, p);  parent: p = buf;  then p++
        let child := run MAXARG argv s p
        let p := 0
        main_loop MAXARG argv s (p + 1) rest (kids ++ [child])
      else main_loop MAXARG argv s (p + 1) rest kids

/-- `main(argc, argv)` of `xargs` with the bytes `stdin` on standard input and the bytes
`buf0` in the uninitialised array `buf`; `argc` is the length of `argv`. -/
def main (MAXARG : Nat) (argv : List (List Nat)) (buf0 : Nat → Nat) (stdin : List Nat) :
    List XEnd × XEnd :=
  let argc := argv.length
  if argc = 1 then ([], .exit 1)
  else if argc > MAXARG + 1 then ([], .exit 1)
  else if argc = 0 then ([], .undefined)
  else
    -- pargc = argc; cmd = argv[1]; for (int i = 1; i < argc; i++) args[i - 1] = argv[i];
    let args := (List.range (argc - 1)).foldl
      (fun (a : Nat → CharPtr) k => Function.update a k (.argv (k + 1))) (fun _ => .null)
    main_loop MAXARG argv { pargc := argc, args := args, cmd := .argv 1, buf := buf0 } 0 stdin []

/-- The bytes of a string. -/
def bytes (x : String) : List Nat := x.toList.map Char.toNat

/-! ## Buffer cache: lemmas -/

theorem DSeg.frame {s s' : BState} : ∀ {l : List Nat} {a z : Ptr}, DSeg s a l z →
    s'.next a = s.next a → s'.prev z = s.prev z →
    (∀ b ∈ l, s'.next (.buf b) = s.next (.buf b) ∧ s'.prev (.buf b) = s.prev (.buf b)) →
    DSeg s' a l z
  | [], a, z, h, hn, hp, _ => by
    simp only [DSeg] at h ⊢
    rw [hn, hp]; exact h
  | b :: t, a, z, h, hn, hp, hl => by
    simp only [DSeg] at h ⊢
    obtain ⟨h1, h2, h3⟩ := h
    have hb := hl b (List.mem_cons_self _ _)
    refine ⟨by rw [hn, h1], by rw [hb.2, h2], ?_⟩
    exact DSeg.frame h3 hb.1 hp (fun c hc => hl c (List.mem_cons_of_mem _ hc))

theorem FSeg.fframe {s s' : BState} : ∀ {l : List Nat} {p : Ptr}, FSeg s p l →
    (∀ b ∈ l, s'.next (.buf b) = s.next (.buf b)) → FSeg s' p l
  | [], p, h, _ => by simpa [FSeg] using h
  | b :: t, p, h, hl => by
    simp only [FSeg] at h ⊢
    refine ⟨h.1, ?_⟩
    rw [hl b (List.mem_cons_self _ _)]
    exact FSeg.fframe h.2 (fun c hc => hl c (List.mem_cons_of_mem _ hc))

theorem predOf_cons (a : Ptr) (d : Nat) (l1 : List Nat) :
    predOf a (d :: l1) = predOf (.buf d) l1 := by
  cases l1 with
  | nil => simp [predOf]
  | cons e t =>
    simp only [predOf, List.getLast?_cons_cons]
    cases hg : (e :: t).getLast? with
    | none => simp at hg
    | some x => rfl

theorem DSeg.mid {s : BState} : ∀ (l1 : List Nat) {a z : Ptr} {b : Nat} {l2 : List Nat},
    DSeg s a (l1 ++ b :: l2) z →
    s.prev (.buf b) = predOf a l1 ∧ s.next (.buf b) = succOf l2 z
  | [], a, z, b, l2, h => by
    simp only [List.nil_append, DSeg] at h
    refine ⟨by simpa [predOf] using h.2.1, ?_⟩
    cases l2 with
    | nil => simpa [succOf, DSeg] using h.2.2.1
    | cons y t => simpa [succOf, DSeg] using h.2.2.1
  | d :: l1, a, z, b, l2, h => by
    simp only [List.cons_append, DSeg] at h
    have ih := DSeg.mid l1 h.2.2
    refine ⟨?_, ih.2⟩
    rw [ih.1, predOf_cons]

theorem predOf_cases (a : Ptr) (l1 : List Nat) :
    (l1 = [] ∧ predOf a l1 = a) ∨ (∃ x ∈ l1, predOf a l1 = .buf x) := by
  unfold predOf
  cases h : l1.getLast? with
  | none => left; exact ⟨List.getLast?_eq_none_iff.mp h, rfl⟩
  | some x => right; exact ⟨x, List.mem_of_getLast?_eq_some h, rfl⟩

theorem succOf_cases (l2 : List Nat) (z : Ptr) :
    (l2 = [] ∧ succOf l2 z = z) ∨ (∃ y t, l2 = y :: t ∧ succOf l2 z = .buf y) := by
  cases l2 with
  | nil => left; exact ⟨rfl, rfl⟩
  | cons y t => right; exact ⟨y, t, rfl, rfl⟩

theorem DSeg.unlink_seg {s : BState} {b : Nat} {l2 : List Nat} {z : Ptr}
    (hz : ∀ x, z ≠ .buf x) :
    ∀ (l1 : List Nat) {a : Ptr}, (∀ x ∈ l1 ++ b :: l2, a ≠ .buf x) →
    (l1 ++ b :: l2).Nodup → DSeg s a (l1 ++ b :: l2) z →
    DSeg (unlinkS s (.buf b)) a (l1 ++ l2) z
  | [], a, ha, hnd, h => by
    have hm := DSeg.mid [] h
    simp only [List.nil_append, DSeg] at h
    simp only [List.nil_append] at ha hnd ⊢
    obtain ⟨h1, h2, h3⟩ := h
    have hb : a ≠ .buf b := ha b (List.mem_cons_self _ _)
    cases l2 with
    | nil =>
      simp only [DSeg] at h3 ⊢
      simp [unlinkS, h2, h3.1]
    | cons c t =>
      simp only [DSeg] at h3 ⊢
      obtain ⟨h4, h5, h6⟩ := h3
      have hcb : c ≠ b := by
        intro e; subst e; simp at hnd
      have hct : c ∉ t := by
        have := (List.nodup_cons.mp (List.nodup_cons.mp hnd).2).1; exact this
      refine ⟨by simp [unlinkS, h2, h4], by simp [unlinkS, h2, h4], ?_⟩
      apply DSeg.frame h6
      · simp only [unlinkS, h2, h4]
        rw [Function.update_noteq]
        exact (ha c (by simp)).symm
      · simp only [unlinkS, h2, h4]
        rw [Function.update_noteq]
        exact hz c
      · intro x hx
        have hxc : x ≠ c := fun e => hct (e ▸ hx)
        simp only [unlinkS, h2, h4]
        constructor
        · rw [Function.update_noteq]
          exact (ha x (by simp [hx])).symm
        · rw [Function.update_noteq]
          simpa using hxc
  | d :: l1, a, ha, hnd, h => by
    have hm := DSeg.mid (d :: l1) h
    simp only [List.cons_append, DSeg] at h ⊢
    simp only [List.cons_append] at ha hnd
    obtain ⟨h1, h2, h3⟩ := h
    have hdn := List.nodup_cons.mp hnd
    have ih := DSeg.unlink_seg hz l1 (a := .buf d)
      (fun x hx e => hdn.1 (by injection e with e; exact e ▸ hx)) hdn.2 h3
    refine ⟨?_, ?_, ih⟩
    · simp only [unlinkS]
      rw [Function.update_noteq, h1]
      rw [hm.1]
      rcases predOf_cases a (d :: l1) with ⟨e, _⟩ | ⟨x, hx, e⟩
      · simp at e
      · rw [e]; exact ha x (by
          simp only [List.mem_cons, List.mem_append] at hx ⊢
          rcases hx with hx | hx
          · exact Or.inl hx
          · exact Or.inr (Or.inl hx))
    · simp only [unlinkS]
      rw [Function.update_noteq, h2]
      rw [hm.2]
      rcases succOf_cases l2 z with ⟨_, e⟩ | ⟨y, t, e1, e⟩
      · rw [e]; exact (hz d).symm
      · rw [e]; intro e2; injection e2 with e2
        apply hdn.1
        rw [e2, e1]; simp

theorem DSeg.link_seg {s : BState} {h : Ptr} {b : Nat} {l : List Nat}
    (hh : ∀ x, h ≠ .buf x) (hb : b ∉ l) (hnd : l.Nodup) (hr : DSeg s h l h) :
    DSeg (linkS s h (.buf b)) h (b :: l) h := by
  have hhb : h ≠ .buf b := hh b
  cases l with
  | nil =>
    simp only [DSeg] at hr ⊢
    simp [linkS, hr.1, hhb, hhb.symm]
  | cons c t =>
    simp only [DSeg] at hr ⊢
    obtain ⟨h1, h2, h3⟩ := hr
    have hbc : b ≠ c := fun e => hb (by simp [e])
    have hct : c ∉ t := (List.nodup_cons.mp hnd).1
    refine ⟨by simp [linkS], ?_, ?_, by simp [linkS, h1], ?_⟩
    · simp [linkS, h1]
      rw [Function.update_noteq (by simpa using hbc)]; simp
    · simp [linkS, h1, hhb.symm]
    · apply DSeg.frame h3
      · simp [linkS, h1]
        rw [Function.update_noteq (hh c).symm, Function.update_noteq (by simpa using hbc.symm)]
      · simp [linkS, h1]
        rw [Function.update_noteq (hh c), Function.update_noteq hhb]
      · intro x hx
        have hxc : x ≠ c := fun e => hct (e ▸ hx)
        have hxb : x ≠ b := fun e => hb (by simp [← e, hx])
        simp only [linkS, h1]
        constructor
        · rw [Function.update_noteq (hh x).symm, Function.update_noteq (by simpa using hxb)]
        · rw [Function.update_noteq (by simpa using hxc), Function.update_noteq (by simpa using hxb)]

theorem follow_of_DSeg {s : BState} {z : Ptr} (hz : ∀ x, z ≠ .buf x) :
    ∀ {l : List Nat} {a : Ptr} (fuel : Nat), DSeg s a l z → l.length < fuel →
    follow s z fuel (s.next a) = some l
  | [], a, fuel, h, hf => by
    simp only [DSeg] at h
    obtain ⟨k, rfl⟩ : ∃ k, fuel = k + 1 := ⟨fuel - 1, by simp at hf; omega⟩
    simp [follow, h.1]
  | b :: t, a, fuel, h, hf => by
    simp only [DSeg] at h
    obtain ⟨k, rfl⟩ : ∃ k, fuel = k + 1 := ⟨fuel - 1, by simp at hf; omega⟩
    have := follow_of_DSeg hz k h.2.2 (by simpa using hf)
    simp [follow, h.1, (hz b).symm, this]

theorem follow_of_FSeg {s : BState} :
    ∀ {l : List Nat} {p : Ptr} (fuel : Nat), FSeg s p l → l.length < fuel →
    follow s .null fuel p = some l
  | [], p, fuel, h, hf => by
    simp only [FSeg] at h
    obtain ⟨k, rfl⟩ : ∃ k, fuel = k + 1 := ⟨fuel - 1, by simp at hf; omega⟩
    simp [follow, h]
  | b :: t, p, fuel, h, hf => by
    simp only [FSeg] at h
    obtain ⟨k, rfl⟩ : ∃ k, fuel = k + 1 := ⟨fuel - 1, by simp at hf; omega⟩
    have := follow_of_FSeg k h.2 (by simpa using hf)
    simp [follow, h.1, this]

theorem length_le_of_nodup_lt {l : List Nat} {n : Nat} (hnd : l.Nodup) (hb : ∀ b ∈ l, b < n) :
    l.length ≤ n := by
  have hsub : l ⊆ List.range n := fun b h => List.mem_range.mpr (hb b h)
  simpa using (List.subperm_of_subset hnd hsub).length_le

theorem Rep.bk_length {NBUF NBUCKET : Nat} {s : BState} {bk : Nat → List Nat} {fl : List Nat}
    (h : Rep NBUF NBUCKET s bk fl) {i : Nat} (hi : i < NBUCKET) : (bk i).length ≤ NBUF :=
  length_le_of_nodup_lt (h.nd_bk i hi) (fun b hb => (h.cover b).mpr (Or.inr ⟨i, hi, hb⟩))

theorem Rep.fl_length {NBUF NBUCKET : Nat} {s : BState} {bk : Nat → List Nat} {fl : List Nat}
    (h : Rep NBUF NBUCKET s bk fl) : fl.length ≤ NBUF :=
  length_le_of_nodup_lt h.nd_fl (fun b hb => (h.cover b).mpr (Or.inl hb))

theorem Rep.bucketList_eq {NBUF NBUCKET : Nat} {s : BState} {bk : Nat → List Nat} {fl : List Nat}
    (h : Rep NBUF NBUCKET s bk fl) {i : Nat} (hi : i < NBUCKET) :
    bucketList NBUF s i = some (bk i) :=
  follow_of_DSeg (fun x => by simp) _ (h.ring i hi) (Nat.lt_succ_of_le (h.bk_length hi))

theorem Rep.freeList_eq {NBUF NBUCKET : Nat} {s : BState} {bk : Nat → List Nat} {fl : List Nat}
    (h : Rep NBUF NBUCKET s bk fl) : freeList NBUF s = some fl :=
  follow_of_FSeg _ h.free (Nat.lt_succ_of_le h.fl_length)

theorem scan_of_DSeg {s : BState} {bucket : Nat} (dev blockno : Nat) :
    ∀ {l : List Nat} {a : Ptr} (fuel : Nat), DSeg s a l (.head bucket) → l.length < fuel →
    bget_scan s bucket dev blockno fuel (s.next a) =
      match findKey s dev blockno l with
      | some b => .found (.buf b)
      | none => .notFound
  | [], a, fuel, h, hf => by
    simp only [DSeg] at h
    obtain ⟨k, rfl⟩ : ∃ k, fuel = k + 1 := ⟨fuel - 1, by simp at hf; omega⟩
    simp [bget_scan, h.1, findKey]
  | b :: t, a, fuel, h, hf => by
    simp only [DSeg] at h
    obtain ⟨k, rfl⟩ : ∃ k, fuel = k + 1 := ⟨fuel - 1, by simp at hf; omega⟩
    have ih := scan_of_DSeg dev blockno k h.2.2 (by simpa using hf)
    by_cases hk : s.dev (.buf b) = dev ∧ s.blockno (.buf b) = blockno
    · simp [bget_scan, h.1, findKey, hk]
    · have hk' : ¬ (s.dev (.buf b) = dev ∧ s.blockno (.buf b) = blockno) := hk
      simp only [bget_scan, h.1, findKey] at ih ⊢
      rw [List.find?_cons_of_neg _ (by simpa using hk)]
      simp only [reduceCtorEq, if_false, hk', ih]

theorem Shape.congr {NBUCKET : Nat} {s s' : BState} {bk : Nat → List Nat} {fl : List Nat}
    (h : Shape NBUCKET s bk fl) (hn : s'.next = s.next) (hp : s'.prev = s.prev)
    (hf : s'.freelist = s.freelist) : Shape NBUCKET s' bk fl where
  ring := fun i hi => DSeg.frame (h.ring i hi) (by rw [hn]) (by rw [hp])
    (fun b _ => ⟨by rw [hn], by rw [hp]⟩)
  free := by rw [hf]; exact FSeg.fframe h.free (fun b _ => by rw [hn])
  nd_bk := h.nd_bk
  nd_fl := h.nd_fl
  disj_bk := h.disj_bk
  disj_fl := h.disj_fl

/-- Where the neighbours of a linked buffer are: the sentinel of its bucket or a buffer of
its bucket. -/
theorem Shape.neighbours {NBUCKET : Nat} {s : BState} {bk : Nat → List Nat} {fl : List Nat}
    (h : Shape NBUCKET s bk fl) {i b : Nat} (hi : i < NBUCKET) (hb : b ∈ bk i) :
    (s.prev (.buf b) = .head i ∨ ∃ x ∈ bk i, s.prev (.buf b) = .buf x) ∧
    (s.next (.buf b) = .head i ∨ ∃ x ∈ bk i, s.next (.buf b) = .buf x) := by
  obtain ⟨l1, l2, e⟩ := List.append_of_mem hb
  have hr := h.ring i hi
  rw [e] at hr
  have hm := DSeg.mid l1 hr
  constructor
  · rw [hm.1]
    rcases predOf_cases (.head i) l1 with ⟨_, e1⟩ | ⟨x, hx, e1⟩
    · exact Or.inl e1
    · exact Or.inr ⟨x, by rw [e]; simp [hx], e1⟩
  · rw [hm.2]
    rcases succOf_cases l2 (.head i) with ⟨_, e1⟩ | ⟨y, t, e2, e1⟩
    · exact Or.inl e1
    · exact Or.inr ⟨y, by rw [e, e2]; simp, e1⟩

theorem Shape.unlink {NBUCKET : Nat} {s : BState} {bk : Nat → List Nat} {fl : List Nat}
    (h : Shape NBUCKET s bk fl) {i b : Nat} (hi : i < NBUCKET) (hb : b ∈ bk i) :
    Shape NBUCKET (unlinkS s (.buf b)) (Function.update bk i ((bk i).erase b)) fl := by
  have hnb := h.neighbours hi hb
  have hnext : ∀ p, p ≠ .head i → (∀ x ∈ bk i, p ≠ .buf x) →
      (unlinkS s (.buf b)).next p = s.next p := by
    intro p h1 h2
    simp only [unlinkS]
    rw [Function.update_noteq]
    rcases hnb.1 with e | ⟨x, hx, e⟩
    · rw [e]; exact h1
    · rw [e]; exact h2 x hx
  have hprev : ∀ p, p ≠ .head i → (∀ x ∈ bk i, p ≠ .buf x) →
      (unlinkS s (.buf b)).prev p = s.prev p := by
    intro p h1 h2
    simp only [unlinkS]
    rw [Function.update_noteq]
    rcases hnb.2 with e | ⟨x, hx, e⟩
    · rw [e]; exact h1
    · rw [e]; exact h2 x hx
  refine ⟨?_, ?_, ?_, h.nd_fl, ?_, ?_⟩
  · intro j hj
    by_cases hji : j = i
    · subst hji
      rw [Function.update_same]
      obtain ⟨l1, l2, e⟩ := List.append_of_mem hb
      have hnd := h.nd_bk j hj
      have hr := h.ring j hj
      rw [e] at hnd hr ⊢
      have hb1 : b ∉ l1 := by
        intro hb1
        have := (List.nodup_append.mp hnd).2.2
        exact this hb1 (List.mem_cons_self _ _) 
      rw [List.erase_append_right _ hb1, List.erase_cons_head]
      exact DSeg.unlink_seg (fun x => by simp) l1 (fun x _ => by simp) hnd hr
    · rw [Function.update_noteq hji]
      have hne : (Ptr.head j) ≠ .head i := by simpa using hji
      have hbufs : ∀ y ∈ bk j, ∀ x ∈ bk i, (Ptr.buf y) ≠ .buf x := by
        intro y hy x hx e
        injection e with e
        exact hji (h.disj_bk j i y hj hi hy (e ▸ hx))
      apply DSeg.frame (h.ring j hj)
      · exact hnext _ hne (fun x _ => by simp)
      · exact hprev _ hne (fun x _ => by simp)
      · intro y hy
        exact ⟨hnext _ (by simp) (hbufs y hy), hprev _ (by simp) (hbufs y hy)⟩
  · show FSeg (unlinkS s (.buf b)) s.freelist fl
    apply FSeg.fframe h.free
    intro y hy
    apply hnext _ (by simp)
    intro x hx e
    injection e with e
    exact h.disj_fl i x hi hx (e ▸ hy)
  · intro j hj
    by_cases hji : j = i
    · subst hji; rw [Function.update_same]; exact (h.nd_bk j hj).erase b
    · rw [Function.update_noteq hji]; exact h.nd_bk j hj
  · intro j k c hj hk hcj hck
    have hcj' : c ∈ bk j := by
      by_cases hji : j = i
      · subst hji; rw [Function.update_same] at hcj; exact List.mem_of_mem_erase hcj
      · rwa [Function.update_noteq hji] at hcj
    have hck' : c ∈ bk k := by
      by_cases hki : k = i
      · subst hki; rw [Function.update_same] at hck; exact List.mem_of_mem_erase hck
      · rwa [Function.update_noteq hki] at hck
    exact h.disj_bk j k c hj hk hcj' hck'
  · intro j c hj hcj
    have hcj' : c ∈ bk j := by
      by_cases hji : j = i
      · subst hji; rw [Function.update_same] at hcj; exact List.mem_of_mem_erase hcj
      · rwa [Function.update_noteq hji] at hcj
    exact h.disj_fl j c hj hcj'

theorem Shape.link {NBUCKET : Nat} {s : BState} {bk : Nat → List Nat} {fl : List Nat}
    (h : Shape NBUCKET s bk fl) {i b : Nat} (hi : i < NBUCKET)
    (hb : ∀ j, j < NBUCKET → b ∉ bk j) (hbf : b ∉ fl) :
    Shape NBUCKET (linkS s (.head i) (.buf b)) (Function.update bk i (b :: bk i)) fl := by
  have hfirst : s.next (.head i) = .head i ∨ ∃ x ∈ bk i, s.next (.head i) = .buf x := by
    have hr := h.ring i hi
    cases e : bk i with
    | nil => rw [e] at hr; simp only [DSeg] at hr; exact Or.inl hr.1
    | cons c t => rw [e] at hr; simp only [DSeg] at hr; exact Or.inr ⟨c, by simp, hr.1⟩
  have hnext : ∀ p, p ≠ .head i → p ≠ .buf b →
      (linkS s (.head i) (.buf b)).next p = s.next p := by
    intro p h1 h2
    simp only [linkS]
    rw [Function.update_noteq h1, Function.update_noteq h2]
  have hprev : ∀ p, p ≠ .head i → p ≠ .buf b → (∀ x ∈ bk i, p ≠ .buf x) →
      (linkS s (.head i) (.buf b)).prev p = s.prev p := by
    intro p h1 h2 h3
    simp only [linkS]
    rw [Function.update_noteq, Function.update_noteq h2]
    rcases hfirst with e | ⟨x, hx, e⟩
    · rw [e]; exact h1
    · rw [e]; exact h3 x hx
  refine ⟨?_, ?_, ?_, h.nd_fl, ?_, ?_⟩
  · intro j hj
    by_cases hji : j = i
    · subst hji
      rw [Function.update_same]
      exact DSeg.link_seg (fun x => by simp) (hb j hj) (h.nd_bk j hj) (h.ring j hj)
    · rw [Function.update_noteq hji]
      have hne : (Ptr.head j) ≠ .head i := by simpa using hji
      have hbufs : ∀ y ∈ bk j, ∀ x ∈ bk i, (Ptr.buf y) ≠ .buf x := by
        intro y hy x hx e
        injection e with e
        exact hji (h.disj_bk j i y hj hi hy (e ▸ hx))
      have hyb : ∀ y ∈ bk j, (Ptr.buf y) ≠ .buf b := by
        intro y hy e
        injection e with e
        exact hb j hj (e ▸ hy)
      apply DSeg.frame (h.ring j hj)
      · exact hnext _ hne (by simp)
      · exact hprev _ hne (by simp) (fun x _ => by simp)
      · intro y hy
        exact ⟨hnext _ (by simp) (hyb y hy), hprev _ (by simp) (hyb y hy) (hbufs y hy)⟩
  · show FSeg (linkS s (.head i) (.buf b)) s.freelist fl
    apply FSeg.fframe h.free
    intro y hy
    apply hnext _ (by simp)
    intro e
    injection e with e
    exact hbf (e ▸ hy)
  · intro j hj
    by_cases hji : j = i
    · subst hji; rw [Function.update_same]; exact List.nodup_cons.mpr ⟨hb j hj, h.nd_bk j hj⟩
    · rw [Function.update_noteq hji]; exact h.nd_bk j hj
  · intro j k c hj hk hcj hck
    by_cases hcb : c = b
    · subst hcb
      have hj' : j = i := by
        by_contra hji
        rw [Function.update_noteq hji] at hcj
        exact hb j hj hcj
      have hk' : k = i := by
        by_contra hki
        rw [Function.update_noteq hki] at hck
        exact hb k hk hck
      rw [hj', hk']
    · have hcj' : c ∈ bk j := by
        by_cases hji : j = i
        · subst hji; rw [Function.update_same] at hcj
          exact (List.mem_cons.mp hcj).resolve_left hcb
        · rwa [Function.update_noteq hji] at hcj
      have hck' : c ∈ bk k := by
        by_cases hki : k = i
        · subst hki; rw [Function.update_same] at hck
          exact (List.mem_cons.mp hck).resolve_left hcb
        · rwa [Function.update_noteq hki] at hck
      exact h.disj_bk j k c hj hk hcj' hck'
  · intro j c hj hcj
    by_cases hji : j = i
    · subst hji
      rw [Function.update_same] at hcj
      rcases List.mem_cons.mp hcj with e | hc
      · rw [e]; exact hbf
      · exact h.disj_fl j c hj hc
    · rw [Function.update_noteq hji] at hcj
      exact h.disj_fl j c hj hcj

theorem Shape.pop {NBUCKET : Nat} {s : BState} {bk : Nat → List Nat} {b : Nat} {fl : List Nat}
    (h : Shape NBUCKET s bk (b :: fl)) :
    Shape NBUCKET { s with freelist := s.next (.buf b) } bk fl where
  ring := fun i hi => DSeg.frame (h.ring i hi) rfl rfl (fun _ _ => ⟨rfl, rfl⟩)
  free := by
    have := h.free
    simp only [FSeg] at this
    exact FSeg.fframe this.2 (fun _ _ => rfl)
  nd_bk := h.nd_bk
  nd_fl := (List.nodup_cons.mp h.nd_fl).2
  disj_bk := h.disj_bk
  disj_fl := fun i c hi hc hcf => h.disj_fl i c hi hc (List.mem_cons_of_mem _ hcf)

theorem Shape.push {NBUCKET : Nat} {s : BState} {bk : Nat → List Nat} {fl : List Nat}
    (h : Shape NBUCKET s bk fl) {b : Nat} (hb : ∀ j, j < NBUCKET → b ∉ bk j) (hbf : b ∉ fl) :
    Shape NBUCKET { s with next := Function.update s.next (.buf b) s.freelist,
                           freelist := .buf b } bk (b :: fl) where
  ring := by
    intro j hj
    apply DSeg.frame (h.ring j hj)
    · show Function.update s.next (.buf b) s.freelist (.head j) = _
      rw [Function.update_noteq (by simp)]
    · rfl
    · intro y hy
      refine ⟨?_, rfl⟩
      show Function.update s.next (.buf b) s.freelist (.buf y) = _
      rw [Function.update_noteq]
      intro e; injection e with e
      exact hb j hj (e ▸ hy)
  free := by
    simp only [FSeg, Function.update_same, true_and]
    apply FSeg.fframe h.free
    intro y hy
    show Function.update s.next (.buf b) s.freelist (.buf y) = _
    rw [Function.update_noteq]
    intro e; injection e with e
    exact hbf (e ▸ hy)
  nd_bk := h.nd_bk
  nd_fl := List.nodup_cons.mpr ⟨hbf, h.nd_fl⟩
  disj_bk := h.disj_bk
  disj_fl := by
    intro i c hi hc hcf
    rcases List.mem_cons.mp hcf with e | hcf
    · exact hb i hi (e ▸ hc)
    · exact h.disj_fl i c hi hc hcf

theorem bget_hit_eq (s : BState) (pid i x : Nat)
    (h1 : s.next (.buf x) ≠ .null) (h2 : s.prev (.buf x) ≠ .null)
    (h3 : (unlinkS s (.buf x)).next (.head i) ≠ .null) (h4 : s.lock (.buf x) = none) :
    bget_hit s pid i (.buf x) = .ret (.buf x, hitS s pid i (.buf x)) := by
  simp only [unlinkS, Function.update_apply] at h3
  simp [bget_hit, hitS, linkS, unlinkS, st_prev, st_next, acquiresleep, bind, Outcome.bind,
    h1, h2, h3, h4, Function.update_apply, pure]

theorem bget_hit_hang (s : BState) (pid i x q : Nat)
    (h1 : s.next (.buf x) ≠ .null) (h2 : s.prev (.buf x) ≠ .null)
    (h3 : (unlinkS s (.buf x)).next (.head i) ≠ .null) (h4 : s.lock (.buf x) = some q) :
    bget_hit s pid i (.buf x) = .hang := by
  simp only [unlinkS, Function.update_apply] at h3
  simp [bget_hit, st_prev, st_next, acquiresleep, bind, Outcome.bind,
    h1, h2, h3, h4, Function.update_apply]

theorem bget_miss_eq (s : BState) (pid i dev blockno x : Nat)
    (h1 : s.freelist = .buf x) (h2 : s.next (.head i) ≠ .null) (h4 : s.lock (.buf x) = none) :
    bget_miss s pid i dev blockno = .ret (.buf x, missS s pid i dev blockno (.buf x)) := by
  simp [bget_miss, missS, linkS, st_prev, st_next, acquiresleep, bind, Outcome.bind,
    h1, h2, h4, Function.update_apply, pure]

theorem brelse_eq_zero (s : BState) (pid x : Nat) (h0 : s.lock (.buf x) = some pid)
    (h1 : s.next (.buf x) ≠ .null) (h2 : s.prev (.buf x) ≠ .null)
    (h3 : dec32 (s.refcnt (.buf x)) = 0) :
    brelse s pid (.buf x) = .ret (relS s (.buf x)) := by
  simp [brelse, relS, unlinkS, holdingsleep, releasesleep, st_prev, st_next, bind, Outcome.bind,
    h0, h1, h2, h3, Function.update_apply, pure]

theorem brelse_eq_pos (s : BState) (pid x : Nat) (h0 : s.lock (.buf x) = some pid)
    (h3 : dec32 (s.refcnt (.buf x)) ≠ 0) :
    brelse s pid (.buf x) = .ret { s with
      lock := Function.update s.lock (.buf x) none,
      refcnt := Function.update s.refcnt (.buf x) (dec32 (s.refcnt (.buf x))) } := by
  simp [brelse, holdingsleep, releasesleep, bind, Outcome.bind, h0, h3, pure]


theorem mem_move_front {l : List Nat} {x c : Nat} (hx : x ∈ l) :
    c ∈ x :: l.erase x ↔ c ∈ l := by
  constructor
  · intro h
    rcases List.mem_cons.mp h with e | h
    · exact e ▸ hx
    · exact List.mem_of_mem_erase h
  · intro h
    by_cases e : c = x
    · exact List.mem_cons.mpr (Or.inl e)
    · exact List.mem_cons_of_mem _ ((List.mem_erase_of_ne e).mpr h)

/-- A change of the cache that leaves the membership of every bucket, the keys and the
free list as they are, and locks nothing outside the buckets, keeps the invariant. -/
theorem Rep.of_shape {NBUF NBUCKET : Nat} {s s' : BState} {bk bk' : Nat → List Nat}
    {fl : List Nat} (h : Rep NBUF NBUCKET s bk fl) (hs : Shape NBUCKET s' bk' fl)
    (hm : ∀ j c, j < NBUCKET → (c ∈ bk' j ↔ c ∈ bk j))
    (hd : s'.dev = s.dev) (hb : s'.blockno = s.blockno)
    (hl : ∀ p pid, s'.lock p = some pid → s.lock p = some pid ∨
      ∃ i b, i < NBUCKET ∧ b ∈ bk i ∧ p = .buf b) :
    Rep NBUF NBUCKET s' bk' fl where
  toShape := hs
  cover := by
    intro b
    rw [h.cover b]
    constructor
    · rintro (hf | ⟨i, hi, hbi⟩)
      · exact Or.inl hf
      · exact Or.inr ⟨i, hi, (hm i b hi).mpr hbi⟩
    · rintro (hf | ⟨i, hi, hbi⟩)
      · exact Or.inl hf
      · exact Or.inr ⟨i, hi, (hm i b hi).mp hbi⟩
  hash := by
    intro i b hi hbi
    rw [hb]
    exact h.hash i b hi ((hm i b hi).mp hbi)
  keys := by
    intro i b c hi hbi hci
    rw [hd, hb]
    exact h.keys i b c hi ((hm i b hi).mp hbi) ((hm i c hi).mp hci)
  locked := by
    intro p pid hp
    rcases hl p pid hp with h1 | ⟨i, b, hi, hbi, e⟩
    · obtain ⟨i, b, hi, hbi, e⟩ := h.locked p pid h1
      exact ⟨i, b, hi, (hm i b hi).mpr hbi, e⟩
    · exact ⟨i, b, hi, (hm i b hi).mpr hbi, e⟩

theorem Rep.hit {NBUF NBUCKET : Nat} {s : BState} {bk : Nat → List Nat} {fl : List Nat}
    (h : Rep NBUF NBUCKET s bk fl) (pid : Nat) {i x : Nat} (hi : i < NBUCKET) (hx : x ∈ bk i) :
    Rep NBUF NBUCKET (hitS s pid i (.buf x)) (Function.update bk i (x :: (bk i).erase x)) fl := by
  have h1 := h.toShape.unlink hi hx
  have hnot : ∀ j, j < NBUCKET → x ∉ Function.update bk i ((bk i).erase x) j := by
    intro j hj hxj
    by_cases hji : j = i
    · subst hji
      rw [Function.update_same] at hxj
      exact ((h.nd_bk j hj).mem_erase_iff.mp hxj).1 rfl
    · rw [Function.update_noteq hji] at hxj
      exact hji (h.disj_bk j i x hj hi hxj hx)
  have h2 := h1.link hi hnot (h.disj_fl i x hi hx)
  rw [Function.update_idem, Function.update_same] at h2
  have h3 : Shape NBUCKET (hitS s pid i (.buf x)) (Function.update bk i (x :: (bk i).erase x)) fl :=
    h2.congr rfl rfl rfl
  apply h.of_shape h3
  · intro j c hj
    by_cases hji : j = i
    · subst hji; rw [Function.update_same]; exact mem_move_front hx
    · rw [Function.update_noteq hji]
  · rfl
  · rfl
  · intro p q hp
    by_cases e : p = .buf x
    · exact Or.inr ⟨i, x, hi, hx, e⟩
    · left
      simp only [hitS, linkS, unlinkS] at hp
      rwa [Function.update_noteq e] at hp

theorem Rep.miss {NBUF NBUCKET : Nat} {s : BState} {bk : Nat → List Nat} {fl : List Nat}
    {x : Nat} (h : Rep NBUF NBUCKET s bk (x :: fl)) (pid : Nat) {i dev blockno : Nat}
    (hi : i < NBUCKET) (hb : blockno % NBUCKET = i)
    (hk : ∀ c ∈ bk i, ¬ (s.dev (.buf c) = dev ∧ s.blockno (.buf c) = blockno)) :
    Rep NBUF NBUCKET (missS s pid i dev blockno (.buf x)) (Function.update bk i (x :: bk i)) fl := by
  have hxb : ∀ j, j < NBUCKET → x ∉ bk j :=
    fun j hj hxj => h.disj_fl j x hj hxj (List.mem_cons_self _ _)
  have hxf : x ∉ fl := (List.nodup_cons.mp h.nd_fl).1
  have h1 := (h.toShape.pop).link hi hxb hxf
  have h3 : Shape NBUCKET (missS s pid i dev blockno (.buf x)) (Function.update bk i (x :: bk i)) fl :=
    h1.congr rfl rfl rfl
  have hmem : ∀ j c, j < NBUCKET → (c ∈ Function.update bk i (x :: bk i) j ↔
      (c = x ∧ j = i) ∨ c ∈ bk j) := by
    intro j c hj
    by_cases hji : j = i
    · subst hji; rw [Function.update_same]; simp
    · rw [Function.update_noteq hji]; simp [hji]
  have hdev : ∀ c, c ≠ x → (missS s pid i dev blockno (.buf x)).dev (.buf c) = s.dev (.buf c) := by
    intro c hc
    simp only [missS, linkS]
    rw [Function.update_noteq (by simpa using hc)]
  have hblk : ∀ c, c ≠ x →
      (missS s pid i dev blockno (.buf x)).blockno (.buf c) = s.blockno (.buf c) := by
    intro c hc
    simp only [missS, linkS]
    rw [Function.update_noteq (by simpa using hc)]
  have hdevx : (missS s pid i dev blockno (.buf x)).dev (.buf x) = dev := by
    simp [missS, linkS]
  have hblkx : (missS s pid i dev blockno (.buf x)).blockno (.buf x) = blockno := by
    simp [missS, linkS]
  refine ⟨h3, ?_, ?_, ?_, ?_⟩
  · intro b
    rw [h.cover b]
    constructor
    · rintro (hf | ⟨j, hj, hbj⟩)
      · rcases List.mem_cons.mp hf with e | hf
        · exact Or.inr ⟨i, hi, (hmem i b hi).mpr (Or.inl ⟨e, rfl⟩)⟩
        · exact Or.inl hf
      · exact Or.inr ⟨j, hj, (hmem j b hj).mpr (Or.inr hbj)⟩
    · rintro (hf | ⟨j, hj, hbj⟩)
      · exact Or.inl (List.mem_cons_of_mem _ hf)
      · rcases (hmem j b hj).mp hbj with ⟨e, _⟩ | hbj
        · exact Or.inl (by rw [e]; exact List.mem_cons_self _ _)
        · exact Or.inr ⟨j, hj, hbj⟩
  · intro j b hj hbj
    rcases (hmem j b hj).mp hbj with ⟨e, e2⟩ | hbj
    · rw [e, hblkx, hb, e2]
    · have hbx : b ≠ x := fun e => hxb j hj (e ▸ hbj)
      rw [hblk b hbx]
      exact h.hash j b hj hbj
  · intro j b c hj hbj hcj
    rcases (hmem j b hj).mp hbj with ⟨e, e2⟩ | hbj <;>
      rcases (hmem j c hj).mp hcj with ⟨e', e2'⟩ | hcj
    · intro _ _; rw [e, e']
    · have hcx : c ≠ x := fun e => hxb j hj (e ▸ hcj)
      rw [e, hdevx, hblkx, hdev c hcx, hblk c hcx]
      intro a1 a2
      exact absurd ⟨a1.symm, a2.symm⟩ (hk c (e2 ▸ hcj))
    · have hbx : b ≠ x := fun e => hxb j hj (e ▸ hbj)
      rw [e', hdevx, hblkx, hdev b hbx, hblk b hbx]
      intro a1 a2
      exact absurd ⟨a1, a2⟩ (hk b (e2' ▸ hbj))
    · have hbx : b ≠ x := fun e => hxb j hj (e ▸ hbj)
      have hcx : c ≠ x := fun e => hxb j hj (e ▸ hcj)
      rw [hdev b hbx, hblk b hbx, hdev c hcx, hblk c hcx]
      exact h.keys j b c hj hbj hcj
  · intro p q hp
    by_cases e : p = .buf x
    · exact ⟨i, x, hi, (hmem i x hi).mpr (Or.inl ⟨rfl, rfl⟩), e⟩
    · simp only [missS, linkS] at hp
      rw [Function.update_noteq e] at hp
      obtain ⟨j, b, hj, hbj, e⟩ := h.locked p q hp
      exact ⟨j, b, hj, (hmem j b hj).mpr (Or.inr hbj), e⟩

theorem Rep.rel {NBUF NBUCKET : Nat} {s : BState} {bk : Nat → List Nat} {fl : List Nat}
    (h : Rep NBUF NBUCKET s bk fl) {i x : Nat} (hi : i < NBUCKET) (hx : x ∈ bk i) :
    Rep NBUF NBUCKET (relS s (.buf x)) (Function.update bk i ((bk i).erase x)) (x :: fl) := by
  have h0 : Shape NBUCKET ({ s with lock := Function.update s.lock (.buf x) none
                                    refcnt := Function.update s.refcnt (.buf x) 0 } : BState)
      bk fl := h.toShape.congr rfl rfl rfl
  have h1 := h0.unlink hi hx
  have hnot : ∀ j, j < NBUCKET → x ∉ Function.update bk i ((bk i).erase x) j := by
    intro j hj hxj
    by_cases hji : j = i
    · subst hji
      rw [Function.update_same] at hxj
      exact ((h.nd_bk j hj).mem_erase_iff.mp hxj).1 rfl
    · rw [Function.update_noteq hji] at hxj
      exact hji (h.disj_bk j i x hj hi hxj hx)
  have h2 := h1.push hnot (h.disj_fl i x hi hx)
  have h3 : Shape NBUCKET (relS s (.buf x)) (Function.update bk i ((bk i).erase x)) (x :: fl) := h2
  have hmem : ∀ j c, j < NBUCKET → (c ∈ Function.update bk i ((bk i).erase x) j ↔
      c ≠ x ∧ c ∈ bk j) := by
    intro j c hj
    by_cases hji : j = i
    · subst hji; rw [Function.update_same]; exact (h.nd_bk j hj).mem_erase_iff
    · rw [Function.update_noteq hji]
      constructor
      · intro hc
        exact ⟨fun e => hji (h.disj_bk j i x hj hi (e ▸ hc) hx), hc⟩
      · exact fun hc => hc.2
  refine ⟨h3, ?_, ?_, ?_, ?_⟩
  · intro b
    rw [h.cover b]
    constructor
    · rintro (hf | ⟨j, hj, hbj⟩)
      · exact Or.inl (List.mem_cons_of_mem _ hf)
      · by_cases e : b = x
        · exact Or.inl (by rw [e]; exact List.mem_cons_self _ _)
        · exact Or.inr ⟨j, hj, (hmem j b hj).mpr ⟨e, hbj⟩⟩
    · rintro (hf | ⟨j, hj, hbj⟩)
      · rcases List.mem_cons.mp hf with e | hf
        · exact Or.inr ⟨i, hi, e ▸ hx⟩
        · exact Or.inl hf
      · exact Or.inr ⟨j, hj, ((hmem j b hj).mp hbj).2⟩
  · intro j b hj hbj
    exact h.hash j b hj ((hmem j b hj).mp hbj).2
  · intro j b c hj hbj hcj
    exact h.keys j b c hj ((hmem j b hj).mp hbj).2 ((hmem j c hj).mp hcj).2
  · intro p q hp
    have hpx : p ≠ .buf x := by
      intro e
      rw [e] at hp
      simp [relS, unlinkS] at hp
    simp only [relS, unlinkS] at hp
    rw [Function.update_noteq hpx] at hp
    obtain ⟨j, b, hj, hbj, e⟩ := h.locked p q hp
    refine ⟨j, b, hj, (hmem j b hj).mpr ⟨?_, hbj⟩, e⟩
    intro e2
    exact hpx (by rw [e, e2])


theorem binit_bucket_fold (s0 : BState) (n : Nat) :
    let t := (List.range n).foldl binit_bucket s0
    (∀ i, i < n → t.next (.head i) = .head i ∧ t.prev (.head i) = .head i) ∧
    t.lock = s0.lock ∧ t.disk = s0.disk := by
  induction n with
  | zero => simp
  | succ n ih =>
    simp only [List.range_succ, List.foldl_append, List.foldl_cons, List.foldl_nil]
    obtain ⟨h1, h2, h3⟩ := ih
    refine ⟨?_, h2, h3⟩
    intro i hi
    by_cases e : i = n
    · subst e; simp [binit_bucket]
    · have hlt : i < n := by omega
      have hne : (Ptr.head i) ≠ .head n := by simpa using e
      simp only [binit_bucket]
      rw [Function.update_noteq hne, Function.update_noteq hne]
      exact h1 i hlt

theorem binit_buf_fold (s0 : BState) (h0 : s0.freelist = .null) (n : Nat) :
    let t := (List.range n).foldl binit_buf s0
    FSeg t t.freelist (List.range n).reverse ∧
    (∀ i, t.next (.head i) = s0.next (.head i)) ∧ t.prev = s0.prev ∧
    (∀ p, s0.lock p = none → t.lock p = none) ∧ t.disk = s0.disk := by
  induction n with
  | zero => simp [FSeg, h0]
  | succ n ih =>
    simp only [List.range_succ, List.foldl_append, List.foldl_cons, List.foldl_nil,
      List.reverse_append, List.reverse_cons, List.reverse_nil, List.nil_append,
      List.singleton_append]
    obtain ⟨h1, h2, h3, h4, h5⟩ := ih
    refine ⟨?_, ?_, h3, ?_, h5⟩
    · simp only [FSeg, binit_buf, Function.update_same, true_and]
      apply FSeg.fframe h1
      intro b hb
      have hb' : b < n := by simpa using hb
      show Function.update _ _ _ _ = _
      rw [Function.update_noteq]
      simp; omega
    · intro i
      simp only [binit_buf]
      rw [Function.update_noteq (by simp)]
      exact h2 i
    · intro p hp
      simp only [binit_buf, Function.update_apply]
      split
      · rfl
      · exact h4 p hp

theorem Rep.of_binit (NBUF NBUCKET : Nat) (disk : Nat → Nat → List Nat) :
    Rep NBUF NBUCKET (binit NBUF NBUCKET disk) (fun _ => []) (List.range NBUF).reverse := by
  have hA := binit_bucket_fold (BState.zero disk) NBUCKET
  have hB := binit_buf_fold
    { (List.range NBUCKET).foldl binit_bucket (BState.zero disk) with freelist := .null } rfl NBUF
  simp only at hA hB
  obtain ⟨a1, a2, _⟩ := hA
  obtain ⟨b1, b2, b3, b4, _⟩ := hB
  have hlock : ∀ p, (Xv6.binit NBUF NBUCKET disk).lock p = none := by
    intro p
    apply b4
    show ((List.range NBUCKET).foldl binit_bucket (BState.zero disk)).lock p = none
    rw [a2]; rfl
  refine ⟨⟨?_, b1, ?_, ?_, ?_, ?_⟩, ?_, ?_, ?_, ?_⟩
  · intro i hi
    simp only [DSeg]
    constructor
    · show (Xv6.binit NBUF NBUCKET disk).next (.head i) = _
      unfold Xv6.binit
      rw [b2 i]; exact (a1 i hi).1
    · show (Xv6.binit NBUF NBUCKET disk).prev (.head i) = _
      unfold Xv6.binit
      simp only
      rw [b3]; exact (a1 i hi).2
  · intro i _; exact List.nodup_nil
  · exact List.nodup_reverse.mpr (List.nodup_range NBUF)
  · intro i j b _ _ hb; simp at hb
  · intro i b _ hb; simp at hb
  · intro b; simp
  · intro i b _ hb; simp at hb
  · intro i b c _ hb; simp at hb
  · intro p pid hp
    rw [hlock p] at hp
    cases hp


theorem DSeg.next_ne_null {s : BState} {a z : Ptr} {l : List Nat} (h : DSeg s a l z)
    (hz : z ≠ .null) : s.next a ≠ .null := by
  cases l with
  | nil => simp only [DSeg] at h; rw [h.1]; exact hz
  | cons b t => simp only [DSeg] at h; rw [h.1]; simp

theorem findKey_none {s : BState} {dev blockno : Nat} {l : List Nat} :
    findKey s dev blockno l = none ↔
      ∀ c ∈ l, ¬ (s.dev (.buf c) = dev ∧ s.blockno (.buf c) = blockno) := by
  simp [findKey, List.find?_eq_none]

theorem findKey_some {s : BState} {dev blockno : Nat} {l : List Nat} {x : Nat}
    (h : findKey s dev blockno l = some x) :
    x ∈ l ∧ s.dev (.buf x) = dev ∧ s.blockno (.buf x) = blockno := by
  unfold findKey at h
  have h1 := List.find?_some h
  have h2 := List.mem_of_find?_eq_some h
  exact ⟨h2, by simpa using h1⟩

theorem findKey_unique {s : BState} {dev blockno : Nat} {l : List Nat} {x : Nat}
    (hx : x ∈ l) (hk : s.dev (.buf x) = dev ∧ s.blockno (.buf x) = blockno)
    (hu : ∀ b c, b ∈ l → c ∈ l → s.dev (.buf b) = s.dev (.buf c) →
      s.blockno (.buf b) = s.blockno (.buf c) → b = c) :
    findKey s dev blockno l = some x := by
  cases h : findKey s dev blockno l with
  | none => exact absurd hk (findKey_none.mp h x hx)
  | some y =>
    obtain ⟨hy, h1, h2⟩ := findKey_some h
    rw [hu y x hy hx (by rw [h1, hk.1]) (by rw [h2, hk.2])]

theorem Rep.free_unlocked {NBUF NBUCKET : Nat} {s : BState} {bk : Nat → List Nat}
    {fl : List Nat} (h : Rep NBUF NBUCKET s bk fl) {x : Nat} (hx : x ∈ fl) :
    s.lock (.buf x) = none := by
  cases e : s.lock (.buf x) with
  | none => rfl
  | some q =>
    obtain ⟨i, b, hi, hb, e2⟩ := h.locked _ q e
    injection e2 with e2
    exact absurd hx (h.disj_fl i x hi (e2 ▸ hb))

/-- What `bget` does in a state that satisfies the invariant: a hit moves the buffer to
the front of its bucket (or sleeps for ever on its held lock), a miss takes the head
of the free list (or panics when there is none). -/
theorem Rep.bget_cases {NBUF NBUCKET : Nat} {s : BState} {bk : Nat → List Nat} {fl : List Nat}
    (h : Rep NBUF NBUCKET s bk fl) (hN : 0 < NBUCKET) (pid dev blockno : Nat) :
    (∃ x, x ∈ bk (blockno % NBUCKET) ∧ s.dev (.buf x) = dev ∧ s.blockno (.buf x) = blockno ∧
      ((s.lock (.buf x) = none ∧ bget NBUF NBUCKET s pid dev blockno =
          .ret (.buf x, hitS s pid (blockno % NBUCKET) (.buf x))) ∨
       ((∃ q, s.lock (.buf x) = some q) ∧ bget NBUF NBUCKET s pid dev blockno = .hang))) ∨
    ((∀ c ∈ bk (blockno % NBUCKET), ¬ (s.dev (.buf c) = dev ∧ s.blockno (.buf c) = blockno)) ∧
      ((fl = [] ∧ s.freelist = .null ∧
          bget NBUF NBUCKET s pid dev blockno = .panic .bget_no_buffers) ∨
       (∃ x fl', fl = x :: fl' ∧ s.freelist = .buf x ∧
          bget NBUF NBUCKET s pid dev blockno =
            .ret (.buf x, missS s pid (blockno % NBUCKET) dev blockno (.buf x))))) := by
  have hi : blockno % NBUCKET < NBUCKET := Nat.mod_lt _ hN
  have hscan := scan_of_DSeg dev blockno (NBUF + NBUCKET + 1)
    (h.ring _ hi) (by have := h.bk_length hi; omega)
  cases hf : findKey s dev blockno (bk (blockno % NBUCKET)) with
  | some x =>
    left
    obtain ⟨hx, hk1, hk2⟩ := findKey_some hf
    refine ⟨x, hx, hk1, hk2, ?_⟩
    rw [hf] at hscan
    have hnb := h.toShape.neighbours hi hx
    have h1 : s.next (.buf x) ≠ .null := by
      rcases hnb.2 with e | ⟨y, _, e⟩ <;> rw [e] <;> simp
    have h2 : s.prev (.buf x) ≠ .null := by
      rcases hnb.1 with e | ⟨y, _, e⟩ <;> rw [e] <;> simp
    have h3 : (unlinkS s (.buf x)).next (.head (blockno % NBUCKET)) ≠ .null := by
      have := (h.toShape.unlink hi hx).ring _ hi
      exact this.next_ne_null (by simp)
    cases hl : s.lock (.buf x) with
    | none =>
      left
      refine ⟨rfl, ?_⟩
      simp only [Xv6.bget, hscan]
      exact bget_hit_eq s pid _ x h1 h2 h3 hl
    | some q =>
      right
      refine ⟨⟨q, rfl⟩, ?_⟩
      simp only [Xv6.bget, hscan]
      exact bget_hit_hang s pid _ x q h1 h2 h3 hl
  | none =>
    right
    refine ⟨findKey_none.mp hf, ?_⟩
    rw [hf] at hscan
    cases hfl : fl with
    | nil =>
      left
      have hfr := h.free
      rw [hfl] at hfr
      simp only [FSeg] at hfr
      refine ⟨rfl, hfr, ?_⟩
      simp only [Xv6.bget, hscan]
      simp [bget_miss, hfr]
    | cons x fl' =>
      right
      have hfr := h.free
      rw [hfl] at hfr
      simp only [FSeg] at hfr
      refine ⟨x, fl', rfl, hfr.1, ?_⟩
      simp only [Xv6.bget, hscan]
      exact bget_miss_eq s pid _ dev blockno x hfr.1
        ((h.ring _ hi).next_ne_null (by simp))
        (h.free_unlocked (by rw [hfl]; exact List.mem_cons_self _ _))


theorem Rep.same {NBUF NBUCKET : Nat} {s s' : BState} {bk : Nat → List Nat} {fl : List Nat}
    (h : Rep NBUF NBUCKET s bk fl) (hn : s'.next = s.next) (hp : s'.prev = s.prev)
    (hf : s'.freelist = s.freelist) (hd : s'.dev = s.dev) (hb : s'.blockno = s.blockno)
    (hl : s'.lock = s.lock) : Rep NBUF NBUCKET s' bk fl :=
  h.of_shape (h.toShape.congr hn hp hf) (fun _ _ _ => Iff.rfl) hd hb
    (fun p pid hp => Or.inl (by rwa [hl] at hp))

/-- A locked buffer is linked in the bucket its block number hashes to. -/
theorem Rep.locked_mem {NBUF NBUCKET : Nat} {s : BState} {bk : Nat → List Nat} {fl : List Nat}
    (h : Rep NBUF NBUCKET s bk fl) {x pid : Nat} (hl : s.lock (.buf x) = some pid) :
    s.blockno (.buf x) % NBUCKET < NBUCKET ∧ x ∈ bk (s.blockno (.buf x) % NBUCKET) := by
  obtain ⟨i, b, hi, hb, e⟩ := h.locked _ pid hl
  injection e with e
  subst e
  have := h.hash i x hi hb
  rw [this]
  exact ⟨hi, hb⟩

/-- What `brelse` does in a state that satisfies the invariant. -/
theorem Rep.brelse_cases {NBUF NBUCKET : Nat} {s : BState} {bk : Nat → List Nat} {fl : List Nat}
    (h : Rep NBUF NBUCKET s bk fl) {x pid : Nat} (hl : s.lock (.buf x) = some pid) :
    (dec32 (s.refcnt (.buf x)) = 0 ∧ brelse s pid (.buf x) = .ret (relS s (.buf x))) ∨
    (dec32 (s.refcnt (.buf x)) ≠ 0 ∧ brelse s pid (.buf x) = .ret { s with
      lock := Function.update s.lock (.buf x) none,
      refcnt := Function.update s.refcnt (.buf x) (dec32 (s.refcnt (.buf x))) }) := by
  obtain ⟨hi, hx⟩ := h.locked_mem hl
  have hnb := h.toShape.neighbours hi hx
  have h1 : s.next (.buf x) ≠ .null := by
    rcases hnb.2 with e | ⟨y, _, e⟩ <;> rw [e] <;> simp
  have h2 : s.prev (.buf x) ≠ .null := by
    rcases hnb.1 with e | ⟨y, _, e⟩ <;> rw [e] <;> simp
  by_cases h3 : dec32 (s.refcnt (.buf x)) = 0
  · exact Or.inl ⟨h3, brelse_eq_zero s pid x hl h1 h2 h3⟩
  · exact Or.inr ⟨h3, brelse_eq_pos s pid x hl h3⟩

theorem brelse_ret_locked {s s' : BState} {pid : Nat} {b : Ptr}
    (h : brelse s pid b = .ret s') : s.lock b = some pid := by
  unfold brelse at h
  by_cases hb : b = .null
  · simp [hb] at h
  · by_cases hl : s.lock b = some pid
    · exact hl
    · simp [hb, holdingsleep, hl] at h

theorem inc32_lt (n : Nat) : inc32 n < 2 ^ 32 := Nat.mod_lt _ (by norm_num)

theorem dec32_lt (n : Nat) : dec32 n < 2 ^ 32 := Nat.mod_lt _ (by norm_num)

theorem Counts.update {s : BState} (h : Counts s) (f : Ptr → Nat) (b : Ptr) (v : Nat)
    (hv : v < 2 ^ 32) (hf : f = Function.update s.refcnt b v) : ∀ p, f p < 2 ^ 32 := by
  intro p
  rw [hf, Function.update_apply]
  split
  · exact hv
  · exact h p

theorem Inv.init (NBUF NBUCKET : Nat) (disk : Nat → Nat → List Nat) :
    Inv NBUF NBUCKET (binit NBUF NBUCKET disk) := by
  refine ⟨_, _, Rep.of_binit NBUF NBUCKET disk, fun i b _ hb => by simp at hb, ?_⟩
  intro p
  have h1 : ∀ (n : Nat) (s0 : BState), ((List.range n).foldl binit_bucket s0).refcnt = s0.refcnt := by
    intro n s0
    induction n with
    | zero => rfl
    | succ n ih => simp only [List.range_succ, List.foldl_append, List.foldl_cons, List.foldl_nil]; exact ih
  have h2 : ∀ (n : Nat) (s0 : BState), ((List.range n).foldl binit_buf s0).refcnt = s0.refcnt := by
    intro n s0
    induction n with
    | zero => rfl
    | succ n ih => simp only [List.range_succ, List.foldl_append, List.foldl_cons, List.foldl_nil]; exact ih
  unfold Xv6.binit
  simp only
  rw [h2]
  show ((List.range NBUCKET).foldl binit_bucket (BState.zero disk)).refcnt p < _
  rw [h1]
  show 0 < 2 ^ 32
  norm_num

theorem Loaded.on_hit {NBUCKET : Nat} {s : BState} {bk : Nat → List Nat}
    (hv : Loaded NBUCKET s bk) (pid : Nat) {i x : Nat} (hx : x ∈ bk i) :
    Loaded NBUCKET (hitS s pid i (.buf x)) (Function.update bk i (x :: (bk i).erase x)) := by
  intro j c hj hc
  have hc' : c ∈ bk j := by
    by_cases hji : j = i
    · subst hji; rw [Function.update_same] at hc; exact (mem_move_front hx).mp hc
    · rwa [Function.update_noteq hji] at hc
  exact hv j c hj hc'

theorem Rep.load_miss {NBUF NBUCKET : Nat} {s : BState} {bk : Nat → List Nat} {fl : List Nat}
    {x : Nat} (h : Rep NBUF NBUCKET s bk (x :: fl)) (hv : Loaded NBUCKET s bk) (pid : Nat)
    {i dev blockno : Nat} (hi : i < NBUCKET) (hb : blockno % NBUCKET = i)
    (hk : ∀ c ∈ bk i, ¬ (s.dev (.buf c) = dev ∧ s.blockno (.buf c) = blockno)) :
    Rep NBUF NBUCKET (loadS (missS s pid i dev blockno (.buf x)) (.buf x))
        (Function.update bk i (x :: bk i)) fl ∧
      Loaded NBUCKET (loadS (missS s pid i dev blockno (.buf x)) (.buf x))
        (Function.update bk i (x :: bk i)) := by
  refine ⟨(h.miss pid hi hb hk).same rfl rfl rfl rfl rfl rfl, ?_⟩
  intro j c hj hc
  by_cases hcx : c = x
  · subst hcx; simp [loadS]
  · have hc' : c ∈ bk j := by
      by_cases hji : j = i
      · subst hji; rw [Function.update_same] at hc
        exact (List.mem_cons.mp hc).resolve_left hcx
      · rwa [Function.update_noteq hji] at hc
    have : (Ptr.buf c) ≠ .buf x := by simpa using hcx
    simp only [loadS, missS, linkS]
    rw [Function.update_noteq this, Function.update_noteq this]
    exact hv j c hj hc'

/-- What `bread` does in a state that satisfies the invariant. -/
theorem Rep.bread_cases {NBUF NBUCKET : Nat} {s : BState} {bk : Nat → List Nat} {fl : List Nat}
    (h : Rep NBUF NBUCKET s bk fl) (hv : Loaded NBUCKET s bk) (hN : 0 < NBUCKET)
    (pid dev blockno : Nat) :
    (∃ x, x ∈ bk (blockno % NBUCKET) ∧ s.dev (.buf x) = dev ∧ s.blockno (.buf x) = blockno ∧
      ((s.lock (.buf x) = none ∧ bread NBUF NBUCKET s pid dev blockno =
          .ret (.buf x, hitS s pid (blockno % NBUCKET) (.buf x))) ∨
       ((∃ q, s.lock (.buf x) = some q) ∧ bread NBUF NBUCKET s pid dev blockno = .hang))) ∨
    ((∀ c ∈ bk (blockno % NBUCKET), ¬ (s.dev (.buf c) = dev ∧ s.blockno (.buf c) = blockno)) ∧
      ((fl = [] ∧ s.freelist = .null ∧
          bread NBUF NBUCKET s pid dev blockno = .panic .bget_no_buffers) ∨
       (∃ x fl', fl = x :: fl' ∧ s.freelist = .buf x ∧
          bread NBUF NBUCKET s pid dev blockno =
            .ret (.buf x, loadS (missS s pid (blockno % NBUCKET) dev blockno (.buf x))
              (.buf x))))) := by
  have hi : blockno % NBUCKET < NBUCKET := Nat.mod_lt _ hN
  rcases h.bget_cases hN pid dev blockno with ⟨x, hx, hk1, hk2, ⟨hl, e⟩ | ⟨hl, e⟩⟩ |
      ⟨hk, ⟨hfl, hf, e⟩ | ⟨x, fl', hfl, hf, e⟩⟩
  · left
    refine ⟨x, hx, hk1, hk2, Or.inl ⟨hl, ?_⟩⟩
    have hval : (hitS s pid (blockno % NBUCKET) (.buf x)).valid (.buf x) = 1 :=
      hv _ x hi hx
    simp [Xv6.bread, e, bind, Outcome.bind, hval, pure]
  · left
    exact ⟨x, hx, hk1, hk2, Or.inr ⟨hl, by simp [Xv6.bread, e, bind, Outcome.bind]⟩⟩
  · right
    exact ⟨hk, Or.inl ⟨hfl, hf, by simp [Xv6.bread, e, bind, Outcome.bind]⟩⟩
  · right
    refine ⟨hk, Or.inr ⟨x, fl', hfl, hf, ?_⟩⟩
    have hval : (missS s pid (blockno % NBUCKET) dev blockno (.buf x)).valid (.buf x) = 0 := by
      simp [missS]
    simp [Xv6.bread, e, bind, Outcome.bind, hval, pure, loadS, virtio_disk_rw]

/-- Every complete call keeps the invariant. -/
theorem Inv.step {NBUF NBUCKET : Nat} (hN : 0 < NBUCKET) {s s' : BState} (c : BCall)
    (h : Inv NBUF NBUCKET s) (hr : c.run NBUF NBUCKET s = some s') : Inv NBUF NBUCKET s' := by
  obtain ⟨bk, fl, hrep, hv, hc⟩ := h
  cases c with
  | bread pid dev blockno =>
    have hi : blockno % NBUCKET < NBUCKET := Nat.mod_lt _ hN
    simp only [BCall.run] at hr
    rcases hrep.bread_cases hv hN pid dev blockno with ⟨x, hx, hk1, hk2, ⟨hl, e⟩ | ⟨hl, e⟩⟩ |
      ⟨hk, ⟨hfl, hf, e⟩ | ⟨x, fl', hfl, hf, e⟩⟩
    · rw [e] at hr
      injection hr with hr
      subst hr
      exact ⟨_, _, hrep.hit pid hi hx, Loaded.on_hit hv pid hx,
        hc.update _ (.buf x) _ (inc32_lt _) rfl⟩
    · rw [e] at hr; cases hr
    · rw [e] at hr; cases hr
    · rw [e] at hr
      injection hr with hr
      subst hr
      subst hfl
      have := hrep.load_miss hv pid hi rfl hk
      exact ⟨_, _, this.1, this.2, hc.update _ (.buf x) 1 (by norm_num) rfl⟩
  | bwrite pid b =>
    simp only [BCall.run] at hr
    unfold Xv6.bwrite at hr
    by_cases hl : holdingsleep s (.buf b) pid = true
    · by_cases hb : b < NBUF
      · simp [hl, hb] at hr
        subst hr
        refine ⟨bk, fl, hrep.same ?_ ?_ ?_ ?_ ?_ ?_, ?_, ?_⟩ <;>
          first | rfl | exact hv | exact hc
      · simp [hl, hb] at hr
    · simp [hl] at hr
  | brelse pid b =>
    simp only [BCall.run] at hr
    cases e : Xv6.brelse s pid (.buf b) with
    | ret s1 =>
      rw [e] at hr
      by_cases hb : b < NBUF
      · simp [hb] at hr
        subst hr
        have hl := brelse_ret_locked e
        obtain ⟨hi, hx⟩ := hrep.locked_mem hl
        rcases hrep.brelse_cases hl with ⟨_, e2⟩ | ⟨_, e2⟩
        · rw [e2] at e
          injection e with e
          subst e
          refine ⟨_, _, hrep.rel hi hx, ?_, hc.update _ (.buf b) 0 (by norm_num) rfl⟩
          intro j c hj hc
          have hc' : c ∈ bk j := by
            by_cases hji : j = s.blockno (.buf b) % NBUCKET
            · subst hji; rw [Function.update_same] at hc; exact List.mem_of_mem_erase hc
            · rwa [Function.update_noteq hji] at hc
          exact hv j c hj hc'
        · rw [e2] at e
          injection e with e
          subst e
          refine ⟨bk, fl, hrep.of_shape (hrep.toShape.congr rfl rfl rfl)
            (fun _ _ _ => Iff.rfl) rfl rfl ?_, hv, hc.update _ (.buf b) _ (dec32_lt _) rfl⟩
          intro p q hp
          left
          simp only [Function.update_apply] at hp
          split at hp
          · cases hp
          · exact hp
      · simp [hb] at hr
    | panic m => rw [e] at hr; cases hr
    | fault => rw [e] at hr; cases hr
    | hang => rw [e] at hr; cases hr
  | bpin b =>
    simp only [BCall.run, Xv6.bpin] at hr
    by_cases hb : b < NBUF
    · simp [hb] at hr
      subst hr
      exact ⟨bk, fl, hrep.same rfl rfl rfl rfl rfl rfl, hv,
        hc.update _ (.buf b) _ (inc32_lt _) rfl⟩
    · simp [hb] at hr
  | bunpin b =>
    simp only [BCall.run, Xv6.bunpin] at hr
    by_cases hb : b < NBUF
    · simp [hb] at hr
      subst hr
      exact ⟨bk, fl, hrep.same rfl rfl rfl rfl rfl rfl, hv,
        hc.update _ (.buf b) _ (dec32_lt _) rfl⟩
    · simp [hb] at hr
  | write_data pid b x =>
    simp only [BCall.run] at hr
    split at hr
    · injection hr with hr
      subst hr
      exact ⟨bk, fl, hrep.same rfl rfl rfl rfl rfl rfl, hv, hc⟩
    · cases hr

/-- Every reachable state satisfies the invariant. -/
theorem Reachable.inv {NBUF NBUCKET : Nat} (hN : 0 < NBUCKET) {disk : Nat → Nat → List Nat}
    {s : BState} (h : Reachable NBUF NBUCKET disk s) : Inv NBUF NBUCKET s := by
  induction h with
  | init => exact Inv.init NBUF NBUCKET disk
  | step s s' c _ hr ih => exact Inv.step hN c ih hr


theorem Reachable.of_runCalls {NBUF NBUCKET : Nat} {disk : Nat → Nat → List Nat} :
    ∀ (cs : List BCall) {s s' : BState}, Reachable NBUF NBUCKET disk s →
    runCalls NBUF NBUCKET s cs = some s' → Reachable NBUF NBUCKET disk s'
  | [], s, s', h, hr => by
    simp only [Xv6.runCalls] at hr
    injection hr with hr
    exact hr ▸ h
  | c :: cs, s, s', h, hr => by
    simp only [Xv6.runCalls] at hr
    cases e : c.run NBUF NBUCKET s with
    | none => rw [e] at hr; cases hr
    | some s1 =>
      rw [e] at hr
      exact Reachable.of_runCalls cs (Reachable.step s s1 c h e) hr

theorem Reachable.of_stateAfter (NBUF NBUCKET : Nat) (disk : Nat → Nat → List Nat)
    (cs : List BCall) : Reachable NBUF NBUCKET disk (stateAfter NBUF NBUCKET disk cs) := by
  unfold Xv6.stateAfter
  cases e : Xv6.runCalls NBUF NBUCKET (binit NBUF NBUCKET disk) cs with
  | none => exact Reachable.init
  | some s => exact Reachable.of_runCalls cs Reachable.init e

theorem linked_iff {NBUF NBUCKET : Nat} {s : BState} {bk : Nat → List Nat} {fl : List Nat}
    (h : Rep NBUF NBUCKET s bk fl) (b : Nat) :
    linked NBUF NBUCKET s b ↔ ∃ i, i < NBUCKET ∧ b ∈ bk i := by
  constructor
  · rintro ⟨i, hi, l, hl, hb⟩
    rw [h.bucketList_eq hi] at hl
    injection hl with hl
    exact ⟨i, hi, hl ▸ hb⟩
  · rintro ⟨i, hi, hb⟩
    exact ⟨i, hi, bk i, h.bucketList_eq hi, hb⟩

/-- C1. In every state reachable from `binit` by complete calls of `bread`, `brelse`,
`bpin`, `bunpin` (and `bwrite`, and overwrites of the data by the lock holder), every
bucket is a well-formed ring, and two buffers linked in the hash buckets that carry the
same `(dev, blockno)` are the same buffer. -/
theorem bcache_no_duplicate_key (NBUF NBUCKET : Nat) (hN : 0 < NBUCKET)
    (disk : Nat → Nat → List Nat) (s : BState) (h : Reachable NBUF NBUCKET disk s) :
    (∀ i, i < NBUCKET → ∃ l, bucketList NBUF s i = some l) ∧
    ∀ b c, linked NBUF NBUCKET s b → linked NBUF NBUCKET s c →
      s.dev (.buf b) = s.dev (.buf c) → s.blockno (.buf b) = s.blockno (.buf c) → b = c := by
  obtain ⟨bk, fl, hrep, _, _⟩ := h.inv hN
  refine ⟨fun i hi => ⟨bk i, hrep.bucketList_eq hi⟩, ?_⟩
  intro b c hb hc hd hbn
  obtain ⟨i, hi, hbi⟩ := (linked_iff hrep b).mp hb
  obtain ⟨j, hj, hcj⟩ := (linked_iff hrep c).mp hc
  have e1 := hrep.hash i b hi hbi
  have e2 := hrep.hash j c hj hcj
  have hij : i = j := by rw [← e1, ← e2, hbn]
  subst hij
  exact hrep.keys i b c hi hbi hcj hd hbn

/-- C1, at a concrete run (`demo_state`): bucket 1 holds the buffers 0, 2, 1 with the
keys 11, 7, 9. -/
theorem bcache_no_duplicate_key_witness :
    bucketList 3 demo_state 1 = some [0, 2, 1] ∧
    ((∀ i, i < 2 → ∃ l, bucketList 3 demo_state i = some l) ∧
    ∀ b c, linked 3 2 demo_state b → linked 3 2 demo_state c →
      demo_state.dev (.buf b) = demo_state.dev (.buf c) →
      demo_state.blockno (.buf b) = demo_state.blockno (.buf c) → b = c) :=
  ⟨by decide, bcache_no_duplicate_key 3 2 (by decide) (fun _ _ => []) demo_state
    (Reachable.of_stateAfter 3 2 _ _)⟩


theorem Loaded.erase {NBUCKET : Nat} {s s' : BState} {bk : Nat → List Nat} {i x : Nat}
    (hv : Loaded NBUCKET s bk) (hval : s'.valid = s.valid) :
    Loaded NBUCKET s' (Function.update bk i ((bk i).erase x)) := by
  intro j c hj hc
  have hc' : c ∈ bk j := by
    by_cases hji : j = i
    · subst hji; rw [Function.update_same] at hc; exact List.mem_of_mem_erase hc
    · rwa [Function.update_noteq hji] at hc
  rw [hval]
  exact hv j c hj hc'

/-- The holder of buffer `x` overwrites its data with `v`, writes it, releases it and reads
the block again: the read returns buffer `x` with the data `v`. -/
theorem Rep.reread {NBUF NBUCKET : Nat} {s : BState} {bk : Nat → List Nat} {fl : List Nat}
    (h : Rep NBUF NBUCKET s bk fl) (hv : Loaded NBUCKET s bk) (hN : 0 < NBUCKET)
    (pid dev blockno x : Nat) (v : List Nat) (hx : x ∈ bk (blockno % NBUCKET))
    (hk1 : s.dev (.buf x) = dev) (hk2 : s.blockno (.buf x) = blockno)
    (hl : s.lock (.buf x) = some pid) :
    ∃ s4, ((Xv6.bwrite (write_data s (.buf x) v) pid (.buf x)).bind fun s2 =>
        (Xv6.brelse s2 pid (.buf x)).bind fun s3 => Xv6.bread NBUF NBUCKET s3 pid dev blockno) =
        .ret (.buf x, s4) ∧
      s4.valid (.buf x) = 1 ∧ s4.data (.buf x) = v ∧ s4.lock (.buf x) = some pid ∧
      s4.dev (.buf x) = dev ∧ s4.blockno (.buf x) = blockno := by
  have hi : blockno % NBUCKET < NBUCKET := Nat.mod_lt _ hN
  have hw : bwrite (write_data s (.buf x) v) pid (.buf x) =
      .ret (virtio_disk_rw (write_data s (.buf x) v) (.buf x) true) := by
    simp [bwrite, holdingsleep, write_data, hl]
  have hrep2 : Rep NBUF NBUCKET (virtio_disk_rw (write_data s (.buf x) v) (.buf x) true) bk fl :=
    h.same rfl rfl rfl rfl rfl rfl
  have hv2 : Loaded NBUCKET (virtio_disk_rw (write_data s (.buf x) v) (.buf x) true) bk := hv
  have hdisk : (virtio_disk_rw (write_data s (.buf x) v) (.buf x) true).disk dev blockno = v := by
    simp [virtio_disk_rw, write_data, hk1, hk2]
  have hdata : (virtio_disk_rw (write_data s (.buf x) v) (.buf x) true).data (.buf x) = v := by
    simp [virtio_disk_rw, write_data]
  generalize virtio_disk_rw (write_data s (.buf x) v) (.buf x) true = s2 at hw hrep2 hv2 hdisk hdata
  have hd2 : s2.dev = s.dev := by
    have := hw; simp [bwrite, holdingsleep, write_data, hl, virtio_disk_rw] at this
    rw [← this]
  have hb2 : s2.blockno = s.blockno := by
    have := hw; simp [bwrite, holdingsleep, write_data, hl, virtio_disk_rw] at this
    rw [← this]
  have hl2 : s2.lock (.buf x) = some pid := by
    have := hw; simp [bwrite, holdingsleep, write_data, hl, virtio_disk_rw] at this
    rw [← this]; exact hl
  have hx2 : x ∈ bk (s2.blockno (.buf x) % NBUCKET) := by rw [hb2, hk2]; exact hx
  rw [hw]
  simp only [Outcome.bind]
  rcases hrep2.brelse_cases hl2 with ⟨_, e2⟩ | ⟨_, e2⟩
  · -- the buffer goes to the free list and is taken from there again
    rw [e2]
    simp only [Outcome.bind]
    have hrep3 := hrep2.rel (x := x) hi (by rw [hb2, hk2] at hx2; exact hx2)
    have hv3 : Loaded NBUCKET (relS s2 (.buf x))
        (Function.update bk (blockno % NBUCKET) ((bk (blockno % NBUCKET)).erase x)) :=
      hv2.erase rfl
    rcases hrep3.bread_cases hv3 hN pid dev blockno with ⟨y, hy, hy1, hy2, _⟩ |
      ⟨_, ⟨hfl, _⟩ | ⟨x', fl', hfl, _, e⟩⟩
    · exfalso
      rw [Function.update_same] at hy
      have hy' := (h.nd_bk _ hi).mem_erase_iff.mp hy
      have e1 : s.dev (.buf y) = s.dev (.buf x) := by
        rw [hk1, ← hd2]; exact hy1
      have e3 : s.blockno (.buf y) = s.blockno (.buf x) := by
        rw [hk2, ← hb2]; exact hy2
      exact hy'.1 (h.keys _ y x hi hy'.2 hx e1 e3)
    · cases hfl
    · injection hfl with e3 e4
      subst e3
      refine ⟨_, e, ?_, ?_, ?_, ?_, ?_⟩
      · simp [loadS]
      · simp only [loadS, missS, linkS, Function.update_same]
        exact hdisk
      · simp [loadS, missS]
      · simp [loadS, missS]
      · simp [loadS, missS]
  · -- the buffer stays in its bucket
    rw [e2]
    simp only [Outcome.bind]
    have hrep3 : Rep NBUF NBUCKET { s2 with
        lock := Function.update s2.lock (.buf x) none,
        refcnt := Function.update s2.refcnt (.buf x) (dec32 (s2.refcnt (.buf x))) } bk fl := by
      refine hrep2.of_shape (hrep2.toShape.congr rfl rfl rfl) (fun _ _ _ => Iff.rfl) rfl rfl ?_
      intro p q hp
      left
      simp only [Function.update_apply] at hp
      split at hp
      · cases hp
      · exact hp
    have hv3 : Loaded NBUCKET { s2 with
        lock := Function.update s2.lock (.buf x) none,
        refcnt := Function.update s2.refcnt (.buf x) (dec32 (s2.refcnt (.buf x))) } bk := hv2
    rcases hrep3.bread_cases hv3 hN pid dev blockno with ⟨y, hy, hy1, hy2, hcase⟩ |
      ⟨hk, _⟩
    · have e1 : s.dev (.buf y) = s.dev (.buf x) := by
        rw [hk1, ← hd2]; exact hy1
      have e3 : s.blockno (.buf y) = s.blockno (.buf x) := by
        rw [hk2, ← hb2]; exact hy2
      have hyx : y = x := h.keys _ y x hi hy hx e1 e3
      subst hyx
      rcases hcase with ⟨_, e⟩ | ⟨⟨q, hq⟩, _⟩
      · refine ⟨_, e, ?_, ?_, ?_, ?_, ?_⟩
        · simp only [hitS, linkS, unlinkS]
          exact hv2 _ y hi hx
        · simp only [hitS, linkS, unlinkS]
          exact hdata
        · simp [hitS]
        · simp only [hitS, linkS, unlinkS]; rw [hd2]; exact hk1
        · simp only [hitS, linkS, unlinkS]; rw [hb2]; exact hk2
      · simp at hq
    · exfalso
      apply hk x hx
      show s2.dev (.buf x) = dev ∧ s2.blockno (.buf x) = blockno
      rw [hd2, hb2]; exact ⟨hk1, hk2⟩


theorem write_then_reread_eq (NBUF NBUCKET : Nat) (s : BState) (pid dev blockno : Nat)
    (x : List Nat) (b : Ptr) (s1 : BState)
    (e : bread NBUF NBUCKET s pid dev blockno = .ret (b, s1)) :
    write_then_reread NBUF NBUCKET s pid dev blockno x =
      ((bwrite (write_data s1 b x) pid b).bind fun s2 =>
        (brelse s2 pid b).bind fun s3 => bread NBUF NBUCKET s3 pid dev blockno) := by
  simp only [write_then_reread, e, bind, Outcome.bind]

/-- C2 (amended). In every reachable state with a free buffer in which no linked buffer
carrying `(dev, blockno)` is sleep-locked: read the block, overwrite the data with `x`,
`bwrite`, `brelse`, read the block again; every call returns, and the second read returns
a buffer with `valid = 1` whose data is `x` -- whether the buffer went back to the free
list in between (its count reached zero) or stayed in its bucket. -/
theorem write_then_reread_returns_written (NBUF NBUCKET : Nat) (hN : 0 < NBUCKET)
    (disk : Nat → Nat → List Nat) (s : BState) (h : Reachable NBUF NBUCKET disk s)
    (pid dev blockno : Nat) (x : List Nat) (hfree : s.freelist ≠ .null)
    (hunl : ∀ b, linked NBUF NBUCKET s b → s.dev (.buf b) = dev →
      s.blockno (.buf b) = blockno → s.lock (.buf b) = none) :
    ∃ b s', write_then_reread NBUF NBUCKET s pid dev blockno x = .ret (b, s') ∧
      s'.valid b = 1 ∧ s'.data b = x ∧ s'.dev b = dev ∧ s'.blockno b = blockno ∧
      s'.lock b = some pid := by
  obtain ⟨bk, fl, hrep, hv, _⟩ := h.inv hN
  have hi : blockno % NBUCKET < NBUCKET := Nat.mod_lt _ hN
  rcases hrep.bread_cases hv hN pid dev blockno with ⟨y, hy, hk1, hk2, ⟨hl, e⟩ | ⟨⟨q, hq⟩, _⟩⟩ |
      ⟨hk, ⟨_, hf, _⟩ | ⟨y, fl', hfl, hf, e⟩⟩
  · rw [write_then_reread_eq _ _ _ _ _ _ _ _ _ e]
    have hrep1 := hrep.hit pid hi hy
    have hv1 := Loaded.on_hit hv pid hy
    obtain ⟨s4, e4, h1, h2, h3, h4, h5⟩ := hrep1.reread hv1 hN pid dev
      blockno y x (by rw [Function.update_same]; exact List.mem_cons_self _ _)
      hk1 hk2 (by simp [hitS])
    exact ⟨.buf y, s4, e4, h1, h2, h4, h5, h3⟩
  · have := hunl y ((linked_iff hrep y).mpr ⟨_, hi, hy⟩) hk1 hk2
    rw [this] at hq; cases hq
  · exact absurd hf hfree
  · rw [write_then_reread_eq _ _ _ _ _ _ _ _ _ e]
    subst hfl
    have hm := hrep.load_miss hv pid hi rfl hk
    obtain ⟨s4, e4, h1, h2, h3, h4, h5⟩ := hm.1.reread hm.2 hN pid dev
      blockno y x (by rw [Function.update_same]; exact List.mem_cons_self _ _)
      (by simp [loadS, missS]) (by simp [loadS, missS]) (by simp [loadS, missS])
    exact ⟨.buf y, s4, e4, h1, h2, h4, h5, h3⟩

/-- C2 (amended), at concrete inputs: in `released_state` process 2 writes `[5, 6]` to
block `(1, 9)` and reads it back (the buffer goes through the free list in between). -/
theorem write_then_reread_returns_written_witness :
    released_state.freelist ≠ .null ∧
    (∀ b, linked 3 2 released_state b →
      released_state.dev (.buf b) = 1 →
      released_state.blockno (.buf b) = 9 →
      released_state.lock (.buf b) = none) ∧
    ∃ b s', write_then_reread 3 2 released_state
        2 1 9 [5, 6] = .ret (b, s') ∧
      s'.valid b = 1 ∧ s'.data b = [5, 6] ∧ s'.dev b = 1 ∧ s'.blockno b = 9 ∧
      s'.lock b = some 2 :=
  have hu : ∀ b, linked 3 2 released_state b →
      released_state.dev (.buf b) = 1 →
      released_state.blockno (.buf b) = 9 →
      released_state.lock (.buf b) = none := by
    rintro b ⟨i, hi, l, hl, hb⟩
    have hl0 : bucketList 3 released_state 0 =
        some [] := by decide
    have hl1 : bucketList 3 released_state 1 =
        some [] := by decide
    interval_cases i
    · rw [hl0] at hl; injection hl with hl; subst hl; simp at hb
    · rw [hl1] at hl; injection hl with hl; subst hl; simp at hb
  ⟨by decide, hu, write_then_reread_returns_written 3 2 (by decide) (fun _ _ => []) released_state
    (Reachable.of_stateAfter 3 2 _ [.bread 1 1 9, .brelse 1 2]) 2 1 9 [5, 6] (by decide) hu⟩

/-- C2 as stated fails: in `held_state` (thirty buffers, twenty-nine of them free) process
1 holds block `(1, 7)`; the sequence for block `(1, 7)` never gets past its first `bread`,
which sleeps for ever on the buffer's lock. -/
theorem write_then_reread_blocks_on_held_buffer :
    held_state.freelist ≠ .null ∧
    (write_then_reread 30 13 held_state 1 1 7 [5, 6]).isHang = true ∧
    (write_then_reread 30 13 held_state 2 1 7 [5, 6]).isHang = true := by
  decide


theorem dec32_pred {n : Nat} (h0 : 0 < n) (h1 : n < 2 ^ 32) : dec32 n + 1 = n := by
  unfold dec32
  norm_num at h1 ⊢
  omega

/-- C3. For a buffer `x` whose sleep lock the caller `pid` holds (in a reachable state),
`brelse` returns, the lock is free afterwards and the count is one lower (in the unsigned
32-bit field; literally one lower when it was not zero). When the new count is 0 the
buffer is taken out of its bucket, it is the new head of the free list and its `next`
is the previous head; otherwise no list changes. No other buffer's count or lock, and no
buffer's key, changes; every other bucket keeps its list. -/
theorem brelse_releases (NBUF NBUCKET : Nat) (hN : 0 < NBUCKET)
    (disk : Nat → Nat → List Nat) (s : BState) (h : Reachable NBUF NBUCKET disk s)
    (pid x : Nat) (hl : holdingsleep s (.buf x) pid = true) :
    ∃ s', brelse s pid (.buf x) = .ret s' ∧
      s'.lock (.buf x) = none ∧
      s'.refcnt (.buf x) = dec32 (s.refcnt (.buf x)) ∧
      (0 < s.refcnt (.buf x) → s'.refcnt (.buf x) + 1 = s.refcnt (.buf x)) ∧
      (∀ p, p ≠ .buf x → s'.refcnt p = s.refcnt p ∧ s'.lock p = s.lock p) ∧
      (∀ p, s'.dev p = s.dev p ∧ s'.blockno p = s.blockno p) ∧
      ∃ l fl, bucketList NBUF s (s.blockno (.buf x) % NBUCKET) = some l ∧ x ∈ l ∧
        freeList NBUF s = some fl ∧
        (s'.refcnt (.buf x) = 0 →
          s'.freelist = .buf x ∧ s'.next (.buf x) = s.freelist ∧
          freeList NBUF s' = some (x :: fl) ∧
          bucketList NBUF s' (s.blockno (.buf x) % NBUCKET) = some (l.erase x) ∧
          ∀ j, j < NBUCKET → j ≠ s.blockno (.buf x) % NBUCKET →
            bucketList NBUF s' j = bucketList NBUF s j) ∧
        (s'.refcnt (.buf x) ≠ 0 →
          s'.freelist = s.freelist ∧ s'.next = s.next ∧ s'.prev = s.prev ∧
          freeList NBUF s' = some fl ∧
          ∀ j, j < NBUCKET → bucketList NBUF s' j = bucketList NBUF s j) := by
  obtain ⟨bk, fl, hrep, _, hc⟩ := h.inv hN
  have hl' : s.lock (.buf x) = some pid := by simpa [holdingsleep] using hl
  obtain ⟨hi, hx⟩ := hrep.locked_mem hl'
  rcases hrep.brelse_cases hl' with ⟨hz, e⟩ | ⟨hz, e⟩
  · have hrep' := hrep.rel hi hx
    refine ⟨_, e, by simp [relS, unlinkS], by simp [relS, unlinkS, hz],
      fun h0 => by simp only [relS, unlinkS, Function.update_same]; rw [← hz]; exact dec32_pred h0 (hc _),
      ?_, fun p => ⟨rfl, rfl⟩, bk _, fl, hrep.bucketList_eq hi, hx, hrep.freeList_eq, ?_, ?_⟩
    · intro p hp
      simp only [relS, unlinkS]
      rw [Function.update_noteq hp, Function.update_noteq hp]
      exact ⟨rfl, rfl⟩
    · intro _
      refine ⟨rfl, by simp [relS, unlinkS], hrep'.freeList_eq, ?_, ?_⟩
      · rw [hrep'.bucketList_eq hi, Function.update_same]
      · intro j hj hne
        rw [hrep'.bucketList_eq hj, hrep.bucketList_eq hj, Function.update_noteq hne]
    · intro hne
      exact absurd (by simp [relS, unlinkS]) hne
  · have hrep' : Rep NBUF NBUCKET { s with
        lock := Function.update s.lock (.buf x) none,
        refcnt := Function.update s.refcnt (.buf x) (dec32 (s.refcnt (.buf x))) } bk fl := by
      refine hrep.of_shape (hrep.toShape.congr rfl rfl rfl) (fun _ _ _ => Iff.rfl) rfl rfl ?_
      intro p q hp
      left
      simp only [Function.update_apply] at hp
      split at hp
      · cases hp
      · exact hp
    refine ⟨_, e, by simp, by simp,
      fun h0 => by simp only [Function.update_same]; exact dec32_pred h0 (hc _),
      ?_, fun p => ⟨rfl, rfl⟩, bk _, fl, hrep.bucketList_eq hi, hx, hrep.freeList_eq, ?_, ?_⟩
    · intro p hp
      simp only
      rw [Function.update_noteq hp, Function.update_noteq hp]
      exact ⟨rfl, rfl⟩
    · intro h0
      exact absurd (by simpa using h0) hz
    · intro _
      refine ⟨rfl, rfl, rfl, hrep'.freeList_eq, ?_⟩
      intro j hj
      rw [hrep'.bucketList_eq hj, hrep.bucketList_eq hj]

/-- C3, at a concrete input: in `demo_state` process 1 releases buffer 2 (block 7), whose
count is 1. -/
theorem brelse_releases_witness :
    holdingsleep demo_state (.buf 2) 1 = true ∧ demo_state.refcnt (.buf 2) = 1 ∧
    ∃ s', brelse demo_state 1 (.buf 2) = .ret s' ∧
      s'.lock (.buf 2) = none ∧
      s'.refcnt (.buf 2) = dec32 (demo_state.refcnt (.buf 2)) ∧
      (0 < demo_state.refcnt (.buf 2) → s'.refcnt (.buf 2) + 1 = demo_state.refcnt (.buf 2)) ∧
      (∀ p, p ≠ .buf 2 → s'.refcnt p = demo_state.refcnt p ∧ s'.lock p = demo_state.lock p) ∧
      (∀ p, s'.dev p = demo_state.dev p ∧ s'.blockno p = demo_state.blockno p) ∧
      ∃ l fl, bucketList 3 demo_state (demo_state.blockno (.buf 2) % 2) = some l ∧ 2 ∈ l ∧
        freeList 3 demo_state = some fl ∧
        (s'.refcnt (.buf 2) = 0 →
          s'.freelist = .buf 2 ∧ s'.next (.buf 2) = demo_state.freelist ∧
          freeList 3 s' = some (2 :: fl) ∧
          bucketList 3 s' (demo_state.blockno (.buf 2) % 2) = some (l.erase 2) ∧
          ∀ j, j < 2 → j ≠ demo_state.blockno (.buf 2) % 2 →
            bucketList 3 s' j = bucketList 3 demo_state j) ∧
        (s'.refcnt (.buf 2) ≠ 0 →
          s'.freelist = demo_state.freelist ∧ s'.next = demo_state.next ∧
          s'.prev = demo_state.prev ∧ freeList 3 s' = some fl ∧
          ∀ j, j < 2 → bucketList 3 s' j = bucketList 3 demo_state j) :=
  ⟨by decide, by decide, brelse_releases 3 2 (by decide) (fun _ _ => []) demo_state
    (Reachable.of_stateAfter 3 2 _ _) 1 2 (by decide)⟩


theorem cached_load_miss {NBUF NBUCKET : Nat} {s : BState} {bk : Nat → List Nat}
    {fl : List Nat} {x : Nat} (h : Rep NBUF NBUCKET s bk (x :: fl)) (pid : Nat)
    {i dev blockno d n : Nat}
    (hc : cached NBUCKET (loadS (missS s pid i dev blockno (.buf x)) (.buf x))
      (Function.update bk i (x :: bk i)) d n) :
    (d = dev ∧ n = blockno) ∨ cached NBUCKET s bk d n := by
  obtain ⟨j, c, hj, hcj, h1, h2⟩ := hc
  by_cases hcx : c = x
  · subst hcx
    left
    simp only [loadS, missS, linkS, Function.update_same] at h1 h2
    exact ⟨h1.symm, h2.symm⟩
  · right
    have hc' : c ∈ bk j := by
      by_cases hji : j = i
      · subst hji; rw [Function.update_same] at hcj
        exact (List.mem_cons.mp hcj).resolve_left hcx
      · rwa [Function.update_noteq hji] at hcj
    have hne : (Ptr.buf c) ≠ .buf x := by simpa using hcx
    simp only [loadS, missS, linkS] at h1 h2
    rw [Function.update_noteq hne] at h1 h2
    exact ⟨j, c, hj, hc', h1, h2⟩

/-- Reading keys that are not cached and differ from each other takes one free buffer
each, and succeeds as long as there are free buffers. -/
theorem breads_fresh {NBUF NBUCKET : Nat} (hN : 0 < NBUCKET) :
    ∀ (calls : List (Nat × Nat × Nat)) (s : BState) (bk : Nat → List Nat) (fl : List Nat),
    Rep NBUF NBUCKET s bk fl → Loaded NBUCKET s bk →
    (calls.map (fun c => c.2)).Nodup →
    (∀ c ∈ calls, ¬ cached NBUCKET s bk c.2.1 c.2.2) →
    calls.length ≤ fl.length →
    ∃ s' bk' fl', breads NBUF NBUCKET s calls = .ret s' ∧ Rep NBUF NBUCKET s' bk' fl' ∧
      Loaded NBUCKET s' bk' ∧ fl'.length + calls.length = fl.length ∧
      ∀ d n, cached NBUCKET s' bk' d n →
        cached NBUCKET s bk d n ∨ (d, n) ∈ calls.map (fun c => c.2)
  | [], s, bk, fl, hrep, hv, _, _, _ =>
    ⟨s, bk, fl, rfl, hrep, hv, rfl, fun _ _ h => Or.inl h⟩
  | (pid, dev, blockno) :: rest, s, bk, fl, hrep, hv, hnd, hnc, hlen => by
    have hi : blockno % NBUCKET < NBUCKET := Nat.mod_lt _ hN
    rcases hrep.bread_cases hv hN pid dev blockno with ⟨y, hy, hk1, hk2, _⟩ |
      ⟨hk, ⟨hfl, _⟩ | ⟨y, fl', hfl, _, e⟩⟩
    · exact absurd ⟨_, y, hi, hy, hk1, hk2⟩ (hnc _ (List.mem_cons_self _ _))
    · rw [hfl] at hlen; simp at hlen
    · subst hfl
      have hm := hrep.load_miss hv pid hi rfl hk
      simp only [List.map_cons, List.nodup_cons] at hnd
      have hnc' : ∀ c ∈ rest, ¬ cached NBUCKET
          (loadS (missS s pid (blockno % NBUCKET) dev blockno (.buf y)) (.buf y))
          (Function.update bk (blockno % NBUCKET) (y :: bk (blockno % NBUCKET))) c.2.1 c.2.2 := by
        intro c hc hcc
        rcases cached_load_miss hrep pid hcc with ⟨e1, e2⟩ | hcc
        · apply hnd.1
          rw [List.mem_map]
          exact ⟨c, hc, by rw [← e1, ← e2]⟩
        · exact hnc c (List.mem_cons_of_mem _ hc) hcc
      obtain ⟨s', bk', fl'', e', hrep', hv', hlen', hc'⟩ :=
        breads_fresh hN rest _ _ fl' hm.1 hm.2 hnd.2 hnc' (by simp at hlen; omega)
      refine ⟨s', bk', fl'', ?_, hrep', hv', by simp; omega, ?_⟩
      · simp only [breads, e]
        exact e'
      · intro d n hdn
        rcases hc' d n hdn with h1 | h1
        · rcases cached_load_miss hrep pid h1 with ⟨e1, e2⟩ | h2
          · right; simp [e1, e2]
          · exact Or.inl h2
        · right
          exact List.mem_cons_of_mem _ h1

/-- C4. `bget` on a key that is not in its bucket panics with "bget: no buffers" exactly
when the free list is empty, and returns a buffer otherwise. From the state after `binit`,
`bread` on any `NBUF` pairwise distinct keys with no `brelse` in between all return, and
one more `bread` of a key distinct from all of them panics. -/
theorem bget_panics_iff_no_free_buffer (NBUF NBUCKET : Nat) (hN : 0 < NBUCKET)
    (disk : Nat → Nat → List Nat) :
    (∀ s, Reachable NBUF NBUCKET disk s → ∀ pid dev blockno,
      (∀ l, bucketList NBUF s (blockno % NBUCKET) = some l →
        ∀ b ∈ l, ¬ (s.dev (.buf b) = dev ∧ s.blockno (.buf b) = blockno)) →
      (bget NBUF NBUCKET s pid dev blockno = .panic .bget_no_buffers ↔ s.freelist = .null) ∧
      (s.freelist ≠ .null → ∃ b s', bget NBUF NBUCKET s pid dev blockno = .ret (b, s'))) ∧
    (∀ calls : List (Nat × Nat × Nat), calls.length = NBUF →
      (calls.map (fun c => c.2)).Nodup →
      ∃ s', breads NBUF NBUCKET (binit NBUF NBUCKET disk) calls = .ret s' ∧
        ∀ pid dev blockno, (dev, blockno) ∉ calls.map (fun c => c.2) →
          bread NBUF NBUCKET s' pid dev blockno = .panic .bget_no_buffers) := by
  constructor
  · intro s h pid dev blockno hk
    obtain ⟨bk, fl, hrep, _, _⟩ := h.inv hN
    have hi : blockno % NBUCKET < NBUCKET := Nat.mod_lt _ hN
    rcases hrep.bget_cases hN pid dev blockno with ⟨y, hy, hk1, hk2, _⟩ |
      ⟨_, ⟨_, hf, e⟩ | ⟨y, fl', _, hf, e⟩⟩
    · exact absurd ⟨hk1, hk2⟩ (hk _ (hrep.bucketList_eq hi) y hy)
    · exact ⟨⟨fun _ => hf, fun _ => e⟩, fun hne => absurd hf hne⟩
    · refine ⟨⟨fun h1 => ?_, fun h1 => ?_⟩, fun _ => ⟨_, _, e⟩⟩
      · rw [e] at h1; cases h1
      · rw [hf] at h1; cases h1
  · intro calls hlen hnd
    have h0 := Rep.of_binit NBUF NBUCKET disk
    have hv0 : Loaded NBUCKET (binit NBUF NBUCKET disk) (fun _ => []) :=
      fun i b _ hb => by simp at hb
    have hnc0 : ∀ d n, ¬ cached NBUCKET (binit NBUF NBUCKET disk) (fun _ => []) d n := by
      rintro d n ⟨j, c, _, hc, _⟩
      simp at hc
    obtain ⟨s', bk', fl', e, hrep', hv', hlen', hc'⟩ :=
      breads_fresh hN calls _ _ _ h0 hv0 hnd (fun c _ => hnc0 _ _) (by simp [hlen])
    refine ⟨s', e, ?_⟩
    intro pid dev blockno hnew
    have hfl : fl' = [] := by
      simp [hlen] at hlen'
      exact hlen'
    have hi : blockno % NBUCKET < NBUCKET := Nat.mod_lt _ hN
    rcases hrep'.bread_cases hv' hN pid dev blockno with ⟨y, hy, hk1, hk2, _⟩ |
      ⟨_, ⟨_, _, e2⟩ | ⟨y, fl'', hfl2, _⟩⟩
    · rcases hc' dev blockno ⟨_, y, hi, hy, hk1, hk2⟩ with h1 | h1
      · exact absurd h1 (hnc0 _ _)
      · exact absurd h1 hnew
    · exact e2
    · rw [hfl] at hfl2; cases hfl2

/-- C4, at a concrete cache of three buffers and two buckets: three distinct blocks are
read, the fourth read panics. -/
theorem bget_panics_iff_no_free_buffer_witness :
    (breads 3 2 (binit 3 2 (fun _ _ => [])) [(1, 1, 7), (1, 1, 9), (2, 1, 8)]).isRet = true ∧
    ((breads 3 2 (binit 3 2 (fun _ _ => [])) [(1, 1, 7), (1, 1, 9), (2, 1, 8)]).bind
      (fun s => bread 3 2 s 1 1 4)).isPanic .bget_no_buffers = true ∧
    ((∀ s, Reachable 3 2 (fun _ _ => []) s → ∀ pid dev blockno,
      (∀ l, bucketList 3 s (blockno % 2) = some l →
        ∀ b ∈ l, ¬ (s.dev (.buf b) = dev ∧ s.blockno (.buf b) = blockno)) →
      (bget 3 2 s pid dev blockno = .panic .bget_no_buffers ↔ s.freelist = .null) ∧
      (s.freelist ≠ .null → ∃ b s', bget 3 2 s pid dev blockno = .ret (b, s'))) ∧
    (∀ calls : List (Nat × Nat × Nat), calls.length = 3 →
      (calls.map (fun c => c.2)).Nodup →
      ∃ s', breads 3 2 (binit 3 2 (fun _ _ => [])) calls = .ret s' ∧
        ∀ pid dev blockno, (dev, blockno) ∉ calls.map (fun c => c.2) →
          bread 3 2 s' pid dev blockno = .panic .bget_no_buffers)) :=
  ⟨by decide, by decide, bget_panics_iff_no_free_buffer 3 2 (by decide) (fun _ _ => [])⟩


/-! ## Page allocator: lemmas -/

theorem load64_lt (m : Nat → Nat) (a : Nat) : load64 m a < 2 ^ 64 := by
  unfold load64
  have h0 := Nat.mod_lt (m a) (by norm_num : 256 > 0)
  have h1 := Nat.mod_lt (m (a + 1)) (by norm_num : 256 > 0)
  have h2 := Nat.mod_lt (m (a + 2)) (by norm_num : 256 > 0)
  have h3 := Nat.mod_lt (m (a + 3)) (by norm_num : 256 > 0)
  have h4 := Nat.mod_lt (m (a + 4)) (by norm_num : 256 > 0)
  have h5 := Nat.mod_lt (m (a + 5)) (by norm_num : 256 > 0)
  have h6 := Nat.mod_lt (m (a + 6)) (by norm_num : 256 > 0)
  have h7 := Nat.mod_lt (m (a + 7)) (by norm_num : 256 > 0)
  norm_num
  omega

theorem load64_congr {m m' : Nat → Nat} {a : Nat}
    (h : ∀ x, a ≤ x → x < a + 8 → m' x = m x) : load64 m' a = load64 m a := by
  unfold load64
  rw [h a (by omega) (by omega), h (a + 1) (by omega) (by omega),
    h (a + 2) (by omega) (by omega), h (a + 3) (by omega) (by omega),
    h (a + 4) (by omega) (by omega), h (a + 5) (by omega) (by omega),
    h (a + 6) (by omega) (by omega), h (a + 7) (by omega) (by omega)]

theorem load64_store64 (m : Nat → Nat) (a v : Nat) (hv : v < 2 ^ 64) :
    load64 (store64 m a v) a = v := by
  unfold load64 store64
  simp only [le_refl, Nat.lt_add_of_pos_right, Nat.le_add_right, Nat.add_lt_add_iff_left,
    Nat.add_sub_cancel_left, Nat.sub_self, and_self, if_true, Nat.reduceLT, true_and,
    Nat.ofNat_pos, Nat.mod_mod]
  norm_num at hv ⊢
  omega

theorem store64_other (m : Nat → Nat) (a v x : Nat) (h : x < a ∨ a + 8 ≤ x) :
    store64 m a v x = m x := by
  unfold store64
  rw [if_neg]
  omega

theorem memset_other (m : Nat → Nat) (a c n x : Nat) (h : x < a ∨ a + n ≤ x) :
    memset m a c n x = m x := by
  unfold memset
  rw [if_neg]
  omega

/-- Two distinct page-aligned addresses are a page apart. -/
theorem page_apart {p q : Nat} (hp : p % PGSIZE = 0) (hq : q % PGSIZE = 0) (hne : p ≠ q) :
    p + PGSIZE ≤ q ∨ q + PGSIZE ≤ p := by
  unfold PGSIZE at *
  omega

theorem load64_memset5 (m : Nat → Nat) (a : Nat) :
    load64 (memset m a 5 PGSIZE) a = 0x0505050505050505 := by
  unfold load64 memset PGSIZE
  simp

theorem KChain.kframe {m m' : Nat → Nat} : ∀ {l : List Nat} {h : Nat}, KChain m h l →
    (∀ p ∈ l, load64 m' p = load64 m p) → KChain m' h l
  | [], h, hc, _ => by simpa [KChain] using hc
  | p :: t, h, hc, hl => by
    simp only [KChain] at hc ⊢
    refine ⟨hc.1, hc.2.1, ?_⟩
    rw [hl p (List.mem_cons_self _ _)]
    exact KChain.kframe hc.2.2 (fun q hq => hl q (List.mem_cons_of_mem _ hq))

theorem kwalk_of_KChain {m : Nat → Nat} : ∀ {l : List Nat} {h : Nat} (fuel : Nat),
    KChain m h l → l.length < fuel → kwalk m fuel h = some l
  | [], h, fuel, hc, hf => by
    simp only [KChain] at hc
    obtain ⟨k, rfl⟩ : ∃ k, fuel = k + 1 := ⟨fuel - 1, by simp at hf; omega⟩
    simp [kwalk, hc]
  | p :: t, h, fuel, hc, hf => by
    simp only [KChain] at hc
    obtain ⟨k, rfl⟩ : ∃ k, fuel = k + 1 := ⟨fuel - 1, by simp at hf; omega⟩
    have := kwalk_of_KChain k hc.2.2 (by simpa using hf)
    simp [kwalk, hc.1, hc.2.1, this]


theorem kfree_eq (end_ PHYSTOP : Nat) (s : Kmem) (cpu pa : Nat)
    (h1 : pa % PGSIZE = 0) (h2 : end_ ≤ pa) (h3 : pa < PHYSTOP) :
    kfree end_ PHYSTOP s cpu pa = .ret (pushS s cpu pa) := by
  unfold kfree
  rw [if_neg]
  · rfl
  · omega

theorem kfree_ret {end_ PHYSTOP : Nat} {s s' : Kmem} {cpu pa : Nat}
    (h : kfree end_ PHYSTOP s cpu pa = .ret s') :
    pa % PGSIZE = 0 ∧ end_ ≤ pa ∧ pa < PHYSTOP ∧ s' = pushS s cpu pa := by
  unfold kfree at h
  split at h
  · cases h
  · rename_i hc
    injection h with h
    refine ⟨by omega, by omega, by omega, h.symm⟩

theorem KLists.head_lt {NCPU : Nat} {s : Kmem} {L : Nat → List Nat} (h : KLists NCPU s L)
    {i : Nat} (hi : i < NCPU) : s.freelist i < 2 ^ 64 := by
  have hc := h.chain i hi
  cases e : L i with
  | nil => rw [e] at hc; simp only [KChain] at hc; rw [hc]; norm_num
  | cons p t =>
    rw [e] at hc; simp only [KChain] at hc
    rw [hc.1]
    exact h.word i p hi (by rw [e]; exact List.mem_cons_self _ _)

/-- The word at the start of a page is untouched by a store or fill in another page. -/
theorem load64_page_frame {m m' : Nat → Nat} {p q : Nat} (hp : p % PGSIZE = 0)
    (hq : q % PGSIZE = 0) (hne : p ≠ q)
    (hm : ∀ x, (x < q ∨ q + PGSIZE ≤ x) → m' x = m x) : load64 m' p = load64 m p := by
  apply load64_congr
  intro x h1 h2
  apply hm
  have := page_apart hp hq hne
  unfold PGSIZE at *
  omega

theorem pushS_mem_other (s : Kmem) (cpu pa x : Nat) (h : x < pa ∨ pa + PGSIZE ≤ x) :
    (pushS s cpu pa).mem x = s.mem x := by
  simp only [pushS]
  rw [store64_other _ _ _ _ (by unfold PGSIZE at h; omega), memset_other _ _ _ _ _ h]

theorem popS_mem_other (s : Kmem) (k x : Nat)
    (h : x < s.freelist k ∨ s.freelist k + PGSIZE ≤ x) : (popS s k).mem x = s.mem x := by
  simp only [popS]
  rw [memset_other _ _ _ _ _ h]

theorem KLists.kpush {NCPU : Nat} {s : Kmem} {L : Nat → List Nat} (h : KLists NCPU s L)
    {cpu pa : Nat} (hc : cpu < NCPU) (ha : pa % PGSIZE = 0) (h0 : pa ≠ 0) (hw : pa < 2 ^ 64)
    (hn : ∀ i, i < NCPU → pa ∉ L i) :
    KLists NCPU (pushS s cpu pa) (Function.update L cpu (pa :: L cpu)) := by
  have hframe : ∀ i, i < NCPU → ∀ p ∈ L i, load64 (pushS s cpu pa).mem p = load64 s.mem p := by
    intro i hi p hp
    exact load64_page_frame (h.aligned i p hi hp) ha (fun e => hn i hi (e ▸ hp))
      (pushS_mem_other s cpu pa)
  have hmem : ∀ i p, i < NCPU → p ∈ Function.update L cpu (pa :: L cpu) i →
      (p = pa ∧ i = cpu) ∨ p ∈ L i := by
    intro i p _ hp
    by_cases e : i = cpu
    · subst e
      rw [Function.update_same] at hp
      rcases List.mem_cons.mp hp with e | hp
      · exact Or.inl ⟨e, rfl⟩
      · exact Or.inr hp
    · rw [Function.update_noteq e] at hp
      exact Or.inr hp
  refine ⟨?_, ?_, ?_, ?_, ?_⟩
  · intro i hi
    by_cases e : i = cpu
    · subst e
      rw [Function.update_same]
      simp only [KChain]
      refine ⟨by simp [pushS], h0, ?_⟩
      have : load64 (pushS s i pa).mem pa = s.freelist i := by
        simp only [pushS]
        exact load64_store64 _ _ _ (h.head_lt hi)
      rw [this]
      exact (h.chain i hi).kframe (hframe i hi)
    · rw [Function.update_noteq e]
      have : (pushS s cpu pa).freelist i = s.freelist i := by
        simp only [pushS]; rw [Function.update_noteq e]
      rw [this]
      exact (h.chain i hi).kframe (hframe i hi)
  · intro i p hi hp
    rcases hmem i p hi hp with ⟨e, _⟩ | hp
    · rw [e]; exact ha
    · exact h.aligned i p hi hp
  · intro i p hi hp
    rcases hmem i p hi hp with ⟨e, _⟩ | hp
    · rw [e]; exact hw
    · exact h.word i p hi hp
  · intro i hi
    by_cases e : i = cpu
    · subst e
      rw [Function.update_same]
      exact List.nodup_cons.mpr ⟨hn i hi, h.nodup i hi⟩
    · rw [Function.update_noteq e]; exact h.nodup i hi
  · intro i j p hi hj hpi hpj
    rcases hmem i p hi hpi with ⟨e, e2⟩ | hpi <;> rcases hmem j p hj hpj with ⟨e', e2'⟩ | hpj
    · rw [e2, e2']
    · exact absurd (e ▸ hpj) (hn j hj)
    · exact absurd (e' ▸ hpi) (hn i hi)
    · exact h.disjoint i j p hi hj hpi hpj

theorem KLists.kpop {NCPU : Nat} {s : Kmem} {L : Nat → List Nat} (h : KLists NCPU s L)
    {k r : Nat} {t : List Nat} (hk : k < NCPU) (hL : L k = r :: t) :
    s.freelist k = r ∧ KLists NCPU (popS s k) (Function.update L k t) := by
  have hck := h.chain k hk
  rw [hL] at hck
  simp only [KChain] at hck
  obtain ⟨e1, _, hct⟩ := hck
  have hrk : r ∈ L k := by rw [hL]; exact List.mem_cons_self _ _
  have hnd := h.nodup k hk
  rw [hL] at hnd
  have hrt : r ∉ t := (List.nodup_cons.mp hnd).1
  have hsub : ∀ i p, i < NCPU → p ∈ Function.update L k t i → p ∈ L i ∧ p ≠ r := by
    intro i p hi hp
    by_cases e : i = k
    · subst e
      rw [Function.update_same] at hp
      exact ⟨by rw [hL]; exact List.mem_cons_of_mem _ hp, fun e => hrt (e ▸ hp)⟩
    · rw [Function.update_noteq e] at hp
      exact ⟨hp, fun e2 => e (h.disjoint i k p hi hk hp (e2 ▸ hrk))⟩
  have hframe : ∀ i p, i < NCPU → p ∈ L i → p ≠ r →
      load64 (popS s k).mem p = load64 s.mem p := by
    intro i p hi hp hne
    exact load64_page_frame (h.aligned i p hi hp) (h.aligned k r hk hrk) hne
      (fun x hx => popS_mem_other s k x (by rw [e1]; exact hx))
  refine ⟨e1, ?_, ?_, ?_, ?_, ?_⟩
  · intro i hi
    by_cases e : i = k
    · subst e
      rw [Function.update_same]
      have : (popS s i).freelist i = load64 s.mem r := by
        simp only [popS, Function.update_same, e1]
      rw [this]
      apply hct.kframe
      intro p hp
      exact hframe i p hi (by rw [hL]; exact List.mem_cons_of_mem _ hp) (fun e => hrt (e ▸ hp))
    · rw [Function.update_noteq e]
      have : (popS s k).freelist i = s.freelist i := by
        simp only [popS]; rw [Function.update_noteq e]
      rw [this]
      apply (h.chain i hi).kframe
      intro p hp
      exact hframe i p hi hp (fun e2 => e (h.disjoint i k p hi hk hp (e2 ▸ hrk)))
  · intro i p hi hp
    exact h.aligned i p hi (hsub i p hi hp).1
  · intro i p hi hp
    exact h.word i p hi (hsub i p hi hp).1
  · intro i hi
    by_cases e : i = k
    · subst e; rw [Function.update_same]; exact (List.nodup_cons.mp hnd).2
    · rw [Function.update_noteq e]; exact h.nodup i hi
  · intro i j p hi hj hpi hpj
    exact h.disjoint i j p hi hj (hsub i p hi hpi).1 (hsub j p hj hpj).1

theorem kalloc_steal_cases (s : Kmem) (cpu : Nat) : ∀ (n i : Nat),
    (∃ k, i ≤ k ∧ k < i + n ∧ k ≠ cpu ∧ s.freelist k ≠ 0 ∧
        (∀ j, i ≤ j → j < k → j ≠ cpu → s.freelist j = 0) ∧
        kalloc_steal s cpu n i = (s.freelist k,
          { s with freelist := Function.update s.freelist k (load64 s.mem (s.freelist k)) })) ∨
      ((∀ j, i ≤ j → j < i + n → j ≠ cpu → s.freelist j = 0) ∧
        kalloc_steal s cpu n i = (0, s))
  | 0, i => Or.inr ⟨fun j h1 h2 => by omega, rfl⟩
  | n + 1, i => by
    rcases kalloc_steal_cases s cpu n (i + 1) with ⟨k, h1, h2, h3, h4, h5, h6⟩ | ⟨h1, h2⟩
    · by_cases e : i = cpu
      · left
        refine ⟨k, by omega, by omega, h3, h4, ?_, ?_⟩
        · intro j hj1 hj2 hj3
          exact h5 j (by omega) hj2 hj3
        · subst e
          simp only [kalloc_steal, if_true]
          exact h6
      · by_cases e0 : s.freelist i = 0
        · left
          refine ⟨k, by omega, by omega, h3, h4, ?_, ?_⟩
          · intro j hj1 hj2 hj3
            by_cases ej : j = i
            · rw [ej]; exact e0
            · exact h5 j (by omega) hj2 hj3
          · simp only [kalloc_steal, e, if_false, e0, ne_eq, not_true_eq_false]
            exact h6
        · left
          refine ⟨i, le_refl _, by omega, e, e0, fun j h1 h2 => by omega, ?_⟩
          simp [kalloc_steal, e, e0]
    · by_cases e : i = cpu
      · right
        refine ⟨?_, ?_⟩
        · intro j hj1 hj2 hj3
          exact h1 j (by omega) (by omega) hj3
        · subst e
          simp only [kalloc_steal, if_true]
          exact h2
      · by_cases e0 : s.freelist i = 0
        · right
          refine ⟨?_, ?_⟩
          · intro j hj1 hj2 hj3
            by_cases ej : j = i
            · rw [ej]; exact e0
            · exact h1 j (by omega) (by omega) hj3
          · simp only [kalloc_steal, e, if_false, e0, ne_eq, not_true_eq_false]
            exact h2
        · left
          refine ⟨i, le_refl _, by omega, e, e0, fun j h1 h2 => by omega, ?_⟩
          simp [kalloc_steal, e, e0]

/-- What `kalloc` does: it takes the head of the caller's list, or else of the first
non-empty list of another CPU, or else returns null and changes nothing. -/
theorem kalloc_cases (NCPU : Nat) (s : Kmem) (c : Nat) (hc : c < NCPU) :
    (∃ k, k < NCPU ∧ s.freelist k ≠ 0 ∧
        (k = c ∨ (k ≠ c ∧ s.freelist c = 0 ∧ ∀ j, j < k → j ≠ c → s.freelist j = 0)) ∧
        kalloc NCPU s c = (s.freelist k, popS s k)) ∨
      ((∀ i, i < NCPU → s.freelist i = 0) ∧ kalloc NCPU s c = (0, s)) := by
  by_cases e : s.freelist c = 0
  · rcases kalloc_steal_cases s c NCPU 0 with ⟨k, _, h2, h3, h4, h5, h6⟩ | ⟨h1, h2⟩
    · left
      refine ⟨k, by omega, h4, Or.inr ⟨h3, e, fun j hj hjc => h5 j (Nat.zero_le _) hj hjc⟩, ?_⟩
      simp only [kalloc, e, ne_eq, not_true_eq_false, if_false, h6, h4, not_false_eq_true,
        if_true, popS]
    · right
      refine ⟨?_, ?_⟩
      · intro i hi
        by_cases ei : i = c
        · rw [ei]; exact e
        · exact h1 i (Nat.zero_le _) (by omega) ei
      · simp [kalloc, e, h2]
  · left
    refine ⟨c, hc, e, Or.inl rfl, ?_⟩
    simp [kalloc, e, popS]


theorem KLists.lframe {NCPU : Nat} {s s' : Kmem} {L : Nat → List Nat} (h : KLists NCPU s L)
    (hf : s'.freelist = s.freelist)
    (hm : ∀ i p, i < NCPU → p ∈ L i → load64 s'.mem p = load64 s.mem p) : KLists NCPU s' L where
  chain := fun i hi => by rw [hf]; exact (h.chain i hi).kframe (hm i · hi)
  aligned := h.aligned
  word := h.word
  nodup := h.nodup
  disjoint := h.disjoint

theorem KLists.head_cases {NCPU : Nat} {s : Kmem} {L : Nat → List Nat} (h : KLists NCPU s L)
    {i : Nat} (hi : i < NCPU) :
    (s.freelist i = 0 ∧ L i = []) ∨ (s.freelist i ≠ 0 ∧ ∃ t, L i = s.freelist i :: t) := by
  have hc := h.chain i hi
  cases e : L i with
  | nil => rw [e] at hc; simp only [KChain] at hc; exact Or.inl ⟨hc, rfl⟩
  | cons p t =>
    rw [e] at hc; simp only [KChain] at hc
    right
    rw [hc.1]
    exact ⟨hc.2.1, t, rfl⟩

theorem validPage.ne_zero {end_ PHYSTOP p : Nat} (h0 : 0 < end_) (h : validPage end_ PHYSTOP p) :
    p ≠ 0 := by
  have := h.2.1
  omega

theorem validPage.lt_word {end_ PHYSTOP p : Nat} (hP : PHYSTOP ≤ 2 ^ 64)
    (h : validPage end_ PHYSTOP p) : p < 2 ^ 64 := by
  have := h.2.2
  unfold PGSIZE at this
  omega

theorem freerange_loop_inv {NCPU end_ PHYSTOP cpu : Nat} (h0 : 0 < end_) (hP : PHYSTOP ≤ 2 ^ 64)
    (hc : cpu < NCPU) : ∀ (fuel : Nat) (s : Kmem) (p : Nat) (L : Nat → List Nat) (s' : Kmem),
    freerange_loop end_ PHYSTOP cpu PHYSTOP fuel s p = .ret s' →
    KBelow NCPU end_ PHYSTOP s L p →
    ∃ L', KLists NCPU s' L' ∧ ∀ i q, i < NCPU → q ∈ L' i → validPage end_ PHYSTOP q
  | 0, s, p, L, s', h, _ => by simp [freerange_loop] at h
  | fuel + 1, s, p, L, s', h, hb => by
    simp only [freerange_loop] at h
    split at h
    · rename_i hle
      cases e : kfree end_ PHYSTOP s cpu p with
      | ret s1 =>
        rw [e] at h
        simp only [Outcome.bind] at h
        obtain ⟨ha, hend, _, hs1⟩ := kfree_ret e
        have hv : validPage end_ PHYSTOP p := ⟨ha, hend, hle⟩
        have hnot : ∀ i, i < NCPU → p ∉ L i := by
          intro i hi hp
          have := (hb.2 i p hi hp).2
          omega
        have hl1 := hb.1.kpush hc ha (hv.ne_zero h0) (hv.lt_word hP) hnot
        rw [← hs1] at hl1
        apply freerange_loop_inv h0 hP hc fuel s1 (p + PGSIZE) _ s' h
        refine ⟨hl1, ?_⟩
        intro i q hi hq
        by_cases ei : i = cpu
        · subst ei
          rw [Function.update_same] at hq
          rcases List.mem_cons.mp hq with e2 | hq
          · rw [e2]; exact ⟨hv, by unfold PGSIZE; omega⟩
          · have := hb.2 i q hi hq
            exact ⟨this.1, by omega⟩
        · rw [Function.update_noteq ei] at hq
          have := hb.2 i q hi hq
          exact ⟨this.1, by omega⟩
      | panic m => rw [e] at h; simp [Outcome.bind] at h
      | fault => rw [e] at h; simp [Outcome.bind] at h
      | hang => rw [e] at h; simp [Outcome.bind] at h
    · injection h with h
      subst h
      exact ⟨L, hb.1, fun i q hi hq => (hb.2 i q hi hq).1⟩

theorem KInv.of_kinit {NCPU end_ PHYSTOP cpu0 : Nat} {mem0 : Nat → Nat} {s : Kmem} (h0 : 0 < end_)
    (hP : PHYSTOP ≤ 2 ^ 64) (hc : cpu0 < NCPU) (h : kinit end_ PHYSTOP mem0 cpu0 = .ret s) :
    KInv NCPU end_ PHYSTOP s [] := by
  unfold kinit freerange at h
  have hb : KBelow NCPU end_ PHYSTOP { freelist := fun _ => 0, mem := mem0 } (fun _ => [])
      (PGROUNDUP end_) := by
    refine ⟨⟨fun i _ => by simp [KChain], ?_, ?_, fun i _ => List.nodup_nil, ?_⟩, ?_⟩ <;>
      intros <;> simp_all
  obtain ⟨L, h1, h2⟩ := freerange_loop_inv h0 hP hc _ _ _ _ _ h hb
  exact ⟨L, h1, h2, fun p hp => by simp at hp, fun _ _ _ _ hp => by simp at hp, List.nodup_nil⟩

/-- Every call that respects the contract keeps the invariant of the allocator. -/
theorem KInv.kstep {NCPU end_ PHYSTOP : Nat} (h0 : 0 < end_) (hP : PHYSTOP ≤ 2 ^ 64)
    {s s' : Kmem} {u : List Nat} (c : KCall) (h : KInv NCPU end_ PHYSTOP s u)
    (hp : c.proper u) (hr : c.run NCPU end_ PHYSTOP s = some s') :
    KInv NCPU end_ PHYSTOP s' (c.used NCPU s u) := by
  obtain ⟨L, hL, hv, hu, hd, hnd⟩ := h
  cases c with
  | kalloc cpu =>
    simp only [KCall.run] at hr
    split at hr
    · rename_i hc
      injection hr with hr
      subst hr
      rcases kalloc_cases NCPU s cpu hc with ⟨k, hk, hne, _, e⟩ | ⟨_, e⟩
      · rcases hL.head_cases hk with ⟨e0, _⟩ | ⟨_, t, et⟩
        · exact absurd e0 hne
        · have hpop := hL.kpop hk et
          have hrk : s.freelist k ∈ L k := by rw [et]; exact List.mem_cons_self _ _
          have hndk := hL.nodup k hk
          rw [et] at hndk
          have hsub : ∀ i p, i < NCPU → p ∈ Function.update L k t i →
              p ∈ L i ∧ p ≠ s.freelist k := by
            intro i p hi hp
            by_cases ei : i = k
            · subst ei
              rw [Function.update_same] at hp
              exact ⟨by rw [et]; exact List.mem_cons_of_mem _ hp,
                fun e => (List.nodup_cons.mp hndk).1 (e ▸ hp)⟩
            · rw [Function.update_noteq ei] at hp
              exact ⟨hp, fun e2 => ei (hL.disjoint i k p hi hk hp (e2 ▸ hrk))⟩
          simp only [KCall.used, e, hne, if_false]
          refine ⟨_, hpop.2, ?_, ?_, ?_, ?_⟩
          · intro i p hi hp
            exact hv i p hi (hsub i p hi hp).1
          · intro p hp
            rcases List.mem_cons.mp hp with e2 | hp
            · rw [e2]; exact hv k _ hk hrk
            · exact hu p hp
          · intro i p hi hp hpu
            rcases List.mem_cons.mp hpu with e2 | hpu
            · exact (hsub i p hi hp).2 e2
            · exact hd i p hi (hsub i p hi hp).1 hpu
          · exact List.nodup_cons.mpr ⟨hd k _ hk hrk, hnd⟩
      · simp only [KCall.used, e, if_true]
        exact ⟨L, hL, hv, hu, hd, hnd⟩
    · cases hr
  | kfree cpu pa =>
    simp only [KCall.run] at hr
    cases e : Xv6.kfree end_ PHYSTOP s cpu pa with
    | ret s1 =>
      rw [e] at hr
      simp only at hr
      split at hr
      · rename_i hc
        injection hr with hr
        subst hr
        obtain ⟨_, _, _, hs1⟩ := kfree_ret e
        have hpa : pa ∈ u := hp
        have hva := hu pa hpa
        have hnot : ∀ i, i < NCPU → pa ∉ L i := fun i hi hq => hd i pa hi hq hpa
        have hl1 := hL.kpush hc hva.1 (hva.ne_zero h0) (hva.lt_word hP) hnot
        rw [← hs1] at hl1
        simp only [KCall.used]
        refine ⟨_, hl1, ?_, ?_, ?_, hnd.erase pa⟩
        · intro i p hi hq
          by_cases ei : i = cpu
          · subst ei
            rw [Function.update_same] at hq
            rcases List.mem_cons.mp hq with e2 | hq
            · rw [e2]; exact hva
            · exact hv i p hi hq
          · rw [Function.update_noteq ei] at hq
            exact hv i p hi hq
        · intro p hq
          exact hu p (List.mem_of_mem_erase hq)
        · intro i p hi hq hpu
          by_cases ei : i = cpu
          · subst ei
            rw [Function.update_same] at hq
            rcases List.mem_cons.mp hq with e2 | hq
            · rw [e2] at hpu
              exact (hnd.mem_erase_iff.mp hpu).1 rfl
            · exact hd i p hi hq (List.mem_of_mem_erase hpu)
          · rw [Function.update_noteq ei] at hq
            exact hd i p hi hq (List.mem_of_mem_erase hpu)
      · cases hr
    | panic m => rw [e] at hr; cases hr
    | fault => rw [e] at hr; cases hr
    | hang => rw [e] at hr; cases hr
  | write pa off v =>
    simp only [KCall.run] at hr
    injection hr with hr
    subst hr
    obtain ⟨hpa, hoff⟩ : pa ∈ u ∧ off < PGSIZE := hp
    have hva := hu pa hpa
    refine ⟨L, hL.lframe rfl ?_, hv, hu, hd, hnd⟩
    intro i p hi hq
    apply load64_page_frame (hL.aligned i p hi hq) hva.1 (fun e => hd i p hi hq (e ▸ hpa))
    intro x hx
    show Function.update s.mem (pa + off) v x = s.mem x
    rw [Function.update_noteq]
    omega

/-- Every state reachable by calls that respect the contract satisfies the invariant. -/
theorem KReach.kinv {NCPU end_ PHYSTOP cpu0 : Nat} {mem0 : Nat → Nat} (h0 : 0 < end_)
    (hP : PHYSTOP ≤ 2 ^ 64) {s : Kmem} {u : List Nat}
    (h : KReach NCPU end_ PHYSTOP mem0 cpu0 s u) : KInv NCPU end_ PHYSTOP s u := by
  induction h with
  | init s hc hk => exact KInv.of_kinit h0 hP hc hk
  | step s s' u c _ hp hr ih => exact KInv.kstep h0 hP c ih hp hr


theorem KReach.of_kafter {NCPU end_ PHYSTOP cpu0 : Nat} {mem0 : Nat → Nat} :
    ∀ (cs : List KCall) (s : Kmem) (u : List Nat), KReach NCPU end_ PHYSTOP mem0 cpu0 s u →
    KReach NCPU end_ PHYSTOP mem0 cpu0 (kafter NCPU end_ PHYSTOP (s, u) cs).1
      (kafter NCPU end_ PHYSTOP (s, u) cs).2
  | [], s, u, h => h
  | c :: cs, s, u, h => by
    cases c with
    | kalloc cpu =>
      cases e : (KCall.kalloc cpu).run NCPU end_ PHYSTOP s with
      | none => simp only [kafter, e]; exact KReach.of_kafter cs s u h
      | some s' =>
        simp only [kafter, e]
        exact KReach.of_kafter cs _ _ (KReach.step s s' u _ h trivial e)
    | kfree cpu pa =>
      cases e : (KCall.kfree cpu pa).run NCPU end_ PHYSTOP s with
      | none => simp only [kafter, e]; exact KReach.of_kafter cs s u h
      | some s' =>
        simp only [kafter, e]
        split
        · rename_i hp
          exact KReach.of_kafter cs _ _ (KReach.step s s' u _ h hp e)
        · exact KReach.of_kafter cs s u h
    | write pa off v =>
      cases e : (KCall.write pa off v).run NCPU end_ PHYSTOP s with
      | none => simp only [kafter, e]; exact KReach.of_kafter cs s u h
      | some s' =>
        simp only [kafter, e]
        split
        · rename_i hp
          exact KReach.of_kafter cs _ _ (KReach.step s s' u _ h hp e)
        · exact KReach.of_kafter cs s u h

theorem KReachAny.of_kafter_any {NCPU end_ PHYSTOP cpu0 : Nat} {mem0 : Nat → Nat} :
    ∀ (cs : List KCall) (s : Kmem), KReachAny NCPU end_ PHYSTOP mem0 cpu0 s →
    KReachAny NCPU end_ PHYSTOP mem0 cpu0 (kafter_any NCPU end_ PHYSTOP s cs)
  | [], s, h => h
  | .kalloc cpu :: cs, s, h => by
    simp only [kafter_any]
    split
    · rename_i hc
      exact KReachAny.of_kafter_any cs _ (KReachAny.kalloc s cpu h hc)
    · exact KReachAny.of_kafter_any cs s h
  | .kfree cpu pa :: cs, s, h => by
    simp only [kafter_any]
    cases e : Xv6.kfree end_ PHYSTOP s cpu pa with
    | ret s' =>
      simp only
      split
      · rename_i hc
        exact KReachAny.of_kafter_any cs _ (KReachAny.kfree s s' cpu pa h hc e)
      · exact KReachAny.of_kafter_any cs s h
    | panic m => exact KReachAny.of_kafter_any cs s h
    | fault => exact KReachAny.of_kafter_any cs s h
    | hang => exact KReachAny.of_kafter_any cs s h
  | .write _ _ _ :: cs, s, h => by
    simp only [kafter_any]
    exact KReachAny.of_kafter_any cs s h

/-- C5. For every allocator state and every calling CPU `c`: `kalloc` returns null exactly
when every CPU's free-list head is null (and then changes nothing); it returns the head
of `c`'s list when that is non-empty, and otherwise the head of the lowest-indexed
non-empty list of another CPU. When the free lists are well-formed lists `L`, the page
returned is the head of one list `k`, and afterwards the lists are `L` with list `k`
replaced by its tail: no other list, `c`'s own included when stealing, changes. -/
theorem kalloc_takes_one_page (NCPU : Nat) (s : Kmem) (c : Nat) (hc : c < NCPU) :
    ((kalloc NCPU s c).1 = 0 ↔ ∀ i, i < NCPU → s.freelist i = 0) ∧
    (s.freelist c ≠ 0 → (kalloc NCPU s c).1 = s.freelist c) ∧
    (s.freelist c = 0 → ∀ k, k < NCPU → k ≠ c → s.freelist k ≠ 0 →
      (∀ j, j < k → j ≠ c → s.freelist j = 0) → (kalloc NCPU s c).1 = s.freelist k) ∧
    ((kalloc NCPU s c).1 = 0 → (kalloc NCPU s c).2 = s) ∧
    ∀ L, KLists NCPU s L → (kalloc NCPU s c).1 ≠ 0 →
      ∃ k t, k < NCPU ∧ L k = (kalloc NCPU s c).1 :: t ∧
        (k = c ∨ (k ≠ c ∧ L c = [] ∧ ∀ j, j < k → j ≠ c → L j = [])) ∧
        KLists NCPU (kalloc NCPU s c).2 (Function.update L k t) := by
  rcases kalloc_cases NCPU s c hc with ⟨k, hk, hne, hkc, e⟩ | ⟨hz, e⟩
  · rw [e]
    refine ⟨⟨fun h => absurd h hne, fun h => absurd (h k hk) hne⟩, ?_, ?_,
      fun h => absurd h hne, ?_⟩
    · intro hcne
      rcases hkc with rfl | ⟨_, h0, _⟩
      · rfl
      · exact absurd h0 hcne
    · intro hc0 k' hk' hk'c hk'ne hmin
      rcases hkc with rfl | ⟨hkc, _, hmin'⟩
      · exact absurd hc0 hne
      · have : k = k' := by
          rcases Nat.lt_trichotomy k k' with h | h | h
          · exact absurd (hmin k h hkc) hne
          · exact h
          · exact absurd (hmin' k' h hk'c) hk'ne
        rw [this]
    · intro L hL _
      rcases hL.head_cases hk with ⟨e0, _⟩ | ⟨_, t, et⟩
      · exact absurd e0 hne
      · refine ⟨k, t, hk, et, ?_, (hL.kpop hk et).2⟩
        rcases hkc with rfl | ⟨hkc, h0, hmin⟩
        · exact Or.inl rfl
        · right
          refine ⟨hkc, ?_, ?_⟩
          · rcases hL.head_cases hc with ⟨_, e1⟩ | ⟨e1, _⟩
            · exact e1
            · exact absurd h0 e1
          · intro j hj hjc
            rcases hL.head_cases (Nat.lt_trans hj hk) with ⟨_, e1⟩ | ⟨e1, _⟩
            · exact e1
            · exact absurd (hmin j hj hjc) e1
  · rw [e]
    refine ⟨⟨fun _ => hz, fun _ => rfl⟩, fun h => absurd (hz c hc) h, ?_, fun _ => rfl,
      fun L _ h => absurd rfl h⟩
    intro _ k hk _ hne
    exact absurd (hz k hk) hne

/-- C5, at a concrete input: in the allocator of `three_pages` (two CPUs, one page on each
list) made empty on CPU 1 by an allocation, CPU 1 steals page `0x1000` from CPU 0. -/
theorem kalloc_takes_one_page_witness :
    (kalloc 2 (kalloc 2 three_pages.1 1).2 1).1 = 4096 ∧
    (((kalloc 2 (kalloc 2 three_pages.1 1).2 1).1 = 0 ↔
        ∀ i, i < 2 → (kalloc 2 three_pages.1 1).2.freelist i = 0) ∧
    ((kalloc 2 three_pages.1 1).2.freelist 1 ≠ 0 →
      (kalloc 2 (kalloc 2 three_pages.1 1).2 1).1 = (kalloc 2 three_pages.1 1).2.freelist 1) ∧
    ((kalloc 2 three_pages.1 1).2.freelist 1 = 0 → ∀ k, k < 2 → k ≠ 1 →
      (kalloc 2 three_pages.1 1).2.freelist k ≠ 0 →
      (∀ j, j < k → j ≠ 1 → (kalloc 2 three_pages.1 1).2.freelist j = 0) →
      (kalloc 2 (kalloc 2 three_pages.1 1).2 1).1 = (kalloc 2 three_pages.1 1).2.freelist k) ∧
    ((kalloc 2 (kalloc 2 three_pages.1 1).2 1).1 = 0 →
      (kalloc 2 (kalloc 2 three_pages.1 1).2 1).2 = (kalloc 2 three_pages.1 1).2) ∧
    ∀ L, KLists 2 (kalloc 2 three_pages.1 1).2 L →
      (kalloc 2 (kalloc 2 three_pages.1 1).2 1).1 ≠ 0 →
      ∃ k t, k < 2 ∧ L k = (kalloc 2 (kalloc 2 three_pages.1 1).2 1).1 :: t ∧
        (k = 1 ∨ (k ≠ 1 ∧ L 1 = [] ∧ ∀ j, j < k → j ≠ 1 → L j = [])) ∧
        KLists 2 (kalloc 2 (kalloc 2 three_pages.1 1).2 1).2 (Function.update L k t)) :=
  ⟨by decide, kalloc_takes_one_page 2 (kalloc 2 three_pages.1 1).2 1 (by decide)⟩

/-- C6 (amended). In every state reachable from `kinit` by `kalloc` calls and by `kfree`
calls applied to pages in use (on any CPUs; owners may write into their pages), every
address on every free list `p` satisfies `p mod PGSIZE = 0`, `p ≥ end` and
`p + PGSIZE ≤ PHYSTOP`, and so does every non-null page returned by `kalloc`. -/
theorem kalloc_returns_page_in_range (NCPU end_ PHYSTOP : Nat) (mem0 : Nat → Nat) (cpu0 : Nat)
    (h0 : 0 < end_) (hP : PHYSTOP ≤ 2 ^ 64) (s : Kmem) (u : List Nat)
    (h : KReach NCPU end_ PHYSTOP mem0 cpu0 s u) :
    (∃ L, KLists NCPU s L ∧
      ∀ i p, i < NCPU → p ∈ L i → p % PGSIZE = 0 ∧ end_ ≤ p ∧ p + PGSIZE ≤ PHYSTOP) ∧
    ∀ c, c < NCPU → (kalloc NCPU s c).1 ≠ 0 →
      (kalloc NCPU s c).1 % PGSIZE = 0 ∧ end_ ≤ (kalloc NCPU s c).1 ∧
      (kalloc NCPU s c).1 + PGSIZE ≤ PHYSTOP := by
  obtain ⟨L, hL, hv, _, _, _⟩ := h.kinv h0 hP
  refine ⟨⟨L, hL, hv⟩, ?_⟩
  intro c hc hne
  rcases kalloc_cases NCPU s c hc with ⟨k, hk, hkne, _, e⟩ | ⟨_, e⟩
  · rw [e]
    rcases hL.head_cases hk with ⟨e0, _⟩ | ⟨_, t, et⟩
    · exact absurd e0 hkne
    · exact hv k _ hk (by rw [et]; exact List.mem_cons_self _ _)
  · rw [e] at hne
    exact absurd rfl hne

/-- C6 (amended), at a concrete input: the allocator of `three_pages`. -/
theorem kalloc_returns_page_in_range_witness :
    (kalloc 2 three_pages.1 1).1 = 12288 ∧
    ((∃ L, KLists 2 three_pages.1 L ∧
      ∀ i p, i < 2 → p ∈ L i → p % PGSIZE = 0 ∧ 4096 ≤ p ∧ p + PGSIZE ≤ 16384) ∧
    ∀ c, c < 2 → (kalloc 2 three_pages.1 c).1 ≠ 0 →
      (kalloc 2 three_pages.1 c).1 % PGSIZE = 0 ∧ 4096 ≤ (kalloc 2 three_pages.1 c).1 ∧
      (kalloc 2 three_pages.1 c).1 + PGSIZE ≤ 16384) :=
  ⟨by decide, kalloc_returns_page_in_range 2 4096 16384 (fun _ => 0) 0 (by decide) (by decide)
    three_pages.1 three_pages.2
    (KReach.of_kafter _ _ _ (KReach.init _ (by decide) rfl))⟩

/-- C6 as stated fails: `double_free_state` is reached from `kinit` by a non-halting `kfree`
of page `0x2000` (which is already free) and two `kalloc` calls, both of which return
`0x2000`. The head of the free list of CPU 0 is then `0x0505050505050505`, the fill
pattern of `kalloc`: it is not page-aligned and lies above `PHYSTOP`, and it is what the
next `kalloc` returns. -/
theorem double_free_breaks_free_list :
    KReachAny 1 4096 12288 (fun _ => 0) 0 double_free_state ∧
    double_free_state.freelist 0 = 0x0505050505050505 ∧
    (kalloc 1 double_free_state 0).1 = 0x0505050505050505 ∧
    ¬ ((kalloc 1 double_free_state 0).1 % PGSIZE = 0) ∧
    ¬ ((kalloc 1 double_free_state 0).1 + PGSIZE ≤ 12288) :=
  ⟨KReachAny.of_kafter_any _ _ (KReachAny.init _ (by decide) rfl), by decide, by decide,
    by decide, by decide⟩

/-- C7. In every state reachable from `kinit` by `kalloc` calls and `kfree` calls applied
only to pages in use (returned by `kalloc` and not freed since), the free lists are
well-formed lists in whose concatenation no page occurs twice, and no page in use is
on a free list. -/
theorem free_lists_hold_each_page_once (NCPU end_ PHYSTOP : Nat) (mem0 : Nat → Nat)
    (cpu0 : Nat) (h0 : 0 < end_) (hP : PHYSTOP ≤ 2 ^ 64) (s : Kmem) (u : List Nat)
    (h : KReach NCPU end_ PHYSTOP mem0 cpu0 s u) :
    ∃ L, KLists NCPU s L ∧ (allFree NCPU L).Nodup ∧ ∀ p, p ∈ u → p ∉ allFree NCPU L := by
  obtain ⟨L, hL, _, _, hd, _⟩ := h.kinv h0 hP
  refine ⟨L, hL, ?_, ?_⟩
  · unfold allFree
    rw [List.nodup_flatMap]
    refine ⟨fun i hi => hL.nodup i (List.mem_range.mp hi), ?_⟩
    have hpw := List.pairwise_lt_range NCPU
    rw [List.pairwise_iff_forall_sublist] at hpw ⊢
    intro i j hij
    have hlt := hpw hij
    have hi : i < NCPU := List.mem_range.mp (hij.subset (by simp))
    have hj : j < NCPU := List.mem_range.mp (hij.subset (by simp))
    intro p hli hlj
    have := hL.disjoint i j p hi hj hli hlj
    omega
  · intro p hp hpf
    unfold allFree at hpf
    rw [List.mem_flatMap] at hpf
    obtain ⟨i, hi, hpi⟩ := hpf
    exact hd i p (List.mem_range.mp hi) hpi hp

/-- C7, at a concrete input: in `three_pages` page `0x2000` is in use, page `0x1000` is on
the list of CPU 0 and page `0x3000` on the list of CPU 1. -/
theorem free_lists_hold_each_page_once_witness :
    kwalk three_pages.1.mem 4 (three_pages.1.freelist 0) = some [4096] ∧
    kwalk three_pages.1.mem 4 (three_pages.1.freelist 1) = some [12288] ∧
    three_pages.2 = [8192] ∧
    ∃ L, KLists 2 three_pages.1 L ∧ (allFree 2 L).Nodup ∧
      ∀ p, p ∈ three_pages.2 → p ∉ allFree 2 L :=
  ⟨by decide, by decide, by decide,
    free_lists_hold_each_page_once 2 4096 16384 (fun _ => 0) 0 (by decide) (by decide)
      three_pages.1 three_pages.2
      (KReach.of_kafter _ _ _ (KReach.init _ (by decide) rfl))⟩


/-! ## Memory-mapped files: lemmas -/

theorem haltsIn_bind {α β : Type} {ok : Halt → Prop} {flt : Prop} {r : Outcome α}
    (f : α → Outcome β) (h : haltsIn ok flt r) : haltsIn ok flt (r.bind f) := by
  rcases h with ⟨m, hm, e⟩ | ⟨hf, e⟩
  · exact Or.inl ⟨m, hm, by rw [e]; rfl⟩
  · exact Or.inr ⟨hf, by rw [e]; rfl⟩

theorem sext_last (bound : Nat) (hb : bound % PGSIZE = 0) (hlt : bound < 2 ^ 64) :
    ¬ (sext (2 ^ 32 - 4096) < bound) := by
  unfold sext PGSIZE at *
  norm_num at *
  omega

/-- The page loop of `munmap` ends: it returns or halts as its body does. -/
theorem munmap_loop_cases (body : MState → Nat → Outcome MState) (bound : Nat)
    (P : MState → Prop) (ok : Halt → Prop) (flt : Prop)
    (hbody : ∀ s va, P s → (∃ s', body s va = .ret s' ∧ P s') ∨ haltsIn ok flt (body s va))
    (hb : bound % PGSIZE = 0) (hlt : bound < 2 ^ 64) :
    ∀ (fuel : Nat) (s : MState) (va : Nat), P s → va % PGSIZE = 0 → va < 2 ^ 32 →
      (2 ^ 32 - 4096 - va) / 4096 < fuel →
      (∃ s', munmap_loop body bound fuel s va = .ret s' ∧ P s') ∨
        haltsIn ok flt (munmap_loop body bound fuel s va)
  | 0, s, va, _, _, _, hf => by omega
  | fuel + 1, s, va, hP, ha, hv, hf => by
    simp only [munmap_loop]
    split
    · rename_i hcond
      have hne : va ≠ 2 ^ 32 - 4096 := by
        intro e
        rw [e] at hcond
        exact sext_last bound hb hlt hcond
      rcases hbody s va hP with ⟨s1, e1, hP1⟩ | hh
      · rw [e1]
        simp only [Outcome.bind]
        have hva : va + PGSIZE < 2 ^ 32 := by
          unfold PGSIZE at *
          norm_num at *
          omega
        rw [Nat.mod_eq_of_lt hva]
        apply munmap_loop_cases body bound P ok flt hbody hb hlt fuel s1 (va + PGSIZE) hP1
        · unfold PGSIZE at *; omega
        · exact hva
        · unfold PGSIZE at *
          norm_num at *
          omega
      · exact Or.inr (haltsIn_bind _ hh)
    · exact Or.inl ⟨s, rfl, hP⟩


theorem kfree_cases (end_ PHYSTOP : Nat) (k : Kmem) (cpu pa : Nat) :
    (pa % PGSIZE = 0 ∧ end_ ≤ pa ∧ pa < PHYSTOP ∧
        kfree end_ PHYSTOP k cpu pa = .ret (pushS k cpu pa)) ∨
      kfree end_ PHYSTOP k cpu pa = .panic .kfree := by
  by_cases h : pa % PGSIZE ≠ 0 ∨ pa < end_ ∨ pa ≥ PHYSTOP
  · right
    simp [kfree, h]
  · left
    have h1 : pa % PGSIZE = 0 := by omega
    have h2 : end_ ≤ pa := by omega
    have h3 : pa < PHYSTOP := by omega
    exact ⟨h1, h2, h3, kfree_eq end_ PHYSTOP k cpu pa h1 h2 h3⟩

theorem walk_some {s : MState} {va n : Nat} (h : walk s va = some n) :
    n = va / PGSIZE ∧ ∃ pte, s.pt n = some pte := by
  unfold walk at h
  split at h
  · rename_i pte e
    injection h with h
    exact ⟨h.symm, pte, by rw [← h]; exact e⟩
  · cases h

/-- The loop body for a shared mapping returns or panics; it touches only the allocator,
the page table and the log. -/
theorem munmap_shared_page_cases (A : Arch) (E : Env) (end_ PHYSTOP cpu ip mlen addr : Nat)
    (s : MState) (va : Nat) :
    (∃ s', munmap_shared_page A E end_ PHYSTOP cpu ip mlen addr s va = .ret s' ∧
        s'.mmaptable = s.mmaptable ∧ s'.ftable = s.ftable ∧ s'.slots = s.slots ∧
        ∀ n pte, s'.pt n = some pte → pte = 0 ∨ s.pt n = some pte) ∨
      munmap_shared_page A E end_ PHYSTOP cpu ip mlen addr s va = .panic .munmap_walk ∨
      munmap_shared_page A E end_ PHYSTOP cpu ip mlen addr s va = .panic .munmap_writei ∨
      (munmap_shared_page A E end_ PHYSTOP cpu ip mlen addr s va = .panic .kfree ∧
        ∃ n pte, s.pt n = some pte ∧ pte &&& A.PTE_V ≠ 0 ∧
          ¬ (A.PTE2PA pte % PGSIZE = 0 ∧ end_ ≤ A.PTE2PA pte ∧ A.PTE2PA pte < PHYSTOP)) := by
  cases hw : walk s (sext va) with
  | none => right; left; simp only [munmap_shared_page, hw]
  | some n =>
    obtain ⟨_, pte, hpte⟩ := walk_some hw
    simp only [munmap_shared_page, hw, hpte, Option.getD_some]
    by_cases hv : pte &&& A.PTE_V ≠ 0
    · rw [if_pos hv]
      have key : ∀ s1 : MState, s1.mmaptable = s.mmaptable → s1.ftable = s.ftable →
          s1.slots = s.slots → s1.pt = s.pt →
          ((∃ s', ((kfree end_ PHYSTOP s1.kmem cpu (A.PTE2PA pte)).bind fun k =>
              Outcome.ret { s1 with kmem := k, pt := Function.update s1.pt n (some 0) }) =
              .ret s' ∧
            s'.mmaptable = s.mmaptable ∧ s'.ftable = s.ftable ∧ s'.slots = s.slots ∧
            ∀ n' pte', s'.pt n' = some pte' → pte' = 0 ∨ s.pt n' = some pte') ∨
          (((kfree end_ PHYSTOP s1.kmem cpu (A.PTE2PA pte)).bind fun k =>
              Outcome.ret { s1 with kmem := k, pt := Function.update s1.pt n (some 0) }) =
              .panic .kfree ∧
            ¬ (A.PTE2PA pte % PGSIZE = 0 ∧ end_ ≤ A.PTE2PA pte ∧ A.PTE2PA pte < PHYSTOP))) := by
        intro s1 e1 e2 e3 e4
        rcases kfree_cases end_ PHYSTOP s1.kmem cpu (A.PTE2PA pte) with ⟨_, _, _, e⟩ | e
        · left
          rw [e]
          refine ⟨_, rfl, e1, e2, e3, ?_⟩
          intro n' pte' h'
          simp only [Function.update_apply] at h'
          split at h'
          · injection h' with h'
            exact Or.inl h'.symm
          · rw [e4] at h'
            exact Or.inr h'
        · right
          refine ⟨by rw [e]; rfl, ?_⟩
          intro hval
          rw [kfree_eq end_ PHYSTOP s1.kmem cpu _ hval.1 hval.2.1 hval.2.2] at e
          cases e
      by_cases hd : pte &&& A.PTE_D ≠ 0
      · rw [if_pos hd]
        by_cases hwr : E.writei ip (sext va) (munmap_off va addr)
            (munmap_len mlen (munmap_off va addr)) ≠ sval (munmap_len mlen (munmap_off va addr))
        · right; right; left
          rw [if_pos hwr]; rfl
        · rw [if_neg hwr]
          simp only [Outcome.bind]
          rcases key { s with log := s.log ++ [Event.writei ip 1 (sext va) (munmap_off va addr)
              (munmap_len mlen (munmap_off va addr))] } rfl rfl rfl rfl with h | h
          · exact Or.inl h
          · exact Or.inr (Or.inr (Or.inr ⟨h.1, n, pte, hpte, hv, h.2⟩))
      · rw [if_neg hd]
        simp only [Outcome.bind]
        rcases key s rfl rfl rfl rfl with h | h
        · exact Or.inl h
        · exact Or.inr (Or.inr (Or.inr ⟨h.1, n, pte, hpte, hv, h.2⟩))
    · rw [if_neg hv]
      exact Or.inl ⟨s, rfl, rfl, rfl, rfl, fun _ _ h => Or.inr h⟩


/-- The loop body for a private mapping returns or panics; it touches only the allocator
and the page table. -/
theorem munmap_private_page_cases (A : Arch) (end_ PHYSTOP cpu : Nat) (s : MState) (va : Nat) :
    (∃ s', munmap_private_page A end_ PHYSTOP cpu s va = .ret s' ∧
        s'.mmaptable = s.mmaptable ∧ s'.ftable = s.ftable ∧ s'.slots = s.slots ∧
        ∀ n pte, s'.pt n = some pte → pte = 0 ∨ s.pt n = some pte) ∨
      munmap_private_page A end_ PHYSTOP cpu s va = .panic .munmap_walk ∨
      munmap_private_page A end_ PHYSTOP cpu s va = .panic .munmap_writei ∨
      (munmap_private_page A end_ PHYSTOP cpu s va = .panic .kfree ∧
        ∃ n pte, s.pt n = some pte ∧ pte &&& A.PTE_V ≠ 0 ∧
          ¬ (A.PTE2PA pte % PGSIZE = 0 ∧ end_ ≤ A.PTE2PA pte ∧ A.PTE2PA pte < PHYSTOP)) := by
  cases hw : walk s (sext va) with
  | none => right; left; simp only [munmap_private_page, hw]
  | some n =>
    obtain ⟨_, pte, hpte⟩ := walk_some hw
    simp only [munmap_private_page, hw, hpte, Option.getD_some]
    by_cases hv : pte &&& A.PTE_V ≠ 0
    · rw [if_pos hv]
      rcases kfree_cases end_ PHYSTOP s.kmem cpu (A.PTE2PA pte) with ⟨_, _, _, e⟩ | e
      · left
        rw [e]
        refine ⟨_, rfl, rfl, rfl, rfl, ?_⟩
        intro n' pte' h'
        simp only [Function.update_apply] at h'
        split at h'
        · injection h' with h'
          exact Or.inl h'.symm
        · exact Or.inr h'
      · right; right; right
        refine ⟨by rw [e]; rfl, n, pte, hpte, hv, ?_⟩
        intro hval
        rw [kfree_eq end_ PHYSTOP s.kmem cpu _ hval.1 hval.2.1 hval.2.2] at e
        cases e
    · rw [if_neg hv]
      exact Or.inl ⟨s, rfl, rfl, rfl, rfl, fun _ _ h => Or.inr h⟩

theorem fileclose_cases (s : MState) (f : Nat) :
    ((s.ftable f).ref < 1 ∧ fileclose s f = .panic .fileclose) ∨
      (1 ≤ (s.ftable f).ref ∧ ∃ s', fileclose s f = .ret s' ∧ s'.mmaptable = s.mmaptable ∧
        s'.slots = s.slots) := by
  by_cases h : (s.ftable f).ref < 1
  · left
    exact ⟨h, by simp [fileclose, h]⟩
  · right
    refine ⟨by omega, ?_⟩
    unfold fileclose
    simp only [h, if_false]
    split
    · exact ⟨_, rfl, rfl, rfl⟩
    · cases (s.ftable f).type <;> exact ⟨_, rfl, rfl, rfl⟩

theorem mmapclose_cases (s : MState) (m : Nat) :
    ((s.mmaptable m).file = none ∧ mmapclose s m = .panic .mmapclose) ∨
      (∃ f, (s.mmaptable m).file = some f ∧
        (((s.ftable f).ref < 1 ∧ mmapclose s m = .panic .fileclose) ∨
          (1 ≤ (s.ftable f).ref ∧ ∃ s', mmapclose s m = .ret s'))) := by
  cases e : (s.mmaptable m).file with
  | none => left; exact ⟨rfl, by simp [mmapclose, e]⟩
  | some f =>
    right
    refine ⟨f, rfl, ?_⟩
    rcases fileclose_cases s f with ⟨h1, h2⟩ | ⟨h1, s', h2, _⟩
    · left
      exact ⟨h1, by simp [mmapclose, e, h2, Outcome.bind]⟩
    · right
      refine ⟨h1, ?_⟩
      simp only [mmapclose, e, h2, Outcome.bind]
      exact ⟨_, rfl⟩

theorem loop_start_ok (addr : Nat) (ha : addr % PGSIZE = 0) :
    addr % 2 ^ 32 % PGSIZE = 0 ∧ addr % 2 ^ 32 < 2 ^ 32 ∧
      (2 ^ 32 - 4096 - addr % 2 ^ 32) / 4096 < 2 ^ 20 + 1 := by
  unfold PGSIZE at *
  norm_num
  omega

theorem bound_ok (addr len : Nat) (ha : addr % PGSIZE = 0) (hl : len % PGSIZE = 0) :
    (addr + len) % 2 ^ 64 % PGSIZE = 0 ∧ (addr + len) % 2 ^ 64 < 2 ^ 64 := by
  unfold PGSIZE at *
  norm_num
  omega

/-- Once a slot is matched, `munmap` returns 0 or halts; it never loops for ever and
returns nothing else. -/
theorem munmap_matched_cases (A : Arch) (E : Env) (end_ PHYSTOP cpu : Nat) (s : MState)
    (addr len i m : Nat) (M : Mmap) (ha : addr % PGSIZE = 0) (hl : len % PGSIZE = 0) :
    (∃ s', munmap_matched A E end_ PHYSTOP cpu s addr len i m M = .ret (0, s')) ∨
      haltsIn (fun _ => True) True (munmap_matched A E end_ PHYSTOP cpu s addr len i m M) := by
  obtain ⟨hs1, hs2, hs3⟩ := loop_start_ok addr ha
  obtain ⟨hb1, hb2⟩ := bound_ok addr len ha hl
  have tail : ∀ s1 : MState,
      (∃ s', (if (s1.mmaptable m).len = 0 then
          (mmapclose { s1 with slots := Function.update s1.slots i none } m).bind fun s =>
            Outcome.ret ((0 : Int), s)
        else Outcome.ret (0, s1)) = .ret (0, s')) ∨
      haltsIn (fun _ => True) True (if (s1.mmaptable m).len = 0 then
          (mmapclose { s1 with slots := Function.update s1.slots i none } m).bind fun s =>
            Outcome.ret ((0 : Int), s)
        else Outcome.ret (0, s1)) := by
    intro s1
    split
    · rcases mmapclose_cases { s1 with slots := Function.update s1.slots i none } m with
        ⟨_, e⟩ | ⟨f, _, ⟨_, e⟩ | ⟨_, s', e⟩⟩
      · right; rw [e]; exact Or.inl ⟨_, trivial, rfl⟩
      · right; rw [e]; exact Or.inl ⟨_, trivial, rfl⟩
      · left; rw [e]; exact ⟨s', rfl⟩
    · exact Or.inl ⟨s1, rfl⟩
  unfold munmap_matched
  simp only
  by_cases hsh : M.flag &&& A.MAP_SHARED ≠ 0
  · rw [if_pos hsh]
    cases hf : M.file with
    | none => right; exact Or.inr ⟨trivial, rfl⟩
    | some f =>
      simp only
      have hloop := munmap_loop_cases
        (munmap_shared_page A E end_ PHYSTOP cpu (s.ftable f).ip (M.len % 2 ^ 32) addr)
        ((addr + len) % 2 ^ 64) (fun _ => True) (fun _ => True) True
        (fun s1 va _ => by
          rcases munmap_shared_page_cases A E end_ PHYSTOP cpu (s.ftable f).ip
            (M.len % 2 ^ 32) addr s1 va with ⟨s', e, _⟩ | e | e | ⟨e, _⟩
          · exact Or.inl ⟨s', e, trivial⟩
          · exact Or.inr (Or.inl ⟨_, trivial, e⟩)
          · exact Or.inr (Or.inl ⟨_, trivial, e⟩)
          · exact Or.inr (Or.inl ⟨_, trivial, e⟩))
        hb1 hb2 (2 ^ 20 + 1)
        { s with log := s.log ++ [Event.begin_op, Event.ilock (s.ftable f).ip] }
        (addr % 2 ^ 32) trivial hs1 hs2 hs3
      rcases hloop with ⟨s1, e, _⟩ | hh
      · rw [e]
        exact tail { s1 with log := s1.log ++ [Event.iunlock (s.ftable f).ip, Event.end_op] }
      · exact Or.inr (haltsIn_bind _ (haltsIn_bind _ hh))
  · rw [if_neg hsh]
    have hloop := munmap_loop_cases (munmap_private_page A end_ PHYSTOP cpu)
      ((addr + len) % 2 ^ 64) (fun _ => True) (fun _ => True) True
      (fun s1 va _ => by
        rcases munmap_private_page_cases A end_ PHYSTOP cpu s1 va with
          ⟨s', e, _⟩ | e | e | ⟨e, _⟩
        · exact Or.inl ⟨s', e, trivial⟩
        · exact Or.inr (Or.inl ⟨_, trivial, e⟩)
        · exact Or.inr (Or.inl ⟨_, trivial, e⟩)
        · exact Or.inr (Or.inl ⟨_, trivial, e⟩))
      hb1 hb2 (2 ^ 20 + 1) s (addr % 2 ^ 32) trivial hs1 hs2 hs3
    rcases hloop with ⟨s1, e, _⟩ | hh
    · rw [e]
      exact tail s1
    · exact Or.inr (haltsIn_bind _ hh)


/-- Once a slot is matched, in a state whose present pages are pages of the allocator and
whose mapping has a file with a positive reference count, `munmap` returns 0 or panics
in `walk` or in the write-back. -/
theorem munmap_matched_valid (A : Arch) (E : Env) (end_ PHYSTOP cpu : Nat) (s : MState)
    (addr len i m : Nat) (M : Mmap) (ha : addr % PGSIZE = 0) (hl : len % PGSIZE = 0)
    (hpt : ∀ n pte, s.pt n = some pte → pte &&& A.PTE_V ≠ 0 →
      A.PTE2PA pte % PGSIZE = 0 ∧ end_ ≤ A.PTE2PA pte ∧ A.PTE2PA pte < PHYSTOP)
    (hfile : ∃ f, M.file = some f ∧ (s.mmaptable m).file = some f ∧ 1 ≤ (s.ftable f).ref) :
    (∃ s', munmap_matched A E end_ PHYSTOP cpu s addr len i m M = .ret (0, s')) ∨
      haltsIn (fun t => t = .munmap_walk ∨ t = .munmap_writei) False
        (munmap_matched A E end_ PHYSTOP cpu s addr len i m M) := by
  obtain ⟨hs1, hs2, hs3⟩ := loop_start_ok addr ha
  obtain ⟨hb1, hb2⟩ := bound_ok addr len ha hl
  obtain ⟨f, hMf, hmf, href⟩ := hfile
  have tail : ∀ s1 : MState, s1.mmaptable = s.mmaptable → s1.ftable = s.ftable →
      ∃ s', (if (s1.mmaptable m).len = 0 then
          (mmapclose { s1 with slots := Function.update s1.slots i none } m).bind fun s =>
            Outcome.ret ((0 : Int), s)
        else Outcome.ret (0, s1)) = .ret (0, s') := by
    intro s1 e1 e2
    split
    · rcases mmapclose_cases { s1 with slots := Function.update s1.slots i none } m with
        ⟨e0, _⟩ | ⟨f', ef, ⟨hlt, _⟩ | ⟨_, s', e⟩⟩
      · simp only [e1, hmf] at e0
        cases e0
      · simp only [e1, hmf] at ef
        injection ef with ef
        subst ef
        simp only [e2] at hlt
        omega
      · rw [e]; exact ⟨s', rfl⟩
    · exact ⟨s1, rfl⟩
  have body : ∀ (bodyf : MState → Nat → Outcome MState),
      (∀ s1 va, (∃ s', bodyf s1 va = .ret s' ∧
        s'.mmaptable = s1.mmaptable ∧ s'.ftable = s1.ftable ∧ s'.slots = s1.slots ∧
        ∀ n pte, s'.pt n = some pte → pte = 0 ∨ s1.pt n = some pte) ∨
      bodyf s1 va = .panic .munmap_walk ∨ bodyf s1 va = .panic .munmap_writei ∨
      (bodyf s1 va = .panic .kfree ∧
        ∃ n pte, s1.pt n = some pte ∧ pte &&& A.PTE_V ≠ 0 ∧
          ¬ (A.PTE2PA pte % PGSIZE = 0 ∧ end_ ≤ A.PTE2PA pte ∧ A.PTE2PA pte < PHYSTOP))) →
      ∀ s1 va, ((∀ n pte, s1.pt n = some pte → pte &&& A.PTE_V ≠ 0 →
          A.PTE2PA pte % PGSIZE = 0 ∧ end_ ≤ A.PTE2PA pte ∧ A.PTE2PA pte < PHYSTOP) ∧
          s1.mmaptable = s.mmaptable ∧ s1.ftable = s.ftable) →
        (∃ s', bodyf s1 va = .ret s' ∧
          ((∀ n pte, s'.pt n = some pte → pte &&& A.PTE_V ≠ 0 →
            A.PTE2PA pte % PGSIZE = 0 ∧ end_ ≤ A.PTE2PA pte ∧ A.PTE2PA pte < PHYSTOP) ∧
            s'.mmaptable = s.mmaptable ∧ s'.ftable = s.ftable)) ∨
        haltsIn (fun t => t = .munmap_walk ∨ t = .munmap_writei) False (bodyf s1 va) := by
    intro bodyf hcases s1 va ⟨h1, h2, h3⟩
    rcases hcases s1 va with ⟨s', e, e1, e2, _, e4⟩ | e | e | ⟨_, n, pte, hn, hv, hbad⟩
    · left
      refine ⟨s', e, ?_, by rw [e1, h2], by rw [e2, h3]⟩
      intro n pte hn hv
      rcases e4 n pte hn with e0 | hold
      · rw [e0] at hv
        simp at hv
      · exact h1 n pte hold hv
    · exact Or.inr (Or.inl ⟨_, Or.inl rfl, e⟩)
    · exact Or.inr (Or.inl ⟨_, Or.inr rfl, e⟩)
    · exact absurd (h1 n pte hn hv) hbad
  unfold munmap_matched
  simp only
  by_cases hsh : M.flag &&& A.MAP_SHARED ≠ 0
  · rw [if_pos hsh]
    simp only [hMf]
    have hloop := munmap_loop_cases
      (munmap_shared_page A E end_ PHYSTOP cpu (s.ftable f).ip (M.len % 2 ^ 32) addr)
      ((addr + len) % 2 ^ 64) _ _ False
      (body _ (munmap_shared_page_cases A E end_ PHYSTOP cpu (s.ftable f).ip
        (M.len % 2 ^ 32) addr))
      hb1 hb2 (2 ^ 20 + 1)
      { s with log := s.log ++ [Event.begin_op, Event.ilock (s.ftable f).ip] }
      (addr % 2 ^ 32) ⟨hpt, rfl, rfl⟩ hs1 hs2 hs3
    rcases hloop with ⟨s1, e, _, e1, e2⟩ | hh
    · rw [e]
      exact Or.inl (tail { s1 with log := s1.log ++ [Event.iunlock (s.ftable f).ip, Event.end_op] }
        e1 e2)
    · exact Or.inr (haltsIn_bind _ (haltsIn_bind _ hh))
  · rw [if_neg hsh]
    have hloop := munmap_loop_cases (munmap_private_page A end_ PHYSTOP cpu)
      ((addr + len) % 2 ^ 64) _ _ False
      (body _ (munmap_private_page_cases A end_ PHYSTOP cpu))
      hb1 hb2 (2 ^ 20 + 1) s (addr % 2 ^ 32) ⟨hpt, rfl, rfl⟩ hs1 hs2 hs3
    rcases hloop with ⟨s1, e, _, e1, e2⟩ | hh
    · rw [e]
      exact Or.inl (tail s1 e1 e2)
    · exact Or.inr (haltsIn_bind _ hh)

/-- The slot loop of `munmap`: it returns -1 with the state unchanged when no slot is cut at
an edge, and continues with the first slot that is. -/
theorem munmap_slots_cases (A : Arch) (E : Env) (end_ PHYSTOP cpu : Nat) (s : MState)
    (addr len : Nat) : ∀ (n i : Nat),
    ((∀ j, i ≤ j → j < i + n → ¬ cuts_edge s addr len j) ∧
        munmap_slots A E end_ PHYSTOP cpu s addr len n i = .ret (-1, s)) ∨
      (∃ j m, i ≤ j ∧ j < i + n ∧ s.slots j = some m ∧ cuts_edge s addr len j ∧
        (∀ k, i ≤ k → k < j → ¬ cuts_edge s addr len k) ∧
        munmap_slots A E end_ PHYSTOP cpu s addr len n i =
          munmap_matched A E end_ PHYSTOP cpu
            { s with mmaptable :=
                Function.update s.mmaptable m (munmap_cut (s.mmaptable m) addr len) }
            addr len j m (s.mmaptable m))
  | 0, i => Or.inl ⟨fun j h1 h2 => by omega, rfl⟩
  | n + 1, i => by
    have ih := munmap_slots_cases A E end_ PHYSTOP cpu s addr len n (i + 1)
    have skip : ¬ cuts_edge s addr len i →
        munmap_slots A E end_ PHYSTOP cpu s addr len (n + 1) i =
          munmap_slots A E end_ PHYSTOP cpu s addr len n (i + 1) →
        ((∀ j, i ≤ j → j < i + (n + 1) → ¬ cuts_edge s addr len j) ∧
          munmap_slots A E end_ PHYSTOP cpu s addr len (n + 1) i = .ret (-1, s)) ∨
        (∃ j m, i ≤ j ∧ j < i + (n + 1) ∧ s.slots j = some m ∧ cuts_edge s addr len j ∧
          (∀ k, i ≤ k → k < j → ¬ cuts_edge s addr len k) ∧
          munmap_slots A E end_ PHYSTOP cpu s addr len (n + 1) i =
            munmap_matched A E end_ PHYSTOP cpu
              { s with mmaptable :=
                  Function.update s.mmaptable m (munmap_cut (s.mmaptable m) addr len) }
              addr len j m (s.mmaptable m)) := by
      intro hno heq
      rcases ih with ⟨h1, h2⟩ | ⟨j, m, h1, h2, h3, h4, h5, h6⟩
      · left
        refine ⟨?_, by rw [heq, h2]⟩
        intro j hj1 hj2
        by_cases e : j = i
        · rw [e]; exact hno
        · exact h1 j (by omega) (by omega)
      · right
        refine ⟨j, m, by omega, by omega, h3, h4, ?_, by rw [heq, h6]⟩
        intro k hk1 hk2
        by_cases e : k = i
        · rw [e]; exact hno
        · exact h5 k (by omega) hk2
    cases hs : s.slots i with
    | none =>
      apply skip
      · rintro ⟨m, hm, _⟩
        rw [hs] at hm; cases hm
      · simp only [munmap_slots, hs]
    | some m =>
      by_cases h1 : (s.mmaptable m).addr = addr
      · right
        refine ⟨i, m, le_refl _, by omega, hs, ⟨m, hs, Or.inl h1⟩, fun k a b => by omega, ?_⟩
        simp only [munmap_slots, hs, munmap_cut]
        rw [if_pos h1, if_pos h1]
      · by_cases h2 : ((s.mmaptable m).addr + (s.mmaptable m).len) % 2 ^ 64 = (addr + len) % 2 ^ 64
        · right
          refine ⟨i, m, le_refl _, by omega, hs, ⟨m, hs, Or.inr h2⟩, fun k a b => by omega, ?_⟩
          simp only [munmap_slots, hs, munmap_cut]
          rw [if_neg h1, if_pos h2, if_neg h1]
        · apply skip
          · rintro ⟨m', hm', hc⟩
            rw [hs] at hm'
            injection hm' with hm'
            subst hm'
            rcases hc with hc | hc
            · exact h1 hc
            · exact h2 hc
          · simp only [munmap_slots, hs]
            rw [if_neg h1, if_neg h2]


theorem fileclose_effect (s s' : MState) (f : Nat) (h : fileclose s f = .ret s') :
    1 ≤ (s.ftable f).ref ∧ s'.mmaptable = s.mmaptable ∧ s'.slots = s.slots ∧
      s'.pt = s.pt ∧ s'.kmem = s.kmem ∧
      (s'.ftable f).ref = (s.ftable f).ref - 1 ∧ ∀ g, g ≠ f → s'.ftable g = s.ftable g := by
  unfold fileclose at h
  by_cases h1 : (s.ftable f).ref < 1
  · rw [if_pos h1] at h
    cases h
  · rw [if_neg h1] at h
    refine ⟨by omega, ?_⟩
    by_cases h2 : (s.ftable f).ref - 1 > 0
    · rw [if_pos h2] at h
      injection h with h
      subst h
      refine ⟨rfl, rfl, rfl, rfl, by simp, ?_⟩
      intro g hg
      simp [Function.update_apply, hg]
    · rw [if_neg h2] at h
      have h0 : (s.ftable f).ref - 1 = 0 := by omega
      cases ht : (s.ftable f).type <;> simp only [ht] at h <;> injection h with h <;>
        subst h <;>
        exact ⟨rfl, rfl, rfl, rfl, by simp [h0],
          fun g hg => by simp [Function.update_apply, hg]⟩

theorem mmapclose_effect (s s' : MState) (m : Nat) (h : mmapclose s m = .ret s') :
    ∃ f, (s.mmaptable m).file = some f ∧ 1 ≤ (s.ftable f).ref ∧
      s'.mmaptable = Function.update s.mmaptable m { s.mmaptable m with file := none } ∧
      s'.slots = s.slots ∧ s'.pt = s.pt ∧ s'.kmem = s.kmem ∧
      (s'.ftable f).ref = (s.ftable f).ref - 1 ∧ ∀ g, g ≠ f → s'.ftable g = s.ftable g := by
  unfold mmapclose at h
  cases e : (s.mmaptable m).file with
  | none => rw [e] at h; cases h
  | some f =>
    rw [e] at h
    simp only at h
    cases e1 : fileclose s f with
    | ret s1 =>
      rw [e1] at h
      simp only [Outcome.bind] at h
      injection h with h
      subst h
      obtain ⟨a, b, c, d, e2, g1, g2⟩ := fileclose_effect s s1 f e1
      exact ⟨f, rfl, a, by simp only [b], c, d, e2, g1, g2⟩
    | panic t => rw [e1] at h; cases h
    | fault => rw [e1] at h; cases h
    | hang => rw [e1] at h; cases h


theorem bind_ret {α β : Type} {r : Outcome α} {f : α → Outcome β} {b : β}
    (h : r.bind f = .ret b) : ∃ a, r = .ret a ∧ f a = .ret b := by
  cases r with
  | ret a => exact ⟨a, rfl, h⟩
  | panic t => cases h
  | fault => cases h
  | hang => cases h

/-- What holds before the page loop and is kept by its body holds when the loop returns. -/
theorem munmap_loop_ret (body : MState → Nat → Outcome MState) (bound : Nat)
    (P : MState → Prop) (hbody : ∀ s va s', body s va = .ret s' → P s → P s') :
    ∀ (fuel : Nat) (s : MState) (va : Nat) (s' : MState),
      munmap_loop body bound fuel s va = .ret s' → P s → P s'
  | 0, s, va, s', h, _ => by cases h
  | fuel + 1, s, va, s', h, hP => by
    simp only [munmap_loop] at h
    split at h
    · obtain ⟨s1, e1, e2⟩ := bind_ret h
      exact munmap_loop_ret body bound P hbody fuel s1 _ s' e2 (hbody s va s1 e1 hP)
    · injection h with h
      rw [← h]; exact hP

theorem munmap_shared_page_keeps (A : Arch) (E : Env) (end_ PHYSTOP cpu ip mlen addr : Nat)
    (s : MState) (va : Nat) (s' : MState)
    (h : munmap_shared_page A E end_ PHYSTOP cpu ip mlen addr s va = .ret s') :
    s'.mmaptable = s.mmaptable ∧ s'.ftable = s.ftable ∧ s'.slots = s.slots := by
  rcases munmap_shared_page_cases A E end_ PHYSTOP cpu ip mlen addr s va with
    ⟨s1, e, a, b, c, _⟩ | e | e | ⟨e, _⟩
  · rw [e] at h
    injection h with h
    subst h
    exact ⟨a, b, c⟩
  · rw [e] at h; cases h
  · rw [e] at h; cases h
  · rw [e] at h; cases h

theorem munmap_private_page_keeps (A : Arch) (end_ PHYSTOP cpu : Nat)
    (s : MState) (va : Nat) (s' : MState)
    (h : munmap_private_page A end_ PHYSTOP cpu s va = .ret s') :
    s'.mmaptable = s.mmaptable ∧ s'.ftable = s.ftable ∧ s'.slots = s.slots := by
  rcases munmap_private_page_cases A end_ PHYSTOP cpu s va with
    ⟨s1, e, a, b, c, _⟩ | e | e | ⟨e, _⟩
  · rw [e] at h
    injection h with h
    subst h
    exact ⟨a, b, c⟩
  · rw [e] at h; cases h
  · rw [e] at h; cases h
  · rw [e] at h; cases h

/-- The effect of `munmap` after the match, on the mapping table, the slots and the file
table, when it returns: nothing more when the mapping keeps a length, and the release of
the slot, of the descriptor and of one file reference when its length is 0. -/
theorem munmap_matched_effect (A : Arch) (E : Env) (end_ PHYSTOP cpu : Nat) (s : MState)
    (addr len i m : Nat) (M : Mmap) (r : Int) (s' : MState)
    (h : munmap_matched A E end_ PHYSTOP cpu s addr len i m M = .ret (r, s')) :
    r = 0 ∧
    (((s.mmaptable m).len ≠ 0 ∧ s'.mmaptable = s.mmaptable ∧ s'.slots = s.slots ∧
        s'.ftable = s.ftable) ∨
      ((s.mmaptable m).len = 0 ∧ s'.slots = Function.update s.slots i none ∧
        ∃ f, (s.mmaptable m).file = some f ∧ 1 ≤ (s.ftable f).ref ∧
          s'.mmaptable = Function.update s.mmaptable m { s.mmaptable m with file := none } ∧
          (s'.ftable f).ref = (s.ftable f).ref - 1 ∧ ∀ g, g ≠ f → s'.ftable g = s.ftable g)) := by
  have tail : ∀ s1 : MState, s1.mmaptable = s.mmaptable → s1.ftable = s.ftable →
      s1.slots = s.slots →
      (if (s1.mmaptable m).len = 0 then
          (mmapclose { s1 with slots := Function.update s1.slots i none } m).bind fun s =>
            Outcome.ret ((0 : Int), s)
        else Outcome.ret (0, s1)) = .ret (r, s') →
      r = 0 ∧
      (((s.mmaptable m).len ≠ 0 ∧ s'.mmaptable = s.mmaptable ∧ s'.slots = s.slots ∧
          s'.ftable = s.ftable) ∨
        ((s.mmaptable m).len = 0 ∧ s'.slots = Function.update s.slots i none ∧
          ∃ f, (s.mmaptable m).file = some f ∧ 1 ≤ (s.ftable f).ref ∧
            s'.mmaptable = Function.update s.mmaptable m { s.mmaptable m with file := none } ∧
            (s'.ftable f).ref = (s.ftable f).ref - 1 ∧
            ∀ g, g ≠ f → s'.ftable g = s.ftable g)) := by
    intro s1 e1 e2 e3 ht
    by_cases h0 : (s1.mmaptable m).len = 0
    · rw [if_pos h0] at ht
      obtain ⟨s2, c1, c2⟩ := bind_ret ht
      injection c2 with c2
      injection c2 with c2 c3
      subst c3
      obtain ⟨f, f1, f2, f3, f4, _, _, f5, f6⟩ := mmapclose_effect _ _ m c1
      refine ⟨c2.symm, Or.inr ⟨by rw [← e1]; exact h0, ?_, f, ?_, ?_, ?_, ?_, ?_⟩⟩
      · rw [f4, ← e3]
      · rw [← e1]; exact f1
      · rw [← e2]; exact f2
      · rw [f3, ← e1]
      · rw [f5, ← e2]
      · intro g hg
        rw [f6 g hg, ← e2]
    · rw [if_neg h0] at ht
      injection ht with ht
      injection ht with c2 c3
      subst c3
      exact ⟨c2.symm, Or.inl ⟨by rw [← e1]; exact h0, e1, e3, e2⟩⟩
  unfold munmap_matched at h
  simp only at h
  obtain ⟨s1, c1, c2⟩ := bind_ret h
  by_cases hsh : M.flag &&& A.MAP_SHARED ≠ 0
  · rw [if_pos hsh] at c1
    cases hf : M.file with
    | none => rw [hf] at c1; cases c1
    | some f =>
      rw [hf] at c1
      simp only at c1
      obtain ⟨s0, d1, d2⟩ := bind_ret c1
      injection d2 with d2
      subst d2
      have hk := munmap_loop_ret _ _
        (fun t : MState => t.mmaptable = s.mmaptable ∧ t.ftable = s.ftable ∧ t.slots = s.slots)
        (fun t va t' e ht => by
          obtain ⟨a, b, c⟩ := munmap_shared_page_keeps A E end_ PHYSTOP cpu _ _ addr t va t' e
          exact ⟨a.trans ht.1, b.trans ht.2.1, c.trans ht.2.2⟩)
        _ _ _ _ d1 ⟨rfl, rfl, rfl⟩
      exact tail { s0 with log := s0.log ++ [Event.iunlock (s.ftable f).ip, Event.end_op] }
        hk.1 hk.2.1 hk.2.2 c2
  · rw [if_neg hsh] at c1
    have hk := munmap_loop_ret _ _
      (fun t : MState => t.mmaptable = s.mmaptable ∧ t.ftable = s.ftable ∧ t.slots = s.slots)
      (fun t va t' e ht => by
        obtain ⟨a, b, c⟩ := munmap_private_page_keeps A end_ PHYSTOP cpu t va t' e
        exact ⟨a.trans ht.1, b.trans ht.2.1, c.trans ht.2.2⟩)
      _ _ _ _ c1 ⟨rfl, rfl, rfl⟩
    exact tail _ hk.1 hk.2.1 hk.2.2 c2


theorem munmap_cut_file (M : Mmap) (addr len : Nat) : (munmap_cut M addr len).file = M.file := by
  unfold munmap_cut
  split <;> rfl

/-- When no sum overflows, the 64-bit comparison of the ends made by `munmap` is the
comparison of the plain sums. -/
theorem cuts_edge_plain (s : MState) (addr len i : Nat) (h : addr + len < 2 ^ 64)
    (hm : ∀ m, s.slots i = some m → (s.mmaptable m).addr + (s.mmaptable m).len < 2 ^ 64) :
    cuts_edge s addr len i ↔
      ∃ m, s.slots i = some m ∧ ((s.mmaptable m).addr = addr ∨
        (s.mmaptable m).addr + (s.mmaptable m).len = addr + len) := by
  unfold cuts_edge
  constructor
  · rintro ⟨m, e, hc⟩
    refine ⟨m, e, ?_⟩
    rw [Nat.mod_eq_of_lt h, Nat.mod_eq_of_lt (hm m e)] at hc
    exact hc
  · rintro ⟨m, e, hc⟩
    refine ⟨m, e, ?_⟩
    rw [Nat.mod_eq_of_lt h, Nat.mod_eq_of_lt (hm m e)]
    exact hc

/-- C8. `munmap(addr, len)` returns -1 if and only if `addr` is not a multiple of `PGSIZE`,
or `len` is not, or no slot of the process holds a mapping that starts at `addr` or ends
at `addr + len` (64-bit sums, as the code compares them); when it returns -1 the state is
the state before the call. In every other case it returns 0 or halts, and it never runs
for ever; in a state in which every present page is a page of the allocator and every
mapping in a slot has a file with a reference, it halts only on a failed `walk` or
write-back. -/
theorem munmap_fails_iff_no_edge_cut (A : Arch) (E : Env) (end_ PHYSTOP cpu : Nat) (s : MState)
    (addr len : Nat) (ha : addr < 2 ^ 64) (hl : len < 2 ^ 64) :
    ((∃ s', munmap A E end_ PHYSTOP cpu s addr len = .ret (-1, s')) ↔
      (addr % PGSIZE ≠ 0 ∨ len % PGSIZE ≠ 0 ∨
        ∀ i, i < A.NOFILE → ¬ cuts_edge s addr len i)) ∧
    (∀ s', munmap A E end_ PHYSTOP cpu s addr len = .ret (-1, s') → s' = s) ∧
    (¬ (addr % PGSIZE ≠ 0 ∨ len % PGSIZE ≠ 0 ∨
        ∀ i, i < A.NOFILE → ¬ cuts_edge s addr len i) →
      ((∃ s', munmap A E end_ PHYSTOP cpu s addr len = .ret (0, s')) ∨
        haltsIn (fun _ => True) True (munmap A E end_ PHYSTOP cpu s addr len)) ∧
      (MapsValid A end_ PHYSTOP s →
        (∃ s', munmap A E end_ PHYSTOP cpu s addr len = .ret (0, s')) ∨
        haltsIn (fun t => t = .munmap_walk ∨ t = .munmap_writei) False
          (munmap A E end_ PHYSTOP cpu s addr len))) := by
  have e1 : addr % 2 ^ 64 = addr := Nat.mod_eq_of_lt ha
  have e2 : len % 2 ^ 64 = len := Nat.mod_eq_of_lt hl
  by_cases h1 : addr % PGSIZE ≠ 0
  · have e : munmap A E end_ PHYSTOP cpu s addr len = .ret (-1, s) := by
      unfold munmap
      simp only [e1, e2]
      rw [if_pos h1]
    rw [e]
    refine ⟨⟨fun _ => Or.inl h1, fun _ => ⟨s, rfl⟩⟩, ?_, fun h => absurd (Or.inl h1) h⟩
    intro s' h
    injection h with h
    injection h with _ h
    exact h.symm
  by_cases h2 : len % PGSIZE ≠ 0
  · have e : munmap A E end_ PHYSTOP cpu s addr len = .ret (-1, s) := by
      unfold munmap
      simp only [e1, e2]
      rw [if_neg h1, if_pos h2]
    rw [e]
    refine ⟨⟨fun _ => Or.inr (Or.inl h2), fun _ => ⟨s, rfl⟩⟩, ?_,
      fun h => absurd (Or.inr (Or.inl h2)) h⟩
    intro s' h
    injection h with h
    injection h with _ h
    exact h.symm
  have e : munmap A E end_ PHYSTOP cpu s addr len =
      munmap_slots A E end_ PHYSTOP cpu s addr len A.NOFILE 0 := by
    unfold munmap
    simp only [e1, e2]
    rw [if_neg h1, if_neg h2]
  rw [e]
  have h1' : addr % PGSIZE = 0 := by omega
  have h2' : len % PGSIZE = 0 := by omega
  rcases munmap_slots_cases A E end_ PHYSTOP cpu s addr len A.NOFILE 0 with
    ⟨hno, er⟩ | ⟨j, m, _, hj, hs, hcut, _, er⟩
  · rw [er]
    have hall : ∀ i, i < A.NOFILE → ¬ cuts_edge s addr len i :=
      fun i hi => hno i (Nat.zero_le _) (by omega)
    refine ⟨⟨fun _ => Or.inr (Or.inr hall), fun _ => ⟨s, rfl⟩⟩, ?_,
      fun h => absurd (Or.inr (Or.inr hall)) h⟩
    intro s' h
    injection h with h
    injection h with _ h
    exact h.symm
  · rw [er]
    have hnot : ¬ (addr % PGSIZE ≠ 0 ∨ len % PGSIZE ≠ 0 ∨
        ∀ i, i < A.NOFILE → ¬ cuts_edge s addr len i) := by
      rintro (h | h | h)
      · exact h1 h
      · exact h2 h
      · exact h j (by omega) hcut
    have hnone : ∀ s', munmap_matched A E end_ PHYSTOP cpu
        { s with mmaptable :=
            Function.update s.mmaptable m (munmap_cut (s.mmaptable m) addr len) }
        addr len j m (s.mmaptable m) ≠ .ret (-1, s') := by
      intro s' h
      have := (munmap_matched_effect A E end_ PHYSTOP cpu _ addr len j m _ _ _ h).1
      omega
    refine ⟨⟨fun ⟨s', h⟩ => absurd h (hnone s'), fun h => absurd h hnot⟩,
      fun s' h => absurd h (hnone s'), fun _ => ⟨?_, ?_⟩⟩
    · exact munmap_matched_cases A E end_ PHYSTOP cpu _ addr len j m _ h1' h2'
    · intro hv
      obtain ⟨f, hf, hr⟩ := hv.2 j m hs
      refine munmap_matched_valid A E end_ PHYSTOP cpu
        { s with mmaptable :=
            Function.update s.mmaptable m (munmap_cut (s.mmaptable m) addr len) }
        addr len j m _ h1' h2' hv.1 ⟨f, hf, ?_, hr⟩
      simp only [Function.update_same, munmap_cut_file]
      exact hf

/-- C8, at a concrete input: in `demo_mstate` (one mapping, of `[0x10000, 0x12000)`) the
call `munmap(0x10000, 0x1000)` returns 0 and a cut in the middle of nothing,
`munmap(0x14000, 0x1000)`, returns -1. -/
theorem munmap_fails_iff_no_edge_cut_witness :
    retval (munmap rv39 demo_env 4096 20480 0 demo_mstate 0x10000 0x1000) = some 0 ∧
    retval (munmap rv39 demo_env 4096 20480 0 demo_mstate 0x14000 0x1000) = some (-1) ∧
    ((∃ s', munmap rv39 demo_env 4096 20480 0 demo_mstate 0x14000 0x1000 = .ret (-1, s')) ↔
      (0x14000 % PGSIZE ≠ 0 ∨ 0x1000 % PGSIZE ≠ 0 ∨
        ∀ i, i < rv39.NOFILE → ¬ cuts_edge demo_mstate 0x14000 0x1000 i)) :=
  ⟨by decide, by decide,
    (munmap_fails_iff_no_edge_cut rv39 demo_env 4096 20480 0 demo_mstate 0x14000 0x1000
      (by norm_num) (by norm_num)).1⟩


/-- The zero-filling loop of `mmap_fault_handler` ends, and zeroes the bytes of the page
from `r` on. -/
theorem zero_tail_eq (mem : Nat) (hm : mem + PGSIZE ≤ 2 ^ 64) :
    ∀ (fuel : Nat) (m : Nat → Nat) (r : Nat), r ≤ PGSIZE → PGSIZE - r < fuel →
      ∃ m', zero_tail mem fuel m (r : Int) = .ret m' ∧
        ∀ x, m' x = if mem + r ≤ x ∧ x < mem + PGSIZE then 0 else m x
  | 0, m, r, _, hf => by omega
  | fuel + 1, m, r, hr, hf => by
    simp only [zero_tail]
    by_cases hlt : (r : Int) < (PGSIZE : Nat)
    · rw [if_pos hlt]
      have hr' : r < PGSIZE := by exact_mod_cast hlt
      have haddr : ((((mem : Int) + (r : Int)) % 2 ^ 64).toNat) = mem + r := by
        have h1 : ((mem : Int) + (r : Int)) = ((mem + r : Nat) : Int) := by push_cast; rfl
        rw [h1]
        have h2 : ((mem + r : Nat) : Int) % 2 ^ 64 = ((mem + r : Nat) : Int) := by
          apply Int.emod_eq_of_lt
          · exact Int.ofNat_nonneg _
          · have : mem + r < 2 ^ 64 := by omega
            exact_mod_cast this
        rw [h2]
        exact Int.toNat_natCast _
      have hr1 : ((r : Int) + 1) = ((r + 1 : Nat) : Int) := by push_cast; rfl
      rw [haddr, hr1]
      obtain ⟨m', e, hm'⟩ := zero_tail_eq mem hm fuel (Function.update m (mem + r) 0) (r + 1)
        (by omega) (by omega)
      refine ⟨m', e, ?_⟩
      intro x
      rw [hm' x]
      by_cases hx : x = mem + r
      · subst hx
        simp [hr']
      · rw [Function.update_noteq hx]
        by_cases hc : mem + r ≤ x ∧ x < mem + PGSIZE
        · rw [if_pos hc, if_pos]
          omega
        · rw [if_neg hc, if_neg]
          omega
    · rw [if_neg hlt]
      have hr' : ¬ r < PGSIZE := by
        intro h
        exact hlt (by exact_mod_cast h)
      refine ⟨m, rfl, ?_⟩
      intro x
      rw [if_neg]
      omega

/-- The slot loop of `mmap_fault_handler`: it frees the page and returns -1 when no slot
covers the page, and loads the page for the first slot that does. -/
theorem mmap_fault_slots_cases (A : Arch) (E : Env) (end_ PHYSTOP cpu : Nat) (s : MState)
    (va pte mem : Nat) : ∀ (n i : Nat),
    ((∀ j, i ≤ j → j < i + n → ¬ covers s va j) ∧
        mmap_fault_slots A E end_ PHYSTOP cpu s va pte mem n i =
          (kfree end_ PHYSTOP s.kmem cpu mem).bind fun k =>
            .ret (-1, { s with kmem := k })) ∨
      (∃ j m, i ≤ j ∧ j < i + n ∧ s.slots j = some m ∧ covers s va j ∧
        (∀ k, i ≤ k → k < j → ¬ covers s va k) ∧
        mmap_fault_slots A E end_ PHYSTOP cpu s va pte mem n i =
          mmap_fault_load A E s va pte mem m)
  | 0, i => Or.inl ⟨fun j h1 h2 => by omega, rfl⟩
  | n + 1, i => by
    have ih := mmap_fault_slots_cases A E end_ PHYSTOP cpu s va pte mem n (i + 1)
    have skip : ¬ covers s va i →
        mmap_fault_slots A E end_ PHYSTOP cpu s va pte mem (n + 1) i =
          mmap_fault_slots A E end_ PHYSTOP cpu s va pte mem n (i + 1) →
        ((∀ j, i ≤ j → j < i + (n + 1) → ¬ covers s va j) ∧
          mmap_fault_slots A E end_ PHYSTOP cpu s va pte mem (n + 1) i =
            (kfree end_ PHYSTOP s.kmem cpu mem).bind fun k =>
              .ret (-1, { s with kmem := k })) ∨
        (∃ j m, i ≤ j ∧ j < i + (n + 1) ∧ s.slots j = some m ∧ covers s va j ∧
          (∀ k, i ≤ k → k < j → ¬ covers s va k) ∧
          mmap_fault_slots A E end_ PHYSTOP cpu s va pte mem (n + 1) i =
            mmap_fault_load A E s va pte mem m) := by
      intro hno heq
      rcases ih with ⟨h1, h2⟩ | ⟨j, m, h1, h2, h3, h4, h5, h6⟩
      · left
        refine ⟨?_, by rw [heq, h2]⟩
        intro j hj1 hj2
        by_cases e : j = i
        · rw [e]; exact hno
        · exact h1 j (by omega) (by omega)
      · right
        refine ⟨j, m, by omega, by omega, h3, h4, ?_, by rw [heq, h6]⟩
        intro k hk1 hk2
        by_cases e : k = i
        · rw [e]; exact hno
        · exact h5 k (by omega) hk2
    cases hs : s.slots i with
    | none =>
      apply skip
      · rintro ⟨m, hm, _⟩
        rw [hs] at hm; cases hm
      · simp only [mmap_fault_slots, hs]
    | some m =>
      by_cases h1 : (s.mmaptable m).addr ≤ va ∧
          va < ((s.mmaptable m).addr + (s.mmaptable m).len) % 2 ^ 64
      · right
        refine ⟨i, m, le_refl _, by omega, hs, ⟨m, hs, h1⟩, fun k a b => by omega, ?_⟩
        simp only [mmap_fault_slots, hs]
        rw [if_pos h1]
      · apply skip
        · rintro ⟨m', hm', hc⟩
          rw [hs] at hm'
          injection hm' with hm'
          subst hm'
          exact h1 hc
        · simp only [mmap_fault_slots, hs]
          rw [if_neg h1]

/-- Loading the page never returns -1. -/
theorem mmap_fault_load_ret (A : Arch) (E : Env) (s : MState) (va pte mem m : Nat) (r : Int)
    (s' : MState) (h : mmap_fault_load A E s va pte mem m = .ret (r, s')) :
    r = 0 ∧ s'.slots = s.slots ∧ s'.mmaptable = s.mmaptable ∧ s'.ftable = s.ftable ∧
      s'.kmem.freelist = s.kmem.freelist ∧
      s'.pt = Function.update s.pt (va / PGSIZE)
        (some (A.PA2PTE mem ||| ((A.PTE_FLAGS pte % 2 ^ 32) ^^^ A.PTE_V))) := by
  unfold mmap_fault_load at h
  simp only at h
  cases hf : (s.mmaptable m).file with
  | none => rw [hf] at h; cases h
  | some f =>
    rw [hf] at h
    simp only at h
    split at h
    · cases h
    · obtain ⟨bytes, _, e⟩ := bind_ret h
      injection e with e
      injection e with e1 e2
      subst e2
      exact ⟨e1.symm, rfl, rfl, rfl, rfl, rfl⟩


theorem allFree_succ (n : Nat) (L : Nat → List Nat) : allFree (n + 1) L = allFree n L ++ L n := by
  unfold allFree
  rw [List.range_succ, List.flatMap_append]
  simp

theorem allFree_congr (n : Nat) (L L' : Nat → List Nat) (h : ∀ i, i < n → L i = L' i) :
    allFree n L = allFree n L' := by
  induction n with
  | zero => rfl
  | succ n ih =>
    rw [allFree_succ, allFree_succ, ih (fun i hi => h i (by omega)), h n (by omega)]

/-- Replacing one of the free lists changes the number of free pages by the difference
of the lengths. -/
theorem allFree_length_update (n : Nat) (L : Nat → List Nat) (k : Nat) (l : List Nat)
    (hk : k < n) :
    (allFree n (Function.update L k l)).length + (L k).length =
      (allFree n L).length + l.length := by
  induction n with
  | zero => omega
  | succ n ih =>
    rw [allFree_succ, allFree_succ, List.length_append, List.length_append]
    by_cases e : k = n
    · subst e
      rw [Function.update_same, allFree_congr k (Function.update L k l) L
        (fun i hi => Function.update_noteq (by omega) _ _)]
      omega
    · rw [Function.update_noteq (Ne.symm e)]
      have := ih (by omega)
      omega

/-- The checks of `mmap_fault_handler` before the slot loop. -/
theorem mmap_fault_handler_cases (A : Arch) (E : Env) (NCPU end_ PHYSTOP cpu1 cpu2 : Nat)
    (s : MState) (va : Nat) :
    ((PGROUNDDOWN (va % 2 ^ 64) ≥ A.MAXVA ∨ walk s (PGROUNDDOWN (va % 2 ^ 64)) = none ∨
        (∃ pte, s.pt (PGROUNDDOWN (va % 2 ^ 64) / PGSIZE) = some pte ∧
          (pte &&& A.PTE_V ≠ 0 ∨ pte &&& A.PTE_M = 0)) ∨
        (kalloc NCPU s.kmem cpu1).1 = 0) ∧
      mmap_fault_handler A E NCPU end_ PHYSTOP cpu1 cpu2 s va = .ret (-1, s)) ∨
    (PGROUNDDOWN (va % 2 ^ 64) < A.MAXVA ∧
      ∃ pte, s.pt (PGROUNDDOWN (va % 2 ^ 64) / PGSIZE) = some pte ∧
        pte &&& A.PTE_V = 0 ∧ pte &&& A.PTE_M ≠ 0 ∧ (kalloc NCPU s.kmem cpu1).1 ≠ 0 ∧
        mmap_fault_handler A E NCPU end_ PHYSTOP cpu1 cpu2 s va =
          mmap_fault_slots A E end_ PHYSTOP cpu2 { s with kmem := (kalloc NCPU s.kmem cpu1).2 }
            (PGROUNDDOWN (va % 2 ^ 64)) pte (kalloc NCPU s.kmem cpu1).1 A.NOFILE 0) := by
  unfold mmap_fault_handler
  simp only
  by_cases h1 : PGROUNDDOWN (va % 2 ^ 64) ≥ A.MAXVA
  · left
    rw [if_pos h1]
    exact ⟨Or.inl h1, rfl⟩
  rw [if_neg h1]
  cases hw : walk s (PGROUNDDOWN (va % 2 ^ 64)) with
  | none => left; exact ⟨Or.inr (Or.inl rfl), rfl⟩
  | some n =>
    obtain ⟨hn, pte, hpte⟩ := walk_some hw
    subst hn
    simp only [hpte, Option.getD_some]
    by_cases h2 : pte &&& A.PTE_V ≠ 0 ∨ ¬ (pte &&& A.PTE_M ≠ 0)
    · left
      rw [if_pos h2]
      refine ⟨Or.inr (Or.inr (Or.inl ⟨pte, rfl, ?_⟩)), rfl⟩
      rcases h2 with h | h
      · exact Or.inl h
      · exact Or.inr (by simpa using h)
    rw [if_neg h2]
    by_cases h3 : (kalloc NCPU s.kmem cpu1).1 = 0
    · left
      refine ⟨Or.inr (Or.inr (Or.inr h3)), ?_⟩
      rw [if_pos h3]
    · right
      refine ⟨by omega, pte, rfl, ?_, ?_, h3, ?_⟩
      · by_contra h
        exact h2 (Or.inl h)
      · intro h
        exact h2 (Or.inr (by simpa using h))
      · rw [if_neg h3]


/-- The failure path of `mmap_fault_handler` after a successful `kalloc`: the page goes back
to a free list, and the free lists hold as many pages as before. -/
theorem kalloc_then_kfree {NCPU end_ PHYSTOP : Nat} (h0 : 0 < end_) (hP : PHYSTOP ≤ 2 ^ 64)
    {k : Kmem} {u : List Nat} (hk : KInv NCPU end_ PHYSTOP k u) {cpu1 cpu2 : Nat}
    (hc1 : cpu1 < NCPU) (hc2 : cpu2 < NCPU) (hne : (kalloc NCPU k cpu1).1 ≠ 0) :
    ∃ k', kfree end_ PHYSTOP (kalloc NCPU k cpu1).2 cpu2 (kalloc NCPU k cpu1).1 = .ret k' ∧
      ∃ L L', KLists NCPU k L ∧ KLists NCPU k' L' ∧
        (allFree NCPU L').length = (allFree NCPU L).length := by
  obtain ⟨L, hL, hv, _, _, _⟩ := hk
  rcases kalloc_cases NCPU k cpu1 hc1 with ⟨j, hj, hjne, _, e⟩ | ⟨_, e⟩
  · rw [e]
    simp only
    rcases hL.head_cases hj with ⟨e0, _⟩ | ⟨_, t, et⟩
    · exact absurd e0 hjne
    · have hmem : k.freelist j ∈ L j := by rw [et]; exact List.mem_cons_self _ _
      have hval := hv j _ hj hmem
      have hpop := (hL.kpop hj et).2
      have hnd := hL.nodup j hj
      rw [et] at hnd
      have hnt : k.freelist j ∉ t := (List.nodup_cons.mp hnd).1
      have hn : ∀ i, i < NCPU → k.freelist j ∉ Function.update L j t i := by
        intro i hi hin
        by_cases e : i = j
        · subst e
          rw [Function.update_same] at hin
          exact hnt hin
        · rw [Function.update_noteq e] at hin
          exact e (hL.disjoint i j _ hi hj hin hmem)
      have hpush := hpop.kpush hc2 hval.1 (validPage.ne_zero h0 hval)
        (validPage.lt_word hP hval) hn
      refine ⟨_, kfree_eq end_ PHYSTOP _ cpu2 _ hval.1 hval.2.1 (by
        have := hval.2.2
        unfold PGSIZE at this
        omega), L, _, hL, hpush, ?_⟩
      have a1 := allFree_length_update NCPU L j t hj
      have a2 := allFree_length_update NCPU (Function.update L j t) cpu2
        (k.freelist j :: Function.update L j t cpu2) hc2
      rw [et] at a1
      simp only [List.length_cons] at a1 a2
      omega
  · rw [e] at hne
    exact absurd rfl hne

/-- C10. `mmap_fault_handler(p, va)` returns -1 exactly when the page of `va` is at or above
`MAXVA`, or `walk` finds no PTE for it, or its PTE has `PTE_V` set or `PTE_M` clear, or
`kalloc` returns null, or no slot of the process holds a mapping that covers the page;
and when it returns -1 the page table, the slots and the mappings are as before and the
free lists hold as many pages as before. The allocator is in a state that calls
respecting its contract lead to (`KInv`). -/
theorem mmap_fault_handler_fails_iff (A : Arch) (E : Env) (NCPU end_ PHYSTOP cpu1 cpu2 : Nat)
    (s : MState) (va : Nat) (u : List Nat) (h0 : 0 < end_) (hP : PHYSTOP ≤ 2 ^ 64)
    (hc1 : cpu1 < NCPU) (hc2 : cpu2 < NCPU) (hk : KInv NCPU end_ PHYSTOP s.kmem u) :
    ((∃ s', mmap_fault_handler A E NCPU end_ PHYSTOP cpu1 cpu2 s va = .ret (-1, s')) ↔
      (PGROUNDDOWN (va % 2 ^ 64) ≥ A.MAXVA ∨ walk s (PGROUNDDOWN (va % 2 ^ 64)) = none ∨
        (∃ pte, s.pt (PGROUNDDOWN (va % 2 ^ 64) / PGSIZE) = some pte ∧
          (pte &&& A.PTE_V ≠ 0 ∨ pte &&& A.PTE_M = 0)) ∨
        (kalloc NCPU s.kmem cpu1).1 = 0 ∨
        ∀ i, i < A.NOFILE → ¬ covers s (PGROUNDDOWN (va % 2 ^ 64)) i)) ∧
    (∀ s', mmap_fault_handler A E NCPU end_ PHYSTOP cpu1 cpu2 s va = .ret (-1, s') →
      s'.pt = s.pt ∧ s'.slots = s.slots ∧ s'.mmaptable = s.mmaptable ∧
      ∃ L L', KLists NCPU s.kmem L ∧ KLists NCPU s'.kmem L' ∧
        (allFree NCPU L').length = (allFree NCPU L).length) := by
  rcases mmap_fault_handler_cases A E NCPU end_ PHYSTOP cpu1 cpu2 s va with
    ⟨hc, e⟩ | ⟨hlt, pte, hpte, hV, hM, hne, e⟩
  · rw [e]
    constructor
    · constructor
      · intro _
        rcases hc with h | h | h | h
        · exact Or.inl h
        · exact Or.inr (Or.inl h)
        · exact Or.inr (Or.inr (Or.inl h))
        · exact Or.inr (Or.inr (Or.inr (Or.inl h)))
      · intro _
        exact ⟨s, rfl⟩
    · intro s' h
      injection h with h
      injection h with _ h
      subst h
      obtain ⟨L, hL, _⟩ := hk
      exact ⟨rfl, rfl, rfl, L, L, hL, hL, rfl⟩
  · rw [e]
    have hcond : (PGROUNDDOWN (va % 2 ^ 64) ≥ A.MAXVA ∨ walk s (PGROUNDDOWN (va % 2 ^ 64)) = none ∨
        (∃ pte, s.pt (PGROUNDDOWN (va % 2 ^ 64) / PGSIZE) = some pte ∧
          (pte &&& A.PTE_V ≠ 0 ∨ pte &&& A.PTE_M = 0)) ∨
        (kalloc NCPU s.kmem cpu1).1 = 0 ∨
        ∀ i, i < A.NOFILE → ¬ covers s (PGROUNDDOWN (va % 2 ^ 64)) i) ↔
        ∀ i, i < A.NOFILE → ¬ covers s (PGROUNDDOWN (va % 2 ^ 64)) i := by
      constructor
      · rintro (h | h | ⟨p, hp, h⟩ | h | h)
        · omega
        · unfold walk at h
          rw [hpte] at h
          cases h
        · rw [hpte] at hp
          injection hp with hp
          subst hp
          rcases h with h | h
          · exact absurd hV h
          · exact absurd h hM
        · exact absurd h hne
        · exact h
      · intro h
        exact Or.inr (Or.inr (Or.inr (Or.inr h)))
    rw [hcond]
    obtain ⟨k', ek, L, L', hL, hL', hlen⟩ := kalloc_then_kfree h0 hP hk hc1 hc2 hne
    rcases mmap_fault_slots_cases A E end_ PHYSTOP cpu2
        { s with kmem := (kalloc NCPU s.kmem cpu1).2 } (PGROUNDDOWN (va % 2 ^ 64)) pte
        (kalloc NCPU s.kmem cpu1).1 A.NOFILE 0 with
      ⟨hno, er⟩ | ⟨j, m, _, hj, _, hcov, _, er⟩
    · rw [er]
      simp only
      rw [ek]
      simp only [Outcome.bind]
      constructor
      · constructor
        · intro _ i hi
          exact hno i (Nat.zero_le _) (by omega)
        · intro _
          exact ⟨_, rfl⟩
      · intro s' h
        injection h with h
        injection h with _ h
        subst h
        exact ⟨rfl, rfl, rfl, L, L', hL, hL', hlen⟩
    · rw [er]
      have hnone : ∀ s', mmap_fault_load A E { s with kmem := (kalloc NCPU s.kmem cpu1).2 }
          (PGROUNDDOWN (va % 2 ^ 64)) pte (kalloc NCPU s.kmem cpu1).1 m ≠ .ret (-1, s') := by
        intro s' h
        have := (mmap_fault_load_ret A E _ _ _ _ _ _ _ h).1
        omega
      constructor
      · constructor
        · rintro ⟨s', h⟩
          exact absurd h (hnone s')
        · intro h
          exact absurd hcov (h j (by omega))
      · intro s' h
        exact absurd h (hnone s')


/-- C10, at a concrete input: in `demo_lazy` a fault at `0x20000`, which has a PTE marked as
mapped and no mapping, returns -1 after allocating and freeing a page. -/
theorem mmap_fault_handler_fails_iff_witness :
    retval (mmap_fault_handler rv39 demo_env 1 4096 20480 0 0 demo_lazy 0x20000) = some (-1) ∧
    (kalloc 1 demo_lazy.kmem 0).1 = 0x2000 ∧
    ∀ s', mmap_fault_handler rv39 demo_env 1 4096 20480 0 0 demo_lazy 0x20000 = .ret (-1, s') →
      s'.pt = demo_lazy.pt ∧ s'.slots = demo_lazy.slots ∧ s'.mmaptable = demo_lazy.mmaptable ∧
      ∃ L L', KLists 1 demo_lazy.kmem L ∧ KLists 1 s'.kmem L' ∧
        (allFree 1 L').length = (allFree 1 L).length :=
  ⟨by decide, by decide,
    (mmap_fault_handler_fails_iff rv39 demo_env 1 4096 20480 0 0 demo_lazy 0x20000 demo_kmem.2
      (by decide) (by decide) (by decide) (by decide)
      ((show KReach 1 4096 20480 (fun _ => 0) 0 demo_kmem.1 demo_kmem.2 from
        KReach.of_kafter _ _ _ (KReach.init _ (by decide) rfl)).kinv (by decide) (by decide))).2⟩


/-- C9 at a failing input. In `demo_mstate` the shared mapping covers `[0x10000, 0x12000)`
and both pages are dirty. `munmap(0x11000, 0x1000)` cuts the second page as a suffix; it
returns 0 and writes the page back with `writei(ip, 1, 0x11000, 0, 4096)`: at file
offset 0, where `va - m.addr` is `0x1000`, the offset from which `mmap_fault_handler`
loads the same page (`readi(ip, 0, mem, 0x1000, 0x1000)` in `demo_lazy`). -/
theorem munmap_suffix_writes_at_offset_zero :
    retval (munmap rv39 demo_env 4096 20480 0 demo_mstate 0x11000 0x1000) = some 0 ∧
    (retstate demo_mstate (munmap rv39 demo_env 4096 20480 0 demo_mstate 0x11000 0x1000)).log =
      [.begin_op, .ilock 7, .writei 7 1 0x11000 0 4096, .iunlock 7, .end_op] ∧
    (retstate demo_lazy
        (mmap_fault_handler rv39 demo_env 1 4096 20480 0 0 demo_lazy 0x11000)).log =
      [.ilock 7, .readi 7 0 0x2000 0x1000 0x1000, .iunlock 7] :=
  ⟨by decide, by decide, by decide!⟩


theorem fault_len_le (mlen off : Nat) : fault_len mlen off ≤ PGSIZE ∧
    sval (fault_len mlen off) = (fault_len mlen off : Int) := by
  have h : fault_len mlen off ≤ PGSIZE := by
    unfold fault_len
    simp only
    split
    · rename_i h
      unfold PGSIZE at *
      omega
    · exact le_refl _
  refine ⟨h, ?_⟩
  unfold sval
  rw [if_pos]
  unfold PGSIZE at h
  omega

/-- For a page less than 2 GiB into a mapping that covers it, the `int` values `off` and
`len` of `mmap_fault_handler` are `va - m.addr` and `min(PGSIZE, m.len - off)`. -/
theorem fault_off_len_plain (va addr mlen : Nat) (h1 : addr ≤ va) (h2 : va < 2 ^ 64)
    (h3 : va < (addr + mlen) % 2 ^ 64) (h4 : mlen < 2 ^ 64) (h5 : va - addr < 2 ^ 31) :
    fault_off va addr = va - addr ∧
      fault_len mlen (fault_off va addr) = min PGSIZE (mlen - (va - addr)) := by
  have e : fault_off va addr = va - addr := by
    unfold fault_off
    norm_num at *
    omega
  refine ⟨e, ?_⟩
  rw [e]
  unfold fault_len sext
  rw [if_pos h5]
  have hle : (addr + mlen) % 2 ^ 64 ≤ addr + mlen := Nat.mod_le _ _
  have hd : (mlen + (2 ^ 64 - (va - addr))) % 2 ^ 64 = mlen - (va - addr) := by
    norm_num at *
    omega
  simp only [hd]
  unfold PGSIZE
  split
  · rename_i h
    rw [Nat.mod_eq_of_lt (by omega)]
    omega
  · omega

/-- What `mmap_fault_load` leaves when it returns: the bytes of the page are those the
zero-filling loop produced from the bytes read. -/
theorem mmap_fault_load_bytes (A : Arch) (E : Env) (s : MState) (va pte mem m : Nat) (r0 : Int)
    (s' : MState) (h : mmap_fault_load A E s va pte mem m = .ret (r0, s')) :
    ∃ f, (s.mmaptable m).file = some f ∧
      E.readi (s.ftable f).ip (fault_off va (s.mmaptable m).addr)
          (fault_len (s.mmaptable m).len (fault_off va (s.mmaptable m).addr)) ≤
        sval (fault_len (s.mmaptable m).len (fault_off va (s.mmaptable m).addr)) ∧
      zero_tail mem (2 ^ 31 + PGSIZE + 1)
        (readi_copy E s.kmem.mem mem (s.ftable f).ip (fault_off va (s.mmaptable m).addr)
          (E.readi (s.ftable f).ip (fault_off va (s.mmaptable m).addr)
            (fault_len (s.mmaptable m).len (fault_off va (s.mmaptable m).addr))))
        (E.readi (s.ftable f).ip (fault_off va (s.mmaptable m).addr)
          (fault_len (s.mmaptable m).len (fault_off va (s.mmaptable m).addr))) =
        .ret s'.kmem.mem := by
  unfold mmap_fault_load at h
  simp only at h
  cases hf : (s.mmaptable m).file with
  | none => rw [hf] at h; cases h
  | some f =>
    rw [hf] at h
    simp only at h
    split at h
    · cases h
    · rename_i hr
      obtain ⟨bytes, eb, e⟩ := bind_ret h
      injection e with e
      injection e with e1 e2
      subst e2
      refine ⟨f, rfl, by omega, eb⟩


/-- When `mmap_fault_handler` returns 0, every check passed and the page was loaded for the
first slot that covers it. -/
theorem mmap_fault_handler_ret0 (A : Arch) (E : Env) (NCPU end_ PHYSTOP cpu1 cpu2 : Nat)
    (s : MState) (va : Nat) (s' : MState)
    (h : mmap_fault_handler A E NCPU end_ PHYSTOP cpu1 cpu2 s va = .ret (0, s')) :
    PGROUNDDOWN (va % 2 ^ 64) < A.MAXVA ∧
    ∃ pte i m, s.pt (PGROUNDDOWN (va % 2 ^ 64) / PGSIZE) = some pte ∧
      pte &&& A.PTE_V = 0 ∧ pte &&& A.PTE_M ≠ 0 ∧ (kalloc NCPU s.kmem cpu1).1 ≠ 0 ∧
      i < A.NOFILE ∧ s.slots i = some m ∧ covers s (PGROUNDDOWN (va % 2 ^ 64)) i ∧
      (∀ k, k < i → ¬ covers s (PGROUNDDOWN (va % 2 ^ 64)) k) ∧
      mmap_fault_load A E { s with kmem := (kalloc NCPU s.kmem cpu1).2 }
        (PGROUNDDOWN (va % 2 ^ 64)) pte (kalloc NCPU s.kmem cpu1).1 m = .ret (0, s') := by
  rcases mmap_fault_handler_cases A E NCPU end_ PHYSTOP cpu1 cpu2 s va with
    ⟨_, e⟩ | ⟨hlt, pte, hpte, hV, hM, hne, e⟩
  · rw [e] at h
    injection h with h
    injection h with h _
    omega
  · rw [e] at h
    rcases mmap_fault_slots_cases A E end_ PHYSTOP cpu2
        { s with kmem := (kalloc NCPU s.kmem cpu1).2 } (PGROUNDDOWN (va % 2 ^ 64)) pte
        (kalloc NCPU s.kmem cpu1).1 A.NOFILE 0 with
      ⟨_, er⟩ | ⟨j, m, _, hj, hs, hcov, hfirst, er⟩
    · rw [er] at h
      obtain ⟨k, _, e2⟩ := bind_ret h
      injection e2 with e2
      injection e2 with e2 _
      omega
    · rw [er] at h
      exact ⟨hlt, pte, j, m, hpte, hV, hM, hne, by omega, hs, hcov,
        fun k hk => hfirst k (Nat.zero_le _) hk, h⟩

/-- C11. When `mmap_fault_handler` returns 0 for the page at `va`, the page is covered by a
mapping `m` of the process (the first such slot), and with `off` and `len` the `int`
values the code computes from `va - m.addr` and `m.len` and `r` the value the inode
read of `len` bytes at `off` returned: `r ≤ len ≤ PGSIZE`, the PTE holds the page `mem`
that `kalloc` returned, and if `0 ≤ r` that page holds the file's bytes `[off, off + r)`
at the page offsets `[0, r)` and zero at every page offset in `[r, PGSIZE)`. For a page
less than 2 GiB into the mapping, `off = va - m.addr` and
`len = min(PGSIZE, m.len - off)`. -/
theorem fault_page_holds_file_then_zeros (A : Arch) (E : Env)
    (NCPU end_ PHYSTOP cpu1 cpu2 : Nat) (s : MState) (va : Nat) (s' : MState)
    (h : mmap_fault_handler A E NCPU end_ PHYSTOP cpu1 cpu2 s va = .ret (0, s'))
    (hmem : (kalloc NCPU s.kmem cpu1).1 + PGSIZE ≤ 2 ^ 64) :
    ∃ i m f pte, i < A.NOFILE ∧ s.slots i = some m ∧
      covers s (PGROUNDDOWN (va % 2 ^ 64)) i ∧
      (∀ k, k < i → ¬ covers s (PGROUNDDOWN (va % 2 ^ 64)) k) ∧
      (s.mmaptable m).file = some f ∧
      s.pt (PGROUNDDOWN (va % 2 ^ 64) / PGSIZE) = some pte ∧
      s'.pt (PGROUNDDOWN (va % 2 ^ 64) / PGSIZE) =
        some (A.PA2PTE (kalloc NCPU s.kmem cpu1).1 |||
          ((A.PTE_FLAGS pte % 2 ^ 32) ^^^ A.PTE_V)) ∧
      E.readi (s.ftable f).ip (fault_off (PGROUNDDOWN (va % 2 ^ 64)) (s.mmaptable m).addr)
          (fault_len (s.mmaptable m).len
            (fault_off (PGROUNDDOWN (va % 2 ^ 64)) (s.mmaptable m).addr)) ≤
        (fault_len (s.mmaptable m).len
          (fault_off (PGROUNDDOWN (va % 2 ^ 64)) (s.mmaptable m).addr) : Int) ∧
      fault_len (s.mmaptable m).len
          (fault_off (PGROUNDDOWN (va % 2 ^ 64)) (s.mmaptable m).addr) ≤ PGSIZE ∧
      (0 ≤ E.readi (s.ftable f).ip (fault_off (PGROUNDDOWN (va % 2 ^ 64)) (s.mmaptable m).addr)
          (fault_len (s.mmaptable m).len
            (fault_off (PGROUNDDOWN (va % 2 ^ 64)) (s.mmaptable m).addr)) →
        ∀ k, k < PGSIZE →
          ((k : Int) < E.readi (s.ftable f).ip
              (fault_off (PGROUNDDOWN (va % 2 ^ 64)) (s.mmaptable m).addr)
              (fault_len (s.mmaptable m).len
                (fault_off (PGROUNDDOWN (va % 2 ^ 64)) (s.mmaptable m).addr)) →
            s'.kmem.mem ((kalloc NCPU s.kmem cpu1).1 + k) =
              E.idata (s.ftable f).ip
                (fault_off (PGROUNDDOWN (va % 2 ^ 64)) (s.mmaptable m).addr + k)) ∧
          (E.readi (s.ftable f).ip
              (fault_off (PGROUNDDOWN (va % 2 ^ 64)) (s.mmaptable m).addr)
              (fault_len (s.mmaptable m).len
                (fault_off (PGROUNDDOWN (va % 2 ^ 64)) (s.mmaptable m).addr)) ≤ (k : Int) →
            s'.kmem.mem ((kalloc NCPU s.kmem cpu1).1 + k) = 0)) ∧
      (PGROUNDDOWN (va % 2 ^ 64) - (s.mmaptable m).addr < 2 ^ 31 → (s.mmaptable m).len < 2 ^ 64 →
        fault_off (PGROUNDDOWN (va % 2 ^ 64)) (s.mmaptable m).addr =
          PGROUNDDOWN (va % 2 ^ 64) - (s.mmaptable m).addr ∧
        fault_len (s.mmaptable m).len
            (fault_off (PGROUNDDOWN (va % 2 ^ 64)) (s.mmaptable m).addr) =
          min PGSIZE ((s.mmaptable m).len -
            (PGROUNDDOWN (va % 2 ^ 64) - (s.mmaptable m).addr))) := by
  obtain ⟨_, pte, i, m, hpte, _, _, _, hi, hs, hcov, hfirst, hload⟩ :=
    mmap_fault_handler_ret0 A E NCPU end_ PHYSTOP cpu1 cpu2 s va s' h
  obtain ⟨f, hf, hr, hz⟩ := mmap_fault_load_bytes A E _ _ _ _ _ _ _ hload
  obtain ⟨_, _, _, _, _, hpt⟩ := mmap_fault_load_ret A E _ _ _ _ _ _ _ hload
  obtain ⟨hle, hsv⟩ := fault_len_le (s.mmaptable m).len
    (fault_off (PGROUNDDOWN (va % 2 ^ 64)) (s.mmaptable m).addr)
  simp only at hf hr hz hpt
  rw [hsv] at hr
  refine ⟨i, m, f, pte, hi, hs, hcov, hfirst, hf, hpte, ?_, hr, hle, ?_, ?_⟩
  · rw [hpt]
    exact Function.update_same _ _ _
  · intro h0 k hk
    obtain ⟨n, hn⟩ := Int.eq_ofNat_of_zero_le h0
    rw [hn] at hz hr ⊢
    have hnle : n ≤ PGSIZE := by
      have : (n : Int) ≤ (PGSIZE : Int) := le_trans hr (by exact_mod_cast hle)
      exact_mod_cast this
    obtain ⟨m', e, hm'⟩ := zero_tail_eq _ hmem (2 ^ 31 + PGSIZE + 1)
      (readi_copy E (kalloc NCPU s.kmem cpu1).2.mem (kalloc NCPU s.kmem cpu1).1 (s.ftable f).ip
        (fault_off (PGROUNDDOWN (va % 2 ^ 64)) (s.mmaptable m).addr) (n : Int)) n hnle
      (by unfold PGSIZE; omega)
    rw [e] at hz
    injection hz with hz
    rw [← hz, hm']
    constructor
    · intro hkn
      have hkn' : k < n := by exact_mod_cast hkn
      rw [if_neg (by omega)]
      unfold readi_copy
      rw [if_pos]
      · rw [Nat.add_sub_cancel_left]
      · refine ⟨by omega, ?_⟩
        push_cast
        omega
    · intro hkn
      have hkn' : n ≤ k := by exact_mod_cast hkn
      rw [if_pos]
      omega
  · intro h31 hlen
    obtain ⟨m0, hm0, hc1, hc2⟩ := hcov
    rw [hs] at hm0
    injection hm0 with hm0
    subst hm0
    have hlt : PGROUNDDOWN (va % 2 ^ 64) < 2 ^ 64 := by
      have := Nat.mod_lt va (show 0 < 2 ^ 64 by norm_num)
      unfold PGROUNDDOWN
      have h2 := Nat.div_mul_le_self (va % 2 ^ 64) PGSIZE
      omega
    exact fault_off_len_plain _ _ _ hc1 hlt hc2 hlen h31


theorem ret_retstate {α : Type} (o : Outcome (Int × α)) (d : α) (r : Int)
    (h : retval o = some r) : o = .ret (r, retstate d o) := by
  cases o with
  | ret p =>
    obtain ⟨a, b⟩ := p
    simp only [retval, Option.some.injEq] at h
    subst h
    rfl
  | panic t => cases h
  | fault => cases h
  | hang => cases h

/-- C11, at a concrete input: a 100-byte file (its byte `k` is `k + 1`) mapped at length
`PGSIZE` at `0x10000`; the first access faults, the handler returns 0, and the page it
installs (`0x2000`) holds the file in its bytes 0..99 and zero in its bytes 100..4095. -/
theorem fault_page_holds_file_then_zeros_witness :
    retval (mmap_fault_handler rv39 demo_env 1 4096 20480 0 0 demo_small 0x10000) = some 0 ∧
    ∀ k, k < PGSIZE →
      (k < 100 → (retstate demo_small
        (mmap_fault_handler rv39 demo_env 1 4096 20480 0 0 demo_small 0x10000)).kmem.mem
          (0x2000 + k) = k + 1) ∧
      (100 ≤ k → (retstate demo_small
        (mmap_fault_handler rv39 demo_env 1 4096 20480 0 0 demo_small 0x10000)).kmem.mem
          (0x2000 + k) = 0) := by
  refine ⟨by decide!, ?_⟩
  obtain ⟨i, m, f, pte, _, hs, _, _, hf, _, _, _, _, hbytes, _⟩ :=
    fault_page_holds_file_then_zeros rv39 demo_env 1 4096 20480 0 0 demo_small 0x10000
      (retstate demo_small
        (mmap_fault_handler rv39 demo_env 1 4096 20480 0 0 demo_small 0x10000))
      (ret_retstate _ _ _ (by decide!)) (by decide)
  have hi : i = 0 ∧ m = 0 := by
    have h1 : (if i = 0 then some 0 else none) = some m := hs
    by_cases e : i = 0
    · rw [if_pos e] at h1
      injection h1 with h1
      exact ⟨e, h1.symm⟩
    · rw [if_neg e] at h1
      cases h1
  obtain ⟨rfl, rfl⟩ := hi
  have hf0 : f = 0 := by
    have h0 : (demo_small.mmaptable 0).file = some 0 := by decide
    exact Option.some.inj (hf.symm.trans h0)
  subst hf0
  have hmem : (kalloc 1 demo_small.kmem 0).1 = 0x2000 := by decide
  have hoff : fault_off (PGROUNDDOWN (0x10000 % 2 ^ 64)) (demo_small.mmaptable 0).addr = 0 := by
    decide
  have hr : demo_env.readi (demo_small.ftable 0).ip 0
      (fault_len (demo_small.mmaptable 0).len 0) = 100 := by decide
  rw [hoff, hr, hmem] at hbytes
  intro k hk
  obtain ⟨h1, h2⟩ := hbytes (by norm_num) k hk
  constructor
  · intro hk1
    rw [h1 (by exact_mod_cast hk1)]
    show (if 0 + k < 100 then 0 + k + 1 else 0) = k + 1
    rw [if_pos (by omega)]
    omega
  · intro hk1
    exact h2 (by exact_mod_cast hk1)


/-- When `munmap` returns 0, its arguments are page-aligned and it went on with the first
slot whose mapping is cut at an edge. -/
theorem munmap_ret0 (A : Arch) (E : Env) (end_ PHYSTOP cpu : Nat) (s : MState)
    (addr len : Nat) (ha : addr < 2 ^ 64) (hl : len < 2 ^ 64) (s' : MState)
    (h : munmap A E end_ PHYSTOP cpu s addr len = .ret (0, s')) :
    addr % PGSIZE = 0 ∧ len % PGSIZE = 0 ∧
    ∃ i m, i < A.NOFILE ∧ s.slots i = some m ∧ cuts_edge s addr len i ∧
      (∀ k, k < i → ¬ cuts_edge s addr len k) ∧
      munmap_matched A E end_ PHYSTOP cpu
        { s with mmaptable :=
            Function.update s.mmaptable m (munmap_cut (s.mmaptable m) addr len) }
        addr len i m (s.mmaptable m) = .ret (0, s') := by
  have e1 : addr % 2 ^ 64 = addr := Nat.mod_eq_of_lt ha
  have e2 : len % 2 ^ 64 = len := Nat.mod_eq_of_lt hl
  unfold munmap at h
  simp only [e1, e2] at h
  by_cases h1 : addr % PGSIZE ≠ 0
  · rw [if_pos h1] at h
    injection h with h
    injection h with h _
    omega
  rw [if_neg h1] at h
  by_cases h2 : len % PGSIZE ≠ 0
  · rw [if_pos h2] at h
    injection h with h
    injection h with h _
    omega
  rw [if_neg h2] at h
  refine ⟨by omega, by omega, ?_⟩
  rcases munmap_slots_cases A E end_ PHYSTOP cpu s addr len A.NOFILE 0 with
    ⟨_, er⟩ | ⟨j, m, _, hj, hs, hcut, hfirst, er⟩
  · rw [er] at h
    injection h with h
    injection h with h _
    omega
  · rw [er] at h
    exact ⟨j, m, by omega, hs, hcut, fun k hk => hfirst k (Nat.zero_le _) hk, h⟩

/-- C12. For a successful `munmap(addr, len)` let `m` be the mapping of the first slot `i`
with `m.addr = addr` or `m.addr + m.len = addr + len`. Afterwards `m.len` is the old
length minus `len` (in 64-bit arithmetic; the plain difference when `len` is not larger
than the old length), and `m.addr` is `addr + len` if `m.addr` was `addr` and is
unchanged otherwise. If the new `m.len` is 0 then slot `i` is cleared, the file of the
descriptor is null and the reference count of the file is one lower; if it is not 0
then slot `i`, the file of the descriptor and the file table are as before. Every other
slot and every other descriptor is unchanged. -/
theorem munmap_updates_first_match (A : Arch) (E : Env) (end_ PHYSTOP cpu : Nat) (s : MState)
    (addr len : Nat) (ha : addr < 2 ^ 64) (hl : len < 2 ^ 64) (s' : MState)
    (h : munmap A E end_ PHYSTOP cpu s addr len = .ret (0, s')) :
    ∃ i m, i < A.NOFILE ∧ s.slots i = some m ∧ cuts_edge s addr len i ∧
      (∀ k, k < i → ¬ cuts_edge s addr len k) ∧
      ((s.mmaptable m).addr = addr → (s'.mmaptable m).addr = (addr + len) % 2 ^ 64) ∧
      ((s.mmaptable m).addr ≠ addr → (s'.mmaptable m).addr = (s.mmaptable m).addr) ∧
      (s'.mmaptable m).len = ((s.mmaptable m).len + (2 ^ 64 - len)) % 2 ^ 64 ∧
      (len ≤ (s.mmaptable m).len → (s.mmaptable m).len < 2 ^ 64 →
        (s'.mmaptable m).len = (s.mmaptable m).len - len) ∧
      ((s'.mmaptable m).len = 0 →
        s'.slots i = none ∧ (s'.mmaptable m).file = none ∧
        ∃ f, (s.mmaptable m).file = some f ∧ (s'.ftable f).ref = (s.ftable f).ref - 1 ∧
          ∀ g, g ≠ f → s'.ftable g = s.ftable g) ∧
      ((s'.mmaptable m).len ≠ 0 →
        s'.slots i = some m ∧ (s'.mmaptable m).file = (s.mmaptable m).file ∧
        s'.ftable = s.ftable) ∧
      (∀ j, j ≠ i → s'.slots j = s.slots j) ∧
      (∀ m', m' ≠ m → s'.mmaptable m' = s.mmaptable m') := by
  obtain ⟨_, _, i, m, hi, hs, hcut, hfirst, hm⟩ :=
    munmap_ret0 A E end_ PHYSTOP cpu s addr len ha hl s' h
  have hcl : (munmap_cut (s.mmaptable m) addr len).len =
      ((s.mmaptable m).len + (2 ^ 64 - len)) % 2 ^ 64 := by
    unfold munmap_cut
    split <;> rfl
  have hca1 : (s.mmaptable m).addr = addr →
      (munmap_cut (s.mmaptable m) addr len).addr = (addr + len) % 2 ^ 64 := by
    intro e
    unfold munmap_cut
    rw [if_pos e]
  have hca2 : (s.mmaptable m).addr ≠ addr →
      (munmap_cut (s.mmaptable m) addr len).addr = (s.mmaptable m).addr := by
    intro e
    unfold munmap_cut
    rw [if_neg e]
  have hplain : len ≤ (s.mmaptable m).len → (s.mmaptable m).len < 2 ^ 64 →
      ((s.mmaptable m).len + (2 ^ 64 - len)) % 2 ^ 64 = (s.mmaptable m).len - len := by
    intro h1 h2
    norm_num at *
    omega
  obtain ⟨_, hcase⟩ := munmap_matched_effect A E end_ PHYSTOP cpu _ addr len i m _ _ _ hm
  simp only [Function.update_same] at hcase
  rcases hcase with ⟨hne, e1, e2, e3⟩ | ⟨h0, e2, f, hf, _, e1, e4, e5⟩
  · have em : s'.mmaptable m = munmap_cut (s.mmaptable m) addr len := by
      rw [e1]; exact Function.update_same _ _ _
    have hlen : (s'.mmaptable m).len ≠ 0 := by rw [em]; exact hne
    refine ⟨i, m, hi, hs, hcut, hfirst, ?_, ?_, ?_, ?_, fun h => absurd h hlen, ?_, ?_, ?_⟩
    · intro e; rw [em]; exact hca1 e
    · intro e; rw [em]; exact hca2 e
    · rw [em]; exact hcl
    · intro a b; rw [em, hcl]; exact hplain a b
    · intro _
      refine ⟨by rw [e2]; exact hs, by rw [em]; exact munmap_cut_file _ _ _, e3⟩
    · intro j _; rw [e2]
    · intro m' hm'
      rw [e1]
      exact Function.update_noteq hm' _ _
  · have em : s'.mmaptable m =
        { munmap_cut (s.mmaptable m) addr len with file := none } := by
      rw [e1]; exact Function.update_same _ _ _
    have hlen : (s'.mmaptable m).len = 0 := by rw [em]; exact h0
    refine ⟨i, m, hi, hs, hcut, hfirst, ?_, ?_, ?_, ?_, ?_, fun h => absurd hlen h, ?_, ?_⟩
    · intro e; rw [em]; exact hca1 e
    · intro e; rw [em]; exact hca2 e
    · rw [em]; exact hcl
    · intro a b; rw [em]; exact hcl.trans (hplain a b)
    · intro _
      refine ⟨by rw [e2]; exact Function.update_same _ _ _, by rw [em], f, ?_, e4, e5⟩
      rw [munmap_cut_file] at hf
      exact hf
    · intro j hj
      rw [e2]
      exact Function.update_noteq hj _ _
    · intro m' hm'
      rw [e1, Function.update_noteq hm', Function.update_noteq hm']


/-- C12, at a concrete input: in `demo_mstate` (one mapping, of `[0x10000, 0x12000)`),
`munmap(0x10000, 0x1000)` leaves the mapping `[0x11000, 0x12000)` in its slot, and
`munmap(0x10000, 0x2000)` clears the slot, the file of the descriptor and the last
reference to the file. -/
theorem munmap_updates_first_match_witness :
    retval (munmap rv39 demo_env 4096 20480 0 demo_mstate 0x10000 0x1000) = some 0 ∧
    ((retstate demo_mstate
      (munmap rv39 demo_env 4096 20480 0 demo_mstate 0x10000 0x1000)).mmaptable 0).addr
        = 0x11000 ∧
    ((retstate demo_mstate
      (munmap rv39 demo_env 4096 20480 0 demo_mstate 0x10000 0x1000)).mmaptable 0).len
        = 0x1000 ∧
    (retstate demo_mstate
      (munmap rv39 demo_env 4096 20480 0 demo_mstate 0x10000 0x2000)).slots 0 = none ∧
    ((retstate demo_mstate
      (munmap rv39 demo_env 4096 20480 0 demo_mstate 0x10000 0x2000)).ftable 0).ref = 0 ∧
    ∃ i m, i < rv39.NOFILE ∧ demo_mstate.slots i = some m ∧
      cuts_edge demo_mstate 0x10000 0x1000 i ∧
      ((retstate demo_mstate
        (munmap rv39 demo_env 4096 20480 0 demo_mstate 0x10000 0x1000)).mmaptable m).len =
        ((demo_mstate.mmaptable m).len + (2 ^ 64 - 0x1000)) % 2 ^ 64 := by
  refine ⟨by decide, by decide, by decide, by decide, by decide, ?_⟩
  obtain ⟨i, m, h1, h2, h3, _, _, _, h4, _⟩ :=
    munmap_updates_first_match rv39 demo_env 4096 20480 0 demo_mstate 0x10000 0x1000
      (by norm_num) (by norm_num) _ (ret_retstate _ demo_mstate _ (by decide))
  exact ⟨i, m, h1, h2, h3, h4⟩


/-- What `munmap` returns: -1 with the state unchanged, or 0 after the cut of the first slot
whose mapping is cut at an edge. -/
theorem munmap_ret_cases (A : Arch) (E : Env) (end_ PHYSTOP cpu : Nat) (s : MState)
    (addr len : Nat) (ha : addr < 2 ^ 64) (hl : len < 2 ^ 64) (r : Int) (s' : MState)
    (h : munmap A E end_ PHYSTOP cpu s addr len = .ret (r, s')) :
    (r = -1 ∧ s' = s) ∨
    (r = 0 ∧ ∃ i m, i < A.NOFILE ∧ s.slots i = some m ∧ cuts_edge s addr len i ∧
      (∀ k, k < i → ¬ cuts_edge s addr len k) ∧
      munmap_matched A E end_ PHYSTOP cpu
        { s with mmaptable :=
            Function.update s.mmaptable m (munmap_cut (s.mmaptable m) addr len) }
        addr len i m (s.mmaptable m) = .ret (0, s')) := by
  have e1 : addr % 2 ^ 64 = addr := Nat.mod_eq_of_lt ha
  have e2 : len % 2 ^ 64 = len := Nat.mod_eq_of_lt hl
  have hminus : ∀ {x : Outcome (Int × MState)}, x = .ret (-1, s) → x = .ret (r, s') →
      r = -1 ∧ s' = s := by
    intro x hx hy
    rw [hx] at hy
    injection hy with hy
    injection hy with a b
    exact ⟨a.symm, b.symm⟩
  by_cases h0 : r = 0
  · subst h0
    exact Or.inr ⟨rfl, (munmap_ret0 A E end_ PHYSTOP cpu s addr len ha hl s' h).2.2⟩
  · left
    unfold munmap at h
    simp only [e1, e2] at h
    by_cases h1 : addr % PGSIZE ≠ 0
    · rw [if_pos h1] at h
      exact hminus rfl h
    rw [if_neg h1] at h
    by_cases h2 : len % PGSIZE ≠ 0
    · rw [if_pos h2] at h
      exact hminus rfl h
    rw [if_neg h2] at h
    rcases munmap_slots_cases A E end_ PHYSTOP cpu s addr len A.NOFILE 0 with
      ⟨_, er⟩ | ⟨j, m, _, hj, hs, hcut, hfirst, er⟩
    · exact hminus er h
    · rw [er] at h
      exact absurd (munmap_matched_effect A E end_ PHYSTOP cpu _ addr len j m _ _ _ h).1 h0


/-- C14 (amended). If before `munmap(addr, len)` every mapping in a slot of the process
satisfies `m.addr mod PGSIZE = 0`, `m.len mod PGSIZE = 0` and `m.addr + m.len ≤ MAXVA`,
then for page-aligned `addr` and `len` with `len` at most the length of the first mapping
that the call matches, every mapping in a slot after the call was in that slot before,
satisfies the same three conditions, and has its new range within its old range. -/
theorem munmap_keeps_mappings_valid (A : Arch) (E : Env) (end_ PHYSTOP cpu : Nat) (s : MState)
    (addr len : Nat) (ha : addr < 2 ^ 64) (hl : len < 2 ^ 64) (hM : A.MAXVA < 2 ^ 64)
    (haa : addr % PGSIZE = 0) (hla : len % PGSIZE = 0)
    (hinv : ∀ i m, s.slots i = some m → (s.mmaptable m).addr % PGSIZE = 0 ∧
      (s.mmaptable m).len % PGSIZE = 0 ∧ (s.mmaptable m).addr + (s.mmaptable m).len ≤ A.MAXVA)
    (hlen : ∀ i m, i < A.NOFILE → s.slots i = some m → cuts_edge s addr len i →
      (∀ k, k < i → ¬ cuts_edge s addr len k) → len ≤ (s.mmaptable m).len)
    (r : Int) (s' : MState) (h : munmap A E end_ PHYSTOP cpu s addr len = .ret (r, s')) :
    ∀ j m, s'.slots j = some m →
      s.slots j = some m ∧
      (s'.mmaptable m).addr % PGSIZE = 0 ∧ (s'.mmaptable m).len % PGSIZE = 0 ∧
      (s'.mmaptable m).addr + (s'.mmaptable m).len ≤ A.MAXVA ∧
      (s.mmaptable m).addr ≤ (s'.mmaptable m).addr ∧
      (s'.mmaptable m).addr + (s'.mmaptable m).len ≤
        (s.mmaptable m).addr + (s.mmaptable m).len := by
  rcases munmap_ret_cases A E end_ PHYSTOP cpu s addr len ha hl r s' h with
    ⟨_, e⟩ | ⟨_, i, m, hi, hs, hcut, hfirst, hm⟩
  · subst e
    intro j m hj
    obtain ⟨a, b, c⟩ := hinv j m hj
    exact ⟨hj, a, b, c, le_refl _, le_refl _⟩
  · have hle := hlen i m hi hs hcut hfirst
    obtain ⟨a, b, c⟩ := hinv i m hs
    -- the fields of the mapping after the cut
    have hcut' : (munmap_cut (s.mmaptable m) addr len).addr % PGSIZE = 0 ∧
        (munmap_cut (s.mmaptable m) addr len).len % PGSIZE = 0 ∧
        (munmap_cut (s.mmaptable m) addr len).addr + (munmap_cut (s.mmaptable m) addr len).len
          ≤ A.MAXVA ∧
        (s.mmaptable m).addr ≤ (munmap_cut (s.mmaptable m) addr len).addr ∧
        (munmap_cut (s.mmaptable m) addr len).addr + (munmap_cut (s.mmaptable m) addr len).len
          ≤ (s.mmaptable m).addr + (s.mmaptable m).len := by
      unfold munmap_cut
      unfold PGSIZE at *
      norm_num at *
      by_cases e : (s.mmaptable m).addr = addr
      · rw [if_pos e]
        simp only
        omega
      · rw [if_neg e]
        simp only
        omega
    obtain ⟨_, hcase⟩ := munmap_matched_effect A E end_ PHYSTOP cpu _ addr len i m _ _ _ hm
    simp only [Function.update_same] at hcase
    -- in both cases the descriptors are those before, but for the fields of `m`
    have key : s'.slots = s.slots ∨ s'.slots = Function.update s.slots i none := by
      rcases hcase with ⟨_, _, e2, _⟩ | ⟨_, e2, _⟩
      · exact Or.inl e2
      · exact Or.inr e2
    have hfield : ∀ m', (s'.mmaptable m').addr =
          (Function.update s.mmaptable m (munmap_cut (s.mmaptable m) addr len) m').addr ∧
        (s'.mmaptable m').len =
          (Function.update s.mmaptable m (munmap_cut (s.mmaptable m) addr len) m').len := by
      intro m'
      rcases hcase with ⟨_, e1, _, _⟩ | ⟨_, _, f, _, _, e1, _, _⟩
      · rw [e1]
        exact ⟨rfl, rfl⟩
      · rw [e1]
        by_cases em : m' = m
        · subst em
          simp
        · rw [Function.update_noteq em]
          exact ⟨rfl, rfl⟩
    intro j m' hj
    have hsj : s.slots j = some m' := by
      rcases key with e | e
      · rw [e] at hj; exact hj
      · rw [e] at hj
        by_cases ej : j = i
        · subst ej
          rw [Function.update_same] at hj
          cases hj
        · rw [Function.update_noteq ej] at hj
          exact hj
    refine ⟨hsj, ?_⟩
    obtain ⟨f1, f2⟩ := hfield m'
    rw [f1, f2]
    by_cases em : m' = m
    · subst em
      simp only [Function.update_same]
      exact hcut'
    · rw [Function.update_noteq em]
      obtain ⟨a', b', c'⟩ := hinv j m' hsj
      exact ⟨a', b', c', le_refl _, le_refl _⟩


theorem demo_slots (i m : Nat) (h : demo_mstate.slots i = some m) : i = 0 ∧ m = 0 := by
  have h1 : (if i = 0 then some 0 else none) = some m := h
  by_cases e : i = 0
  · rw [if_pos e] at h1
    injection h1 with h1
    exact ⟨e, h1.symm⟩
  · rw [if_neg e] at h1
    cases h1

/-- C14 as stated fails. In `demo_wide` the only mapping, `[0x10000, 0x12000)`, satisfies the
three conditions. `munmap(0x10000, 0x3000)`, with page-aligned arguments, matches it at
its start and returns 0; afterwards the slot still holds the mapping, with
`addr = 0x13000` and `len = 2^64 - 0x1000` (the 64-bit difference `0x2000 - 0x3000`), so
`addr + len` exceeds `MAXVA` and the new range is not within the old one. -/
theorem munmap_longer_than_mapping_breaks_bounds :
    (∀ i m, demo_wide.slots i = some m → (demo_wide.mmaptable m).addr % PGSIZE = 0 ∧
      (demo_wide.mmaptable m).len % PGSIZE = 0 ∧
      (demo_wide.mmaptable m).addr + (demo_wide.mmaptable m).len ≤ rv39.MAXVA) ∧
    0x10000 % PGSIZE = 0 ∧ 0x3000 % PGSIZE = 0 ∧
    retval (munmap rv39 demo_env 4096 20480 0 demo_wide 0x10000 0x3000) = some 0 ∧
    (retstate demo_wide
      (munmap rv39 demo_env 4096 20480 0 demo_wide 0x10000 0x3000)).slots 0 = some 0 ∧
    ((retstate demo_wide
      (munmap rv39 demo_env 4096 20480 0 demo_wide 0x10000 0x3000)).mmaptable 0).addr
        = 0x13000 ∧
    ((retstate demo_wide
      (munmap rv39 demo_env 4096 20480 0 demo_wide 0x10000 0x3000)).mmaptable 0).len
        = 2 ^ 64 - 0x1000 ∧
    ¬ (((retstate demo_wide
        (munmap rv39 demo_env 4096 20480 0 demo_wide 0x10000 0x3000)).mmaptable 0).addr +
      ((retstate demo_wide
        (munmap rv39 demo_env 4096 20480 0 demo_wide 0x10000 0x3000)).mmaptable 0).len
        ≤ rv39.MAXVA) ∧
    ¬ (((retstate demo_wide
        (munmap rv39 demo_env 4096 20480 0 demo_wide 0x10000 0x3000)).mmaptable 0).addr +
      ((retstate demo_wide
        (munmap rv39 demo_env 4096 20480 0 demo_wide 0x10000 0x3000)).mmaptable 0).len
        ≤ (demo_wide.mmaptable 0).addr + (demo_wide.mmaptable 0).len) := by
  refine ⟨?_, by decide, by decide, by decide, by decide, by decide, by decide, by decide,
    by decide⟩
  intro i m h
  obtain ⟨_, rfl⟩ := demo_slots i m h
  decide

/-- C14 (amended), at a concrete input: `munmap(0x10000, 0x1000)` in `demo_mstate` cuts one
page of the two of the mapping. -/
theorem munmap_keeps_mappings_valid_witness :
    retval (munmap rv39 demo_env 4096 20480 0 demo_mstate 0x10000 0x1000) = some 0 ∧
    ∀ j m, (retstate demo_mstate
        (munmap rv39 demo_env 4096 20480 0 demo_mstate 0x10000 0x1000)).slots j = some m →
      demo_mstate.slots j = some m ∧
      ((retstate demo_mstate
        (munmap rv39 demo_env 4096 20480 0 demo_mstate 0x10000 0x1000)).mmaptable m).addr
          % PGSIZE = 0 ∧
      ((retstate demo_mstate
        (munmap rv39 demo_env 4096 20480 0 demo_mstate 0x10000 0x1000)).mmaptable m).len
          % PGSIZE = 0 ∧
      ((retstate demo_mstate
        (munmap rv39 demo_env 4096 20480 0 demo_mstate 0x10000 0x1000)).mmaptable m).addr +
        ((retstate demo_mstate
          (munmap rv39 demo_env 4096 20480 0 demo_mstate 0x10000 0x1000)).mmaptable m).len
          ≤ rv39.MAXVA ∧
      (demo_mstate.mmaptable m).addr ≤
        ((retstate demo_mstate
          (munmap rv39 demo_env 4096 20480 0 demo_mstate 0x10000 0x1000)).mmaptable m).addr ∧
      ((retstate demo_mstate
        (munmap rv39 demo_env 4096 20480 0 demo_mstate 0x10000 0x1000)).mmaptable m).addr +
        ((retstate demo_mstate
          (munmap rv39 demo_env 4096 20480 0 demo_mstate 0x10000 0x1000)).mmaptable m).len
          ≤ (demo_mstate.mmaptable m).addr + (demo_mstate.mmaptable m).len :=
  ⟨by decide,
    munmap_keeps_mappings_valid rv39 demo_env 4096 20480 0 demo_mstate 0x10000 0x1000
      (by norm_num) (by norm_num) (by decide) (by decide) (by decide)
      (fun i m h => by
        obtain ⟨_, rfl⟩ := demo_slots i m h
        decide)
      (fun i m _ h _ _ => by
        obtain ⟨_, rfl⟩ := demo_slots i m h
        decide)
      0 _ (ret_retstate _ demo_mstate _ (by decide))⟩


theorem testBit_small {x n k : Nat} (h : x < 2 ^ n) (hk : n ≤ k) : x.testBit k = false :=
  Nat.testBit_lt_two_pow (Nat.lt_of_lt_of_le h (Nat.pow_le_pow_right (by norm_num) hk))

/-- The PTE that `mmap_fault_handler` installs, bit by bit, for the macros of `riscv.h` and
flag masks `V` and `M` among the ten flag bits: the bits of `V` are set, a bit of `M`
that was set is still set, every other flag bit is as before, and the physical address
is that of the page. -/
theorem fault_pte_bits (V M pte mem : Nat) (hV : V < 2 ^ 10) (hM : M < 2 ^ 10)
    (hpV : pte &&& V = 0) (hpM : pte &&& M ≠ 0) :
    (rv39.PA2PTE mem ||| ((rv39.PTE_FLAGS pte % 2 ^ 32) ^^^ V)) &&& V = V ∧
    (rv39.PA2PTE mem ||| ((rv39.PTE_FLAGS pte % 2 ^ 32) ^^^ V)) &&& M ≠ 0 ∧
    (∀ k, k < 10 → V.testBit k = false →
      (rv39.PA2PTE mem ||| ((rv39.PTE_FLAGS pte % 2 ^ 32) ^^^ V)).testBit k = pte.testBit k) ∧
    rv39.PTE2PA (rv39.PA2PTE mem ||| ((rv39.PTE_FLAGS pte % 2 ^ 32) ^^^ V)) =
      PGROUNDDOWN mem := by
  have hbit : ∀ k, (rv39.PA2PTE mem ||| ((rv39.PTE_FLAGS pte % 2 ^ 32) ^^^ V)).testBit k =
      ((decide (k ≥ 10) && (mem / 2 ^ 12).testBit (k - 10)) ||
        (xor (decide (k < 32) && (decide (k < 10) && pte.testBit k)) (V.testBit k))) := by
    intro k
    have e : rv39.PA2PTE mem = 2 ^ 10 * (mem / 2 ^ 12) := Nat.mul_comm _ _
    rw [e]
    simp only [rv39, Nat.testBit_or, Nat.testBit_xor, Nat.testBit_mul_pow_two,
      Nat.testBit_mod_two_pow]
  have hVk : ∀ k, V.testBit k = true → k < 10 ∧ pte.testBit k = false := by
    intro k hk
    have h1 : k < 10 := by
      by_contra hge
      rw [testBit_small hV (by omega)] at hk
      cases hk
    refine ⟨h1, ?_⟩
    have h2 : (pte &&& V).testBit k = false := by rw [hpV]; exact Nat.zero_testBit k
    rw [Nat.testBit_and, hk] at h2
    simpa using h2
  refine ⟨?_, ?_, ?_, ?_⟩
  · apply Nat.eq_of_testBit_eq
    intro k
    rw [Nat.testBit_and, hbit]
    cases hv : V.testBit k with
    | false => simp
    | true =>
      obtain ⟨h1, h2⟩ := hVk k hv
      simp [h2]
  · obtain ⟨k, hk⟩ := Nat.ne_zero_implies_bit_true hpM
    rw [Nat.testBit_and] at hk
    have hp : pte.testBit k = true := by
      cases h : pte.testBit k <;> simp [h] at hk ⊢
    have hm : M.testBit k = true := by
      cases h : M.testBit k <;> simp [h] at hk ⊢
    have hk10 : k < 10 := by
      by_contra hge
      rw [testBit_small hM (by omega)] at hm
      cases hm
    have hv : V.testBit k = false := by
      cases h : V.testBit k with
      | false => rfl
      | true =>
        have := (hVk k h).2
        rw [hp] at this
        cases this
    intro h0
    have h1 : ((rv39.PA2PTE mem ||| ((rv39.PTE_FLAGS pte % 2 ^ 32) ^^^ V)) &&& M).testBit k
        = false := by rw [h0]; exact Nat.zero_testBit k
    rw [Nat.testBit_and, hbit, hm, hv, hp] at h1
    have : k < 32 := by omega
    simp [hk10, this] at h1
  · intro k hk hv
    rw [hbit, hv]
    have : k < 32 := by omega
    simp [hk, this]
  · have e : (rv39.PA2PTE mem ||| ((rv39.PTE_FLAGS pte % 2 ^ 32) ^^^ V)) / 2 ^ 10 =
        mem / 2 ^ 12 := by
      rw [← Nat.shiftRight_eq_div_pow]
      apply Nat.eq_of_testBit_eq
      intro j
      rw [Nat.testBit_shiftRight, hbit]
      have hv : V.testBit (10 + j) = false := testBit_small hV (by omega)
      rw [hv]
      have h1 : ¬ (10 + j < 10) := by omega
      have h2 : 10 + j - 10 = j := by omega
      simp [h1, h2]
    show (rv39.PA2PTE mem ||| ((rv39.PTE_FLAGS pte % 2 ^ 32) ^^^ V)) / 2 ^ 10 * 2 ^ 12 = _
    rw [e]
    unfold PGROUNDDOWN PGSIZE
    norm_num


/-- In a state of the allocator that respects its contract, a page that `kalloc` returns is
a page of the allocator. -/
theorem KInv.kalloc_valid {NCPU end_ PHYSTOP : Nat} {k : Kmem} {u : List Nat}
    (hk : KInv NCPU end_ PHYSTOP k u) {c : Nat} (hc : c < NCPU)
    (hne : (kalloc NCPU k c).1 ≠ 0) : validPage end_ PHYSTOP (kalloc NCPU k c).1 := by
  obtain ⟨L, hL, hv, _, _, _⟩ := hk
  rcases kalloc_cases NCPU k c hc with ⟨j, hj, hjne, _, e⟩ | ⟨_, e⟩
  · rw [e]
    rcases hL.head_cases hj with ⟨e0, _⟩ | ⟨_, t, et⟩
    · exact absurd e0 hjne
    · exact hv j _ hj (by rw [et]; exact List.mem_cons_self _ _)
  · rw [e] at hne
    exact absurd rfl hne

/-- C13 (amended). After `mmap_fault_handler` returns 0 for the page at `va`, the PTE of
the page has `PTE_V` set, the sentinel `PTE_M` is still set, its physical-address field
is the page that `kalloc` returned, and every flag bit outside `PTE_V` is as before the
fault; no other PTE changed. `PA2PTE`, `PTE2PA` and `PTE_FLAGS` are those of `riscv.h`,
`PTE_V` and `PTE_M` are any masks among the ten flag bits, and the allocator is in a
state that calls respecting its contract lead to. -/
theorem fault_sets_valid_keeps_mapped (A : Arch) (E : Env) (NCPU end_ PHYSTOP cpu1 cpu2 : Nat)
    (s : MState) (va : Nat) (s' : MState) (u : List Nat)
    (hF : A.PTE_FLAGS = rv39.PTE_FLAGS) (hPA : A.PA2PTE = rv39.PA2PTE)
    (hPT : A.PTE2PA = rv39.PTE2PA) (hV : A.PTE_V < 2 ^ 10) (hM : A.PTE_M < 2 ^ 10)
    (hc1 : cpu1 < NCPU) (hk : KInv NCPU end_ PHYSTOP s.kmem u)
    (h : mmap_fault_handler A E NCPU end_ PHYSTOP cpu1 cpu2 s va = .ret (0, s')) :
    ∃ pte pte', s.pt (PGROUNDDOWN (va % 2 ^ 64) / PGSIZE) = some pte ∧
      s'.pt (PGROUNDDOWN (va % 2 ^ 64) / PGSIZE) = some pte' ∧
      pte &&& A.PTE_V = 0 ∧ pte &&& A.PTE_M ≠ 0 ∧
      pte' &&& A.PTE_V = A.PTE_V ∧ pte' &&& A.PTE_M ≠ 0 ∧
      (kalloc NCPU s.kmem cpu1).1 ≠ 0 ∧ A.PTE2PA pte' = (kalloc NCPU s.kmem cpu1).1 ∧
      (∀ k, k < 10 → A.PTE_V.testBit k = false → pte'.testBit k = pte.testBit k) ∧
      ∀ n, n ≠ PGROUNDDOWN (va % 2 ^ 64) / PGSIZE → s'.pt n = s.pt n := by
  obtain ⟨_, pte, i, m, hpte, hpV, hpM, hne, _, _, _, _, hload⟩ :=
    mmap_fault_handler_ret0 A E NCPU end_ PHYSTOP cpu1 cpu2 s va s' h
  obtain ⟨_, _, _, _, _, hpt⟩ := mmap_fault_load_ret A E _ _ _ _ _ _ _ hload
  simp only at hpt
  obtain ⟨b1, b2, b3, b4⟩ := fault_pte_bits A.PTE_V A.PTE_M pte (kalloc NCPU s.kmem cpu1).1
    hV hM hpV hpM
  have hval := hk.kalloc_valid hc1 hne
  have hround : PGROUNDDOWN (kalloc NCPU s.kmem cpu1).1 = (kalloc NCPU s.kmem cpu1).1 :=
    Nat.div_mul_cancel (Nat.dvd_of_mod_eq_zero hval.1)
  refine ⟨pte, _, hpte, by rw [hpt]; exact Function.update_same _ _ _, hpV, hpM, ?_, ?_, hne,
    ?_, ?_, ?_⟩
  · rw [hPA, hF]; exact b1
  · rw [hPA, hF]; exact b2
  · rw [hPA, hF, hPT, b4, hround]
  · rw [hPA, hF]; exact b3
  · intro n hn
    rw [hpt]
    exact Function.update_noteq hn _ _

/-- C13 as stated fails: in `demo_small` the PTE of `0x10000` is `PTE_R | PTE_W | PTE_U |
PTE_M`; the fault handler returns 0 and leaves the PTE `PA2PTE(0x2000) | 279`, in which
`PTE_V` is set and the sentinel `PTE_M` is set as well. -/
theorem fault_leaves_mapped_bit_set :
    demo_small.pt 0x10 = some (2 + 4 + 16 + rv39.PTE_M) ∧
    retval (mmap_fault_handler rv39 demo_env 1 4096 20480 0 0 demo_small 0x10000) = some 0 ∧
    (retstate demo_small
      (mmap_fault_handler rv39 demo_env 1 4096 20480 0 0 demo_small 0x10000)).pt 0x10 =
        some (rv39.PA2PTE 0x2000 + 279) ∧
    (rv39.PA2PTE 0x2000 + 279) &&& rv39.PTE_V ≠ 0 ∧
    ¬ ((rv39.PA2PTE 0x2000 + 279) &&& rv39.PTE_M = 0) :=
  ⟨by decide, by decide!, by decide!, by decide, by decide⟩

/-- C13 (amended), at a concrete input: the first fault of `demo_small`. -/
theorem fault_sets_valid_keeps_mapped_witness :
    retval (mmap_fault_handler rv39 demo_env 1 4096 20480 0 0 demo_small 0x10000) = some 0 ∧
    ∃ pte pte', demo_small.pt (PGROUNDDOWN (0x10000 % 2 ^ 64) / PGSIZE) = some pte ∧
      (retstate demo_small
        (mmap_fault_handler rv39 demo_env 1 4096 20480 0 0 demo_small 0x10000)).pt
          (PGROUNDDOWN (0x10000 % 2 ^ 64) / PGSIZE) = some pte' ∧
      pte' &&& rv39.PTE_V = rv39.PTE_V ∧ pte' &&& rv39.PTE_M ≠ 0 ∧
      rv39.PTE2PA pte' = (kalloc 1 demo_small.kmem 0).1 := by
  refine ⟨by decide!, ?_⟩
  obtain ⟨pte, pte', h1, h2, _, _, h3, h4, _, h5, _⟩ :=
    fault_sets_valid_keeps_mapped rv39 demo_env 1 4096 20480 0 0 demo_small 0x10000
      (retstate demo_small
        (mmap_fault_handler rv39 demo_env 1 4096 20480 0 0 demo_small 0x10000))
      demo_kmem.2 rfl rfl rfl (by decide) (by decide) (by decide)
      ((show KReach 1 4096 20480 (fun _ => 0) 0 demo_kmem.1 demo_kmem.2 from
        KReach.of_kafter _ _ _ (KReach.init _ (by decide) rfl)).kinv (by decide) (by decide))
      (ret_retstate _ _ _ (by decide!))
  exact ⟨pte, pte', h1, h2, h3, h4, h5⟩


/-- C15 at a failing input. In `demo_accessed` the page at `0x10000` has `PTE_A` set.
`sys_pgaccess(0x10000, 1, 0x5000)` on a zeroed user buffer returns 0 and clears `PTE_A`,
and byte 0 of the buffer is still 0: `copyout` is called with length `n / 8 = 0`, so bit 0
is never stored. With `n = 8` the byte is copied and is 1. -/
theorem pgaccess_drops_partial_byte :
    (∃ pte, demo_accessed.pt 0x10 = some pte ∧ pte &&& rv39.PTE_A ≠ 0) ∧
    retval (sys_pgaccess rv39 (fun _ => 0) demo_accessed (fun _ => 0) 0x10000 1 0x5000)
      = some 0 ∧
    (retstate (demo_accessed, fun _ => 0)
      (sys_pgaccess rv39 (fun _ => 0) demo_accessed (fun _ => 0) 0x10000 1 0x5000)).2 0x5000
      = 0 ∧
    (∃ pte, (retstate (demo_accessed, fun _ => 0)
      (sys_pgaccess rv39 (fun _ => 0) demo_accessed (fun _ => 0) 0x10000 1 0x5000)).1.pt 0x10
        = some pte ∧ pte &&& rv39.PTE_A = 0) ∧
    (retstate (demo_accessed, fun _ => 0)
      (sys_pgaccess rv39 (fun _ => 0) demo_accessed (fun _ => 0) 0x10000 8 0x5000)).2 0x5000
      = 1 :=
  ⟨⟨_, rfl, by decide⟩, by decide, by decide, ⟨3351, by decide, by decide⟩, by decide⟩


/-- C18 at a failing input. In `demo_mstate` entry 0 of the mapping table is in use and
entry 1 is free. `mmapdup` of entry 0, called with `mmaptable.lock` free, with `uvmmmap`
returning `0x20000` instead of the address `0x10000` of the source mapping, returns null
and leaves entry 1 free, and `mmaptable.lock` is still held. On the other return paths
(`uvmmmap` returning the address of the source; a table with no free entry) the lock is
released. -/
theorem mmapdup_returns_with_lock_held :
    (mmapdup (fun _ _ _ => 0x20000) 4 demo_mstate false 0).toOption.map (fun r => r.1)
      = some none ∧
    (mmapdup (fun _ _ _ => 0x20000) 4 demo_mstate false 0).toOption.map
      (fun r => (r.2.1.mmaptable 1).file) = some none ∧
    (mmapdup (fun _ _ _ => 0x20000) 4 demo_mstate false 0).toOption.map (fun r => r.2.2)
      = some true ∧
    (mmapdup (fun va _ _ => va) 4 demo_mstate false 0).toOption.map (fun r => (r.1, r.2.2))
      = some (some 1, false) ∧
    (mmapdup (fun va _ _ => va) 1 demo_mstate false 0).toOption.map (fun r => (r.1, r.2.2))
      = some (none, false) :=
  ⟨by decide, by decide, by decide, by decide, by decide⟩


/-- C19 at a failing input. In `demo_high` the mapping is the page at `0x80000000`
(`2^31`, below `MAXVA`), present and dirty. `munmap(0x80000000, 0x1000)` matches it and
returns 0, but its page loop runs no iteration: `int va = addr` is `-2^31`, which
converted to `uint64` for `va < addr + len` is `0xffffffff80000000`. The page is not
written back, its PTE is still valid and the physical page is not freed, while the
mapping is released. -/
theorem munmap_skips_pages_above_2G :
    0x80000000 + 0x1000 ≤ rv39.MAXVA ∧
    sext (0x80000000 % 2 ^ 32) = 0xffffffff80000000 ∧
    retval (munmap rv39 demo_env 4096 20480 0 demo_high 0x80000000 0x1000) = some 0 ∧
    (retstate demo_high
      (munmap rv39 demo_env 4096 20480 0 demo_high 0x80000000 0x1000)).log =
      [.begin_op, .ilock 7, .iunlock 7, .end_op, .begin_op, .iput 7, .end_op] ∧
    (retstate demo_high
      (munmap rv39 demo_env 4096 20480 0 demo_high 0x80000000 0x1000)).pt 0x80000 =
      some (rv39.PA2PTE 0x3000 + demo_flags) ∧
    (rv39.PA2PTE 0x3000 + demo_flags) &&& rv39.PTE_V ≠ 0 ∧
    (retstate demo_high
      (munmap rv39 demo_env 4096 20480 0 demo_high 0x80000000 0x1000)).kmem.freelist 0 =
      demo_high.kmem.freelist 0 ∧
    (retstate demo_high
      (munmap rv39 demo_env 4096 20480 0 demo_high 0x80000000 0x1000)).slots 0 = none :=
  ⟨by decide, by decide, by decide, by decide, by decide, by decide, by decide, by decide⟩


/-- C16. In every state reachable from `binit` by complete calls, the bucket rings are
well-formed doubly-linked rings through their sentinel heads and the free list is a
null-terminated chain, and each of the `NBUF` buffers is in exactly one place: either
it occurs exactly once on the free list and in no bucket, or it occurs exactly once in
bucket `blockno mod NBUCKET`, in no other bucket and not on the free list. -/
theorem each_buffer_in_one_place (NBUF NBUCKET : Nat) (hN : 0 < NBUCKET)
    (disk : Nat → Nat → List Nat) (s : BState) (h : Reachable NBUF NBUCKET disk s) :
    ∃ (bk : Nat → List Nat) (fl : List Nat), (∀ i, i < NBUCKET → bucketList NBUF s i = some (bk i) ∧
        DSeg s (.head i) (bk i) (.head i)) ∧
      freeList NBUF s = some fl ∧ FSeg s s.freelist fl ∧
      ∀ b, b < NBUF →
        (fl.count b = 1 ∧ ∀ i, i < NBUCKET → (bk i).count b = 0) ∨
        (fl.count b = 0 ∧ (bk (s.blockno (.buf b) % NBUCKET)).count b = 1 ∧
          ∀ i, i < NBUCKET → i ≠ s.blockno (.buf b) % NBUCKET → (bk i).count b = 0) := by
  obtain ⟨bk, fl, hrep, _, _⟩ := h.inv hN
  refine ⟨bk, fl, fun i hi => ⟨hrep.bucketList_eq hi, hrep.ring i hi⟩, hrep.freeList_eq,
    hrep.free, ?_⟩
  intro b hb
  rcases (hrep.cover b).mp hb with hfl | ⟨i, hi, hbi⟩
  · left
    refine ⟨List.count_eq_one_of_mem hrep.nd_fl hfl, ?_⟩
    intro i hi
    exact List.count_eq_zero_of_not_mem (fun hbi => hrep.disj_fl i b hi hbi hfl)
  · right
    have hh := hrep.hash i b hi hbi
    rw [hh]
    refine ⟨List.count_eq_zero_of_not_mem (hrep.disj_fl i b hi hbi),
      List.count_eq_one_of_mem (hrep.nd_bk i hi) hbi, ?_⟩
    intro j hj hji
    exact List.count_eq_zero_of_not_mem
      (fun hbj => hji (hrep.disj_bk j i b hj hi hbj hbi))

/-- C16, at a concrete input: in `demo_state` the three buffers are all in bucket 1 and the
free list is empty. -/
theorem each_buffer_in_one_place_witness :
    bucketList 3 demo_state 0 = some [] ∧ bucketList 3 demo_state 1 = some [0, 2, 1] ∧
    freeList 3 demo_state = some [] ∧
    ∃ (bk : Nat → List Nat) (fl : List Nat), (∀ i, i < 2 → bucketList 3 demo_state i = some (bk i) ∧
        DSeg demo_state (.head i) (bk i) (.head i)) ∧
      freeList 3 demo_state = some fl ∧ FSeg demo_state demo_state.freelist fl ∧
      ∀ b, b < 3 →
        (fl.count b = 1 ∧ ∀ i, i < 2 → (bk i).count b = 0) ∨
        (fl.count b = 0 ∧ (bk (demo_state.blockno (.buf b) % 2)).count b = 1 ∧
          ∀ i, i < 2 → i ≠ demo_state.blockno (.buf b) % 2 → (bk i).count b = 0) :=
  ⟨by decide, by decide, by decide,
    each_buffer_in_one_place 3 2 (by decide) (fun _ _ => []) demo_state
      (Reachable.of_stateAfter 3 2 _ _)⟩


theorem inc32_succ {n : Nat} (h : n + 2 ≤ 2 ^ 32) : inc32 n = n + 1 := by
  unfold inc32
  norm_num at h ⊢
  omega

theorem PinInv.pinit (NBUF NBUCKET : Nat) (disk : Nat → Nat → List Nat) :
    PinInv NBUF NBUCKET (binit NBUF NBUCKET disk) := by
  obtain ⟨_, _, _, _, hc⟩ := Inv.init NBUF NBUCKET disk
  refine ⟨_, _, Rep.of_binit NBUF NBUCKET disk, fun i b _ hb => by simp at hb, hc,
    fun i b _ hb => by simp at hb, ?_⟩
  intro p _
  have h1 : ∀ (n : Nat) (s0 : BState),
      ((List.range n).foldl binit_bucket s0).refcnt = s0.refcnt := by
    intro n s0
    induction n with
    | zero => rfl
    | succ n ih =>
      simp only [List.range_succ, List.foldl_append, List.foldl_cons, List.foldl_nil]
      exact ih
  have h2 : ∀ (n : Nat) (s0 : BState),
      ((List.range n).foldl binit_buf s0).refcnt = s0.refcnt := by
    intro n s0
    induction n with
    | zero => rfl
    | succ n ih =>
      simp only [List.range_succ, List.foldl_append, List.foldl_cons, List.foldl_nil]
      exact ih
  have h3 : (Xv6.binit NBUF NBUCKET disk).refcnt p = 0 := by
    unfold Xv6.binit
    simp only
    rw [h2]
    show ((List.range NBUCKET).foldl binit_bucket (BState.zero disk)).refcnt p = 0
    rw [h1]
    rfl
  rw [h3]
  norm_num

/-- A complete call that respects the discipline on pins keeps the invariant. -/
theorem PinInv.pstep {NBUF NBUCKET : Nat} (hN : 0 < NBUCKET) {s s' : BState} (c : BCall)
    (h : PinInv NBUF NBUCKET s) (hp : c.pinned s = true)
    (hr : c.run NBUF NBUCKET s = some s') : PinInv NBUF NBUCKET s' := by
  obtain ⟨bk, fl, hrep, hv, hc, hone, hroom⟩ := h
  cases c with
  | bread pid dev blockno =>
    have hi : blockno % NBUCKET < NBUCKET := Nat.mod_lt _ hN
    simp only [BCall.run] at hr
    rcases hrep.bread_cases hv hN pid dev blockno with ⟨x, hx, hk1, hk2, ⟨hl, e⟩ | ⟨hl, e⟩⟩ |
      ⟨hk, ⟨hfl, hf, e⟩ | ⟨x, fl', hfl, hf, e⟩⟩
    · rw [e] at hr
      injection hr with hr
      subst hr
      refine ⟨_, _, hrep.hit pid hi hx, Loaded.on_hit hv pid hx,
        hc.update _ (.buf x) _ (inc32_lt _) rfl, ?_, ?_⟩
      · intro j c hj hcj
        have hc' : c ∈ bk j := by
          by_cases hji : j = blockno % NBUCKET
          · subst hji; rw [Function.update_same] at hcj; exact (mem_move_front hx).mp hcj
          · rwa [Function.update_noteq hji] at hcj
        show 1 ≤ Function.update s.refcnt (.buf x) (inc32 (s.refcnt (.buf x))) (.buf c)
        rw [Function.update_apply]
        split
        · rw [inc32_succ (hroom _ hl)]
          omega
        · exact hone j c hj hc'
      · intro p hpl
        have hpl' : Function.update s.lock (.buf x) (some pid) p = none := hpl
        have hne : p ≠ .buf x := by
          intro e0
          rw [e0, Function.update_same] at hpl'
          cases hpl'
        rw [Function.update_noteq hne] at hpl'
        show Function.update s.refcnt (.buf x) (inc32 (s.refcnt (.buf x))) p + 2 ≤ 2 ^ 32
        rw [Function.update_noteq hne]
        exact hroom p hpl'
    · rw [e] at hr; cases hr
    · rw [e] at hr; cases hr
    · rw [e] at hr
      injection hr with hr
      subst hr
      subst hfl
      have := hrep.load_miss hv pid hi rfl hk
      refine ⟨_, _, this.1, this.2, hc.update _ (.buf x) 1 (by norm_num) rfl, ?_, ?_⟩
      · intro j c hj hcj
        show 1 ≤ Function.update s.refcnt (.buf x) 1 (.buf c)
        rw [Function.update_apply]
        split
        · exact le_refl _
        · rename_i hne
          have hc' : c ∈ bk j := by
            by_cases hji : j = blockno % NBUCKET
            · subst hji
              rw [Function.update_same] at hcj
              rcases List.mem_cons.mp hcj with e0 | e0
              · exact absurd (by rw [e0]) hne
              · exact e0
            · rwa [Function.update_noteq hji] at hcj
          exact hone j c hj hc'
      · intro p hpl
        have hpl' : Function.update s.lock (.buf x) (some pid) p = none := hpl
        have hne : p ≠ .buf x := by
          intro e0
          rw [e0, Function.update_same] at hpl'
          cases hpl'
        rw [Function.update_noteq hne] at hpl'
        show Function.update s.refcnt (.buf x) 1 p + 2 ≤ 2 ^ 32
        rw [Function.update_noteq hne]
        exact hroom p hpl'
  | bwrite pid b =>
    simp only [BCall.run] at hr
    unfold Xv6.bwrite at hr
    by_cases hl : holdingsleep s (.buf b) pid = true
    · by_cases hb : b < NBUF
      · simp [hl, hb] at hr
        subst hr
        exact ⟨bk, fl, hrep.same rfl rfl rfl rfl rfl rfl, hv, hc, hone, hroom⟩
      · simp [hl, hb] at hr
    · simp [hl] at hr
  | brelse pid b =>
    simp only [BCall.run] at hr
    cases e : Xv6.brelse s pid (.buf b) with
    | ret s1 =>
      rw [e] at hr
      by_cases hb : b < NBUF
      · simp [hb] at hr
        subst hr
        have hl := brelse_ret_locked e
        obtain ⟨hi, hx⟩ := hrep.locked_mem hl
        have hb1 := hone _ b hi hx
        have hpred := dec32_pred (by omega : 0 < s.refcnt (.buf b)) (hc (.buf b))
        rcases hrep.brelse_cases hl with ⟨_, e2⟩ | ⟨hnz, e2⟩
        · rw [e2] at e
          injection e with e
          subst e
          have hmem : ∀ j c, j < NBUCKET →
              c ∈ Function.update bk (s.blockno (.buf b) % NBUCKET)
                ((bk (s.blockno (.buf b) % NBUCKET)).erase b) j → c ∈ bk j ∧ c ≠ b := by
            intro j c hj hcj
            by_cases hji : j = s.blockno (.buf b) % NBUCKET
            · subst hji
              rw [Function.update_same] at hcj
              have := (List.Nodup.mem_erase_iff (hrep.nd_bk _ hj)).mp hcj
              exact ⟨this.2, this.1⟩
            · rw [Function.update_noteq hji] at hcj
              refine ⟨hcj, ?_⟩
              intro e0
              subst e0
              exact hji (hrep.disj_bk j _ c hj hi hcj hx)
          refine ⟨_, _, hrep.rel hi hx, ?_, hc.update _ (.buf b) 0 (by norm_num) rfl, ?_, ?_⟩
          · intro j c hj hcj
            exact hv j c hj (hmem j c hj hcj).1
          · intro j c hj hcj
            obtain ⟨m1, m2⟩ := hmem j c hj hcj
            show 1 ≤ Function.update s.refcnt (.buf b) 0 (.buf c)
            rw [Function.update_noteq (by simpa using m2)]
            exact hone j c hj m1
          · intro p hpl
            show Function.update s.refcnt (.buf b) 0 p + 2 ≤ 2 ^ 32
            rw [Function.update_apply]
            split
            · norm_num
            · rename_i hne
              have hpl' : Function.update s.lock (.buf b) none p = none := hpl
              rw [Function.update_noteq hne] at hpl'
              exact hroom p hpl'
        · rw [e2] at e
          injection e with e
          subst e
          refine ⟨bk, fl, hrep.of_shape (hrep.toShape.congr rfl rfl rfl)
            (fun _ _ _ => Iff.rfl) rfl rfl ?_, hv, hc.update _ (.buf b) _ (dec32_lt _) rfl,
            ?_, ?_⟩
          · intro p q hp
            left
            simp only [Function.update_apply] at hp
            split at hp
            · cases hp
            · exact hp
          · intro j c hj hcj
            show 1 ≤ Function.update s.refcnt (.buf b) (dec32 (s.refcnt (.buf b))) (.buf c)
            rw [Function.update_apply]
            split
            · omega
            · exact hone j c hj hcj
          · intro p hpl
            show Function.update s.refcnt (.buf b) (dec32 (s.refcnt (.buf b))) p + 2 ≤ 2 ^ 32
            rw [Function.update_apply]
            split
            · have := hc (.buf b)
              omega
            · rename_i hne
              have hpl' : Function.update s.lock (.buf b) none p = none := hpl
              rw [Function.update_noteq hne] at hpl'
              exact hroom p hpl'
      · simp [hb] at hr
    | panic m => rw [e] at hr; cases hr
    | fault => rw [e] at hr; cases hr
    | hang => rw [e] at hr; cases hr
  | bpin b =>
    simp only [BCall.run, Xv6.bpin] at hr
    simp only [BCall.pinned, decide_eq_true_eq] at hp
    by_cases hb : b < NBUF
    · simp [hb] at hr
      subst hr
      have hinc : inc32 (s.refcnt (.buf b)) = s.refcnt (.buf b) + 1 := inc32_succ (by omega)
      refine ⟨bk, fl, hrep.same rfl rfl rfl rfl rfl rfl, hv,
        hc.update _ (.buf b) _ (inc32_lt _) rfl, ?_, ?_⟩
      · intro j c hj hcj
        show 1 ≤ Function.update s.refcnt (.buf b) (inc32 (s.refcnt (.buf b))) (.buf c)
        rw [Function.update_apply]
        split
        · omega
        · exact hone j c hj hcj
      · intro p hpl
        show Function.update s.refcnt (.buf b) (inc32 (s.refcnt (.buf b))) p + 2 ≤ 2 ^ 32
        rw [Function.update_apply]
        split
        · omega
        · exact hroom p hpl
    · simp [hb] at hr
  | bunpin b =>
    simp only [BCall.run, Xv6.bunpin] at hr
    simp only [BCall.pinned, decide_eq_true_eq] at hp
    by_cases hb : b < NBUF
    · simp [hb] at hr
      subst hr
      have hpred := dec32_pred (by omega : 0 < s.refcnt (.buf b)) (hc (.buf b))
      have hlt := hc (.buf b)
      refine ⟨bk, fl, hrep.same rfl rfl rfl rfl rfl rfl, hv,
        hc.update _ (.buf b) _ (dec32_lt _) rfl, ?_, ?_⟩
      · intro j c hj hcj
        show 1 ≤ Function.update s.refcnt (.buf b) (dec32 (s.refcnt (.buf b))) (.buf c)
        rw [Function.update_apply]
        split
        · omega
        · exact hone j c hj hcj
      · intro p hpl
        show Function.update s.refcnt (.buf b) (dec32 (s.refcnt (.buf b))) p + 2 ≤ 2 ^ 32
        rw [Function.update_apply]
        split
        · omega
        · exact hroom p hpl
    · simp [hb] at hr
  | write_data pid b x =>
    simp only [BCall.run] at hr
    split at hr
    · injection hr with hr
      subst hr
      exact ⟨bk, fl, hrep.same rfl rfl rfl rfl rfl rfl, hv, hc, hone, hroom⟩
    · cases hr


theorem PinReach.pinv {NBUF NBUCKET : Nat} (hN : 0 < NBUCKET) {disk : Nat → Nat → List Nat}
    {s : BState} (h : PinReach NBUF NBUCKET disk s) : PinInv NBUF NBUCKET s := by
  induction h with
  | init => exact PinInv.pinit NBUF NBUCKET disk
  | step s s' c _ hp hr ih => exact PinInv.pstep hN c ih hp hr

theorem PinReach.of_runPinned {NBUF NBUCKET : Nat} {disk : Nat → Nat → List Nat} :
    ∀ (cs : List BCall) {s s' : BState}, PinReach NBUF NBUCKET disk s →
    runPinned NBUF NBUCKET s cs = some s' → PinReach NBUF NBUCKET disk s'
  | [], s, s', h, hr => by
    simp only [Xv6.runPinned] at hr
    injection hr with hr
    exact hr ▸ h
  | c :: cs, s, s', h, hr => by
    simp only [Xv6.runPinned] at hr
    by_cases hp : c.pinned s = true
    · rw [if_pos hp] at hr
      cases e : c.run NBUF NBUCKET s with
      | none => rw [e] at hr; cases hr
      | some s1 =>
        rw [e] at hr
        exact PinReach.of_runPinned cs (PinReach.step s s1 c h hp e) hr
    · rw [if_neg hp] at hr
      cases hr

theorem eq_some_getD {α : Type} (o : Option α) (d : α) (h : o.isSome = true) :
    o = some (o.getD d) := by
  cases o with
  | none => cases h
  | some a => rfl

/-- C17 (amended). In every state reachable from `binit` by complete calls in which each
`bunpin` is applied to a buffer whose count is at least 2 and each `bpin` to a buffer
whose count is below `2^32 - 2`, every buffer linked in a bucket has `refcnt ≥ 1`, and
a buffer whose `refcnt` is 0 is on the free list. -/
theorem linked_buffers_have_a_reference (NBUF NBUCKET : Nat) (hN : 0 < NBUCKET)
    (disk : Nat → Nat → List Nat) (s : BState) (h : PinReach NBUF NBUCKET disk s) :
    (∀ b, linked NBUF NBUCKET s b → 1 ≤ s.refcnt (.buf b)) ∧
    ∀ b, b < NBUF → s.refcnt (.buf b) = 0 → ∃ fl, freeList NBUF s = some fl ∧ b ∈ fl := by
  obtain ⟨bk, fl, hrep, _, _, hone, _⟩ := h.pinv hN
  constructor
  · intro b hb
    obtain ⟨i, hi, hbi⟩ := (linked_iff hrep b).mp hb
    exact hone i b hi hbi
  · intro b hb h0
    refine ⟨fl, hrep.freeList_eq, ?_⟩
    rcases (hrep.cover b).mp hb with hfl | ⟨i, hi, hbi⟩
    · exact hfl
    · have := hone i b hi hbi
      omega

/-- C17 (amended), at a concrete input: in `pinned_state` buffer 2 was read, pinned and
released; it is still linked in bucket 1, with count 1. -/
theorem linked_buffers_have_a_reference_witness :
    bucketList 3 pinned_state 1 = some [2] ∧ pinned_state.refcnt (.buf 2) = 1 ∧
    ((∀ b, linked 3 2 pinned_state b → 1 ≤ pinned_state.refcnt (.buf b)) ∧
    ∀ b, b < 3 → pinned_state.refcnt (.buf b) = 0 →
      ∃ fl, freeList 3 pinned_state = some fl ∧ b ∈ fl) :=
  ⟨by decide, by decide,
    linked_buffers_have_a_reference 3 2 (by decide) (fun _ _ => []) pinned_state
      (PinReach.of_runPinned _ PinReach.init
        (eq_some_getD
          (runPinned 3 2 (binit 3 2 (fun _ _ => [])) [.bread 1 1 7, .bpin 2, .brelse 1 2])
          (binit 3 2 (fun _ _ => [])) (by decide)))⟩

/-- C17 as stated fails: `unpinned_state` is reached from `binit` by `bread`, `bpin` of the
buffer obtained, `brelse` and the matching `bunpin`, all of which return. The `brelse`
lowers the count to 1 and leaves the buffer in its bucket, and `bunpin` lowers it to 0
and moves nothing: buffer 2 is linked in bucket 1 with `refcnt = 0` and is not on the
free list. -/
theorem unpinned_buffer_stays_linked :
    Reachable 3 2 (fun _ _ => []) unpinned_state ∧
    (runCalls 3 2 (binit 3 2 (fun _ _ => []))
      [.bread 1 1 7, .bpin 2, .brelse 1 2, .bunpin 2]).isSome = true ∧
    linked 3 2 unpinned_state 2 ∧ unpinned_state.refcnt (.buf 2) = 0 ∧
    freeList 3 unpinned_state = some [1, 0] ∧
    ¬ (∀ b, linked 3 2 unpinned_state b → 1 ≤ unpinned_state.refcnt (.buf b)) :=
  ⟨Reachable.of_stateAfter 3 2 _ _, by decide, ⟨1, by decide, [2], by decide, by decide⟩,
    by decide, by decide,
    fun h => absurd (h 2 ⟨1, by decide, [2], by decide, by decide⟩) (by decide)⟩


theorem bind_assoc_out {α β γ : Type} (r : Outcome α) (f : α → Outcome β) (g : β → Outcome γ) :
    (r.bind f).bind g = r.bind (fun a => (f a).bind g) := by
  cases r <;> rfl

/-- Run alone, the steps of `bget` make up `bget`. -/
theorem bget_alone_eq (NBUF NBUCKET : Nat) (s : BState) (pid dev blockno : Nat) :
    bget_alone NBUF NBUCKET pid dev blockno 5 .scan s = bget NBUF NBUCKET s pid dev blockno := by
  unfold bget
  simp only [bget_alone, bget_step]
  cases hs : bget_scan s (blockno % NBUCKET) dev blockno (NBUF + NBUCKET + 1)
      (s.next (.head (blockno % NBUCKET))) with
  | found b =>
    simp only [bget_hit, bind, pure]
    cases h1 : st_prev s (s.next b) (s.prev b) with
    | ret s1 =>
      simp only [Outcome.bind]
      cases h2 : st_next s1 (s1.prev b) (s1.next b) with
      | ret s2 =>
        simp only [Outcome.bind]
        cases h3 : st_next s2 b (s2.next (.head (blockno % NBUCKET))) with
        | ret s3 =>
          simp only [Outcome.bind]
          cases h4 : st_prev s3 b (.head (blockno % NBUCKET)) with
          | ret s4 =>
            simp only [Outcome.bind]
            cases h5 : st_prev s4 (s4.next (.head (blockno % NBUCKET))) b with
            | ret s5 =>
              simp only [Outcome.bind]
              cases h6 : st_next s5 (.head (blockno % NBUCKET)) b with
              | ret s6 =>
                simp only [Outcome.bind, bget_alone, bget_step, bind, pure]
                cases h7 : acquiresleep
                  { s6 with refcnt := Function.update s6.refcnt b (inc32 (s6.refcnt b)) } b pid
                  <;> simp [Outcome.bind, bget_alone]
              | panic t => rfl
              | fault => rfl
              | hang => rfl
            | panic t => rfl
            | fault => rfl
            | hang => rfl
          | panic t => rfl
          | fault => rfl
          | hang => rfl
        | panic t => rfl
        | fault => rfl
        | hang => rfl
      | panic t => rfl
      | fault => rfl
      | hang => rfl
    | panic t => rfl
    | fault => rfl
    | hang => rfl
  | notFound =>
    simp only [Outcome.bind, bget_alone, bget_step, bget_miss, bind, pure]
    by_cases hf : s.freelist = .null
    · simp [hf, Outcome.bind]
    · simp only [hf, if_false, Outcome.bind, bget_alone, bget_step, bind, pure]
      cases h1 : st_next { s with freelist := s.next s.freelist } s.freelist
          (s.next (.head (blockno % NBUCKET))) with
      | ret s1 =>
        simp only [Outcome.bind]
        cases h2 : st_prev s1 s.freelist (.head (blockno % NBUCKET)) with
        | ret s2 =>
          simp only [Outcome.bind]
          cases h3 : st_prev s2 (s2.next (.head (blockno % NBUCKET))) s.freelist with
          | ret s3 =>
            simp only [Outcome.bind]
            cases h4 : st_next s3 (.head (blockno % NBUCKET)) s.freelist with
            | ret s4 =>
              simp only [Outcome.bind, bget_alone, bget_step, bind, pure]
              cases h5 : acquiresleep
                { s4 with refcnt := Function.update s4.refcnt s.freelist 1,
                          dev := Function.update s4.dev s.freelist dev,
                          blockno := Function.update s4.blockno s.freelist blockno,
                          valid := Function.update s4.valid s.freelist 0 } s.freelist pid
                <;> simp [Outcome.bind, bget_alone]
            | panic t => rfl
            | fault => rfl
            | hang => rfl
          | panic t => rfl
          | fault => rfl
          | hang => rfl
        | panic t => rfl
        | fault => rfl
        | hang => rfl
      | panic t => rfl
      | fault => rfl
      | hang => rfl
  | trap => rfl
  | forever => rfl


/-- C20 at a failing interleaving. After `binit` no buffer carries the key `(1, 7)`. In
`race_run` both calls of `bget(1, 7)` scan the bucket and miss before either has linked
a buffer; each then takes a buffer from the free list and links it. Both calls return
(buffer 2 to the first, buffer 1 to the second), and bucket 1 holds the two buffers,
both carrying the key `(1, 7)`. -/
theorem two_bgets_link_the_key_twice :
    bucketList 3 (binit 3 2 (fun _ _ => [])) 1 = some [] ∧
    race_run.toOption.map (fun r => (r.1, r.2.1)) =
      some (.done (.buf 2), .done (.buf 1)) ∧
    race_run.toOption.map (fun r => bucketList 3 r.2.2 1) = some (some [1, 2]) ∧
    race_run.toOption.map (fun r =>
      (r.2.2.dev (.buf 1), r.2.2.blockno (.buf 1), r.2.2.dev (.buf 2), r.2.2.blockno (.buf 2)))
      = some (1, 7, 1, 7) :=
  ⟨by decide, by decide, by decide, by decide⟩


/-- C21 at a failing input. `xargs echo` reads the two lines `a` and `b`. The first child
calls `exec` with `echo a`. After the `fork` the parent sets `p = buf` and then runs the
`p++` at the end of the loop body, so the second line is stored from `buf + 1` on, behind
the first byte of the first line: the second child calls `exec` with `echo ab`, not with
`echo b`. -/
theorem xargs_second_child_keeps_first_byte :
    (main 32 [bytes "xargs", bytes "echo"] (fun _ => 0) (bytes "a\nb\n")).1 =
      [.exec (bytes "echo") [bytes "echo", bytes "a"],
       .exec (bytes "echo") [bytes "echo", bytes "ab"]] ∧
    (main 32 [bytes "xargs", bytes "echo"] (fun _ => 0) (bytes "a\nb\n")).2 = .exit 0 ∧
    (main 32 [bytes "xargs", bytes "echo"] (fun _ => 0) (bytes "a\nb\n")).1.get? 1 ≠
      some (.exec (bytes "echo") [bytes "echo", bytes "b"]) :=
  ⟨by decide, by decide, by decide⟩


end Xv6
